import Mathlib

/-!
# Decision-tree induction (`main.cpp`): embedding and verified properties

The C++ program reads a delimited table (`DataSheet`), and `DecisionTree::buildTree`
builds an ID3-style tree from it.  This file embeds the data model and the functions
`DataSheet::calculateEntropy`, `DataSheet::calculateInformationGain`,
`DataSheet::splitDelimiter`, `DecisionTree::calculateIG_OnSubset`,
`DecisionTree::buildTree` and `DecisionTree::printTree` and proves properties of them.

Modelling conventions

* `vector<string>` is `List String`, `vector<vector<string>>` is `List (List String)`;
  row `0` of a table is the header row.
* An out-of-range `operator[]` is undefined behaviour in C++; here it is the fault
  `Fault.outOfBounds`.  Signed `int` indices are `Int`, so that `colCount - 1` with
  `colCount = 0` is `-1` and faults.  Sizes are assumed to fit an `int`.
* `double` is an arbitrary linear ordered field `α` together with a function `log2`;
  the theorems instantiate `α` with the reals and `log2` with `Real.logb 2`.
* An `unordered_map<string, T>` is an association list in first-insertion order; its
  iteration order is not fixed by the language, so every function that iterates over
  a map takes a `HashOrder`, an arbitrary rearrangement of the key list.
* The recursion of `buildTree` is driven by a fuel counter; `buildTree` supplies
  `headers.size() + 1` units and the theorems show that this is always enough and that
  more fuel does not change the result.
* `TreeNode::position` is only used for drawing and is left out.
* Output to `cout` and `cerr` is the list of the lines written, returned by the function.
* For `splitDelimiter` a `std::string` is its sequence of `char`, a `List Char`.
-/

/-! ## Definitions -/

/-- The ways in which the embedded code can fail to produce a value. -/
inductive Fault where
  | outOfBounds
  | outOfFuel
  deriving DecidableEq, Repr

/-- One row of the table: `vector<string>`. -/
abbrev Row := List String

/-- The table, header row first: `vector<vector<string>>`. -/
abbrev Table := List Row

/-- The read `v[i]` with a signed index; outside `0 ≤ i < v.size()` it faults. -/
def index {β : Type} (xs : List β) (i : Int) : Except Fault β :=
  if i < 0 then .error .outOfBounds
  else match xs[i.toNat]? with
    | some x => .ok x
    | none => .error .outOfBounds

/-- An `unordered_map<string, β>` as an association list in first-insertion order. -/
abbrev StrMap (β : Type) := List (String × β)

/-- The access `m[k]` followed by an in-place change `f` of the referenced value; an absent
key is first inserted with the value-initialised `d`. -/
def StrMap.update {β : Type} (m : StrMap β) (k : String) (d : β) (f : β → β) : StrMap β :=
  match m with
  | [] => [(k, f d)]
  | (k', v) :: rest =>
    if k' = k then (k', f v) :: rest else (k', v) :: StrMap.update rest k d f

/-- The iteration order of an `unordered_map`: some rearrangement of its keys, given in
first-insertion order. -/
structure HashOrder where
  iter : List String → List String
  perm : ∀ ks, (iter ks).Perm ks

/-- The entries of a map in the order in which a range-`for` visits them. -/
def HashOrder.entries {β : Type} (h : HashOrder) (m : StrMap β) : List (String × β) :=
  (h.iter (m.map Prod.fst)).filterMap (fun k => (m.lookup k).map (fun v => (k, v)))

/-- The iteration order that visits keys in first-insertion order. -/
def insertionOrder : HashOrder := ⟨id, fun _ => List.Perm.refl _⟩

/-- The iteration order that visits the most recently inserted key first. -/
def reverseOrder : HashOrder := ⟨List.reverse, fun ks => List.reverse_perm ks⟩

/-- The struct `TreeNode`: `attribute`, `label` and the `children` map (in insertion order). -/
inductive TreeNode where
  | mk (attr : String) (label : String) (children : List (String × TreeNode))

/-- The field `attribute` (a reserved word here, hence `attr`). -/
def TreeNode.attr : TreeNode → String
  | .mk a _ _ => a

/-- The field `label`. -/
def TreeNode.label : TreeNode → String
  | .mk _ l _ => l

/-- The field `children`. -/
def TreeNode.children : TreeNode → List (String × TreeNode)
  | .mk _ _ cs => cs

mutual
/-- Number of nodes with children on the longest path from this node down to a leaf. -/
def TreeNode.depth : TreeNode → Nat
  | .mk _ _ cs => TreeNode.depthList cs
/-- Largest `1 + depth` over a list of children, `0` for no children. -/
def TreeNode.depthList : List (String × TreeNode) → Nat
  | [] => 0
  | (_, t) :: rest => max (1 + t.depth) (TreeNode.depthList rest)
end

/-- The loop `for (i ...) freq[rows[i][labelIndex]]++` over the given rows. -/
def countLabels (rows : List Row) (labelIndex : Int) : Except Fault (StrMap Nat) :=
  rows.foldlM (fun m r => do
    let lab ← index r labelIndex
    pure (m.update lab 0 (· + 1))) []

/-- The loop `for (i ...) parts[rows[i][attrIdx]].push_back(g rows[i])` over the given rows. -/
def groupRows (rows : List Row) (attrIdx : Int) (g : Row → Row) :
    Except Fault (StrMap (List Row)) :=
  rows.foldlM (fun m r => do
    let key ← index r attrIdx
    pure (m.update key [] (· ++ [g r]))) []

/-- The loop `for (i = 2 ...) if (data[i][labelIndex] != firstLab) { allSame = false; break; }`
over the rows from index 2 on. -/
def allSameFrom (firstLab : String) (labelIndex : Int) : List Row → Except Fault Bool
  | [] => pure true
  | r :: rs => do
    let lab ← index r labelIndex
    if lab ≠ firstLab then pure false else allSameFrom firstLab labelIndex rs

/-- The scan `for (kv : freq) if (kv.second > maxC) { maxC = kv.second; majority = kv.first; }`
starting from `majority = ""`, `maxC = 0`. -/
def majorityOf (entries : List (String × Nat)) : String :=
  (entries.foldl (fun (acc : String × Nat) kv =>
    if kv.2 > acc.2 then (kv.1, kv.2) else acc) ("", 0)).1

/-- The majority-label fallback of `buildTree`: count the labels, scan for the maximum, and
return a node with empty attribute and that label. -/
def majorityLeaf (h : HashOrder) (rows : List Row) (labelIndex : Int) :
    Except Fault TreeNode := do
  let freq ← countLabels rows labelIndex
  pure (TreeNode.mk "" (majorityOf (h.entries freq)) [])

section Arithmetic

variable {α : Type} [LinearOrderedField α]

/-- The loop `for (kv : counts) { p = double(kv.second) / denom; ent += -p * log2(p); }`
starting from `ent = 0.0`. -/
def entropySum (log2 : α → α) (entries : List (String × Nat)) (denom : Int) : α :=
  entries.foldl (fun ent kv =>
    let p : α := (kv.2 : α) / (denom : α)
    ent + (-p * log2 p)) 0

namespace DataSheet

/-- The method `DataSheet::calculateEntropy` on the member `dataFile`. -/
def calculateEntropy (log2 : α → α) (h : HashOrder) (dataFile : Table) : Except Fault α := do
  let row : Int := dataFile.length
  let header ← index dataFile 0
  let col : Int := header.length
  let classCount ← countLabels (dataFile.drop 1) (col - 1)
  pure (entropySum log2 (h.entries classCount) (row - 1))

end DataSheet

namespace DecisionTree

/-- The method `DecisionTree::calculateIG_OnSubset`. -/
def calculateIG_OnSubset (log2 : α → α) (h : HashOrder) (subset : Table) (attrIdx : Int) :
    Except Fault α := do
  let rowCount : Int := subset.length
  let header ← index subset 0
  let colCount : Int := header.length
  let labelIdx : Int := colCount - 1
  let labelCount ← countLabels (subset.drop 1) labelIdx
  let totalEnt := entropySum log2 (h.entries labelCount) (rowCount - 1)
  let parts ← groupRows (subset.drop 1) attrIdx id
  let remainder ← (h.entries parts).foldlM (fun (acc : α) kv => do
    let partSize : Nat := kv.2.length
    let partLabelCount ← countLabels kv.2 labelIdx
    let partEnt := entropySum log2 (h.entries partLabelCount) partSize
    pure (acc + ((partSize : α) / ((rowCount - 1 : Int) : α)) * partEnt)) 0
  pure (totalEnt - remainder)

/-- The selection loop of `buildTree`:
`for (i = 0; i < n; ++i) { gain = ...; if (gain > bestGain) { bestGain = gain; bestIndex = i; } }`
starting from `bestIndex = -1`, `bestGain = -1.0`; the state is `(bestIndex, bestGain)`. -/
def selectBest (gainOf : Nat → Except Fault α) (n : Nat) : Except Fault (Int × α) :=
  (List.range n).foldlM (fun (st : Int × α) i => do
    let gain ← gainOf i
    if gain > st.2 then pure ((i : Int), gain) else pure st) (-1, -1)

/-- The method `DecisionTree::buildTree` with a bound on the recursion depth. -/
def buildTreeFuel (log2 : α → α) (h : HashOrder) :
    Nat → Table → Row → Except Fault TreeNode
  | 0, _, _ => .error .outOfFuel
  | fuel + 1, data, headers => do
    let colCount : Nat := headers.length
    let labelIndex : Int := (colCount : Int) - 1
    let row1 ← index data 1
    let firstLab ← index row1 labelIndex
    let allSame ← allSameFrom firstLab labelIndex (data.drop 2)
    if allSame then pure (TreeNode.mk "" firstLab [])
    else if colCount ≤ 2 then majorityLeaf h (data.drop 1) labelIndex
    else do
      let best ← selectBest (fun i => calculateIG_OnSubset log2 h data i) (colCount - 1)
      let bestIndex : Int := best.1
      if bestIndex < 0 then majorityLeaf h (data.drop 1) labelIndex
      else do
        let bestAttr ← index headers bestIndex
        let partitions ← groupRows (data.drop 1) bestIndex
          (fun r => r.eraseIdx bestIndex.toNat)
        let newHeaders := headers.eraseIdx bestIndex.toNat
        let children ← (h.entries partitions).mapM (fun kv => do
          let child ← buildTreeFuel log2 h fuel (newHeaders :: kv.2) newHeaders
          pure (kv.1, child))
        pure (TreeNode.mk bestAttr "" children)

/-- The method `DecisionTree::buildTree`: every recursive call shortens `headers` by one
entry, so `headers.size() + 1` units of fuel are supplied. -/
def buildTree (log2 : α → α) (h : HashOrder) (data : Table) (headers : Row) :
    Except Fault TreeNode :=
  buildTreeFuel log2 h (headers.length + 1) data headers

end DecisionTree

end Arithmetic

/-! ## Pure counterparts of the loops and the mathematical reference notions -/

/-- The field of a row at a column, `""` outside the row. -/
def cell (r : Row) (i : Nat) : String := r.getD i ""

/-- The values of one column over a list of rows, in row order. -/
def column (rows : List Row) (i : Nat) : List String := rows.map (fun r => cell r i)

/-- The rows whose field in column `a` is `v`, in their original order. -/
def rowsWith (rows : List Row) (a : Nat) (v : String) : List Row :=
  rows.filter (fun r => cell r a = v)

/-- The frequency map after counting the given labels one by one. -/
def tally (ls : List String) : StrMap Nat :=
  ls.foldl (fun m l => m.update l 0 (· + 1)) []

/-- The partition map after appending `g r` to the group of `cell r a`, row by row. -/
def groups (rows : List Row) (a : Nat) (g : Row → Row) : StrMap (List Row) :=
  rows.foldl (fun m r => m.update (cell r a) [] (· ++ [g r])) []

/-- A table as `buildTree` expects it: the first row is `headers`, there is at least one data
row, every row is as wide as `headers`, and there is a label column (every row that
`splitDelimiter` produces has at least one field). -/
def WellFormed (data : Table) (headers : Row) : Prop :=
  data.head? = some headers ∧ 1 ≤ headers.length ∧ 2 ≤ data.length ∧
    ∀ r ∈ data, r.length = headers.length

instance (data : Table) (headers : Row) : Decidable (WellFormed data headers) := by
  unfold WellFormed
  infer_instance

section Reference

variable {α : Type} [LinearOrderedField α]

/-- Shannon entropy of the empirical distribution of a list of labels:
`Σ_y -p_y · log2 p_y` over the labels `y` that occur, with `p_y = count y / length`. -/
def shannon (log2 : α → α) (ls : List String) : α :=
  ∑ y ∈ ls.toFinset,
    -((ls.count y : α) / (ls.length : α)) * log2 ((ls.count y : α) / (ls.length : α))

/-- Information gain as the specification words it: the label entropy of the rows minus,
over every observed value `v` of column `a`, the share of rows with value `v` times the
label entropy of those rows; `li` is the label column. -/
def specGain (log2 : α → α) (rows : List Row) (a li : Nat) : α :=
  shannon log2 (column rows li) -
    ∑ v ∈ (column rows a).toFinset,
      ((rowsWith rows a v).length : α) / (rows.length : α) *
        shannon log2 (column (rowsWith rows a v) li)

/-- The result of the selection loop over gains that are already known, as the pair
`(bestIndex, bestGain)`. -/
def argBest (g : Nat → α) (n : Nat) : Int × α :=
  (List.range n).foldl (fun (st : Int × α) i =>
    if g i > st.2 then ((i : Int), g i) else st) (-1, -1)

end Reference

/-- The labels of the data rows of a table (all rows but the header), in row order. -/
def labelsOf (data : Table) (headers : Row) : List String :=
  column data.tail (headers.length - 1)

/-- The labels of a list in the order of their first occurrence. -/
def firstSeen (ls : List String) : List String :=
  ls.foldl (fun acc l => if l ∈ acc then acc else acc ++ [l]) []

/-- The label that the specification's tie-break names: the first label, in row order, whose
number of occurrences is not exceeded by any other label. -/
def firstMajority (ls : List String) : Option String :=
  ls.find? (fun l => ls.all (fun l' => decide (ls.count l' ≤ ls.count l)))

/-! ## Sample tables -/

/-- The headers of the weather table. -/
def weatherHeaders : Row := ["Weather", "Play"]

/-- One attribute and a label, three data rows with two different labels. -/
def weatherTable : Table :=
  [["Weather", "Play"], ["Sunny", "Yes"], ["Sunny", "Yes"], ["Rainy", "No"]]

/-- The headers of a table that has only the label column left. -/
def labelOnlyHeaders : Row := ["Play"]

/-- No attribute column left, labels `A, A, B`. -/
def aabTable : Table := [["Play"], ["A"], ["A"], ["B"]]

/-- No attribute column left, labels `A, B`: both labels occur once. -/
def tieTable : Table := [["Play"], ["A"], ["B"]]

/-- The headers of the outlook table. -/
def outlookHeaders : Row := ["Outlook", "Windy", "Play"]

/-- Two attributes and a label, four data rows with two different labels. -/
def outlookTable : Table :=
  [["Outlook", "Windy", "Play"], ["Sunny", "No", "Yes"], ["Sunny", "Yes", "Yes"],
    ["Rainy", "No", "No"], ["Rainy", "Yes", "Yes"]]

/-- One attribute and a label, two data rows with the same label. -/
def sameLabelTable : Table := [["Weather", "Play"], ["Sunny", "Yes"], ["Rainy", "Yes"]]

/-! ## Further embedded code: traversal, the name-based gain, the line splitter -/

/-- The leaf test of the traversal code, `!node->label.empty()`. -/
def TreeNode.isLeaf (t : TreeNode) : Bool := decide (t.label ≠ "")

/-- The Leaf variant of the data model: a non-empty label, an empty attribute, no children. -/
def TreeNode.isLeafVariant (t : TreeNode) : Bool :=
  decide (t.label ≠ "") && decide (t.attr = "") && t.children.isEmpty

/-- The Split variant of the data model: a non-empty attribute, an empty label, at least one
child. -/
def TreeNode.isSplitVariant (t : TreeNode) : Bool :=
  decide (t.attr ≠ "") && decide (t.label = "") && !t.children.isEmpty

mutual
/-- Whether a test holds at this node and at every node below it. -/
def TreeNode.all (p : TreeNode → Bool) : TreeNode → Bool
  | .mk a l cs => p (.mk a l cs) && TreeNode.allList p cs
/-- Whether a test holds at every node of every listed subtree. -/
def TreeNode.allList (p : TreeNode → Bool) : List (String × TreeNode) → Bool
  | [] => true
  | (_, t) :: rest => t.all p && TreeNode.allList p rest
end

mutual
/-- Whether, at this node and at every node below it, no two children share a key, as in a
map. -/
def TreeNode.keysDistinct : TreeNode → Bool
  | .mk _ _ cs => decide ((cs.map Prod.fst).Nodup) && TreeNode.keysDistinctList cs
/-- The same for every listed subtree. -/
def TreeNode.keysDistinctList : List (String × TreeNode) → Bool
  | [] => true
  | (_, t) :: rest => t.keysDistinct && TreeNode.keysDistinctList rest
end

mutual
/-- The number of nodes of a tree. -/
def TreeNode.size : TreeNode → Nat
  | .mk _ _ cs => 1 + TreeNode.sizeList cs
/-- The number of nodes of the listed subtrees. -/
def TreeNode.sizeList : List (String × TreeNode) → Nat
  | [] => 0
  | (_, t) :: rest => t.size + TreeNode.sizeList rest
end

mutual
/-- The attribute sequences along the paths from this node down to the nodes without
children; only nodes with children contribute their attribute. -/
def TreeNode.paths : TreeNode → List (List String)
  | .mk _ _ [] => [[]]
  | .mk a _ (c :: cs) => (TreeNode.pathsList (c :: cs)).map (fun p => a :: p)
/-- The paths of all listed subtrees. -/
def TreeNode.pathsList : List (String × TreeNode) → List (List String)
  | [] => []
  | (_, t) :: rest => t.paths ++ TreeNode.pathsList rest
end

/-- The call `sort(keys.begin(), keys.end())` on strings: ascending in the order `<` of
`std::string`. -/
def sortKeys (keys : List String) : List String :=
  keys.insertionSort (fun a b => a ≤ b)

mutual
/-- The nodes of a tree in depth-first pre-order, the children of every node taken in
ascending order of their keys. -/
def TreeNode.preorder : TreeNode → List TreeNode
  | .mk a l cs =>
    .mk a l cs ::
      (sortKeys (cs.map Prod.fst)).flatMap
        (fun k => ((TreeNode.preorderList cs).lookup k).getD [])
/-- Every listed child key with the pre-order of its subtree. -/
def TreeNode.preorderList : List (String × TreeNode) → List (String × List TreeNode)
  | [] => []
  | (k, t) :: rest => (k, t.preorder) :: TreeNode.preorderList rest
end

namespace DecisionTree

/-- The method `DecisionTree::printTree` for a non-null `node`, with a bound on the recursion
depth; the result is the list of lines written to `cout`. -/
def printTreeFuel (h : HashOrder) :
    Nat → TreeNode → String → String → String → Except Fault (List String)
  | 0, _, _, _, _ => .error .outOfFuel
  | fuel + 1, node, indent, edgeValue, path =>
    let fullPath : String :=
      if edgeValue ≠ "" then (if path ≠ "" then path ++ " -> " else path) ++ edgeValue
      else path
    if node.label ≠ "" then
      pure [indent ++ "├── " ++ fullPath ++ ": Leaf = " ++ node.label]
    else do
      let line : String :=
        if edgeValue ≠ "" then indent ++ "├── " ++ edgeValue ++ ": Attribute = " ++ node.attr
        else indent ++ "Attribute = " ++ node.attr
      let keys := sortKeys ((h.entries node.children).map Prod.fst)
      let below ← keys.mapM (fun val => do
        let child ← match node.children.lookup val with
          | some c => pure c
          | none => Except.error Fault.outOfBounds
        printTreeFuel h fuel child (indent ++ "│   ") val fullPath)
      pure (line :: below.flatten)

/-- The method `DecisionTree::printTree` called without arguments on a tree whose member
`root` is the given pointer (`none` for `nullptr`). -/
def printTree (h : HashOrder) (root : Option TreeNode) : Except Fault (List String) :=
  match root with
  | none => pure ["Tree is empty."]
  | some r => printTreeFuel h (r.depth + 1) r "" "" ""

end DecisionTree

section NameBasedGain

variable {α : Type} [LinearOrderedField α]

namespace DataSheet

/-- The search loop of `calculateInformationGain` over the given column indices:
`if (dataFile[0][i] == attributeName) { attributeIndex = i; break; }`, starting from
`attributeIndex = -1`. -/
def findAttribute (dataFile : Table) (attributeName : String) : List Nat → Except Fault Int
  | [] => pure (-1)
  | i :: rest => do
    let header ← index dataFile 0
    let name ← index header (i : Int)
    if name = attributeName then pure (i : Int) else findAttribute dataFile attributeName rest

/-- The method `DataSheet::calculateInformationGain` on the members `dataFile` and
`entropyOfDatas`; the result is the list of lines written to `cerr` together with the
returned number. -/
def calculateInformationGain (log2 : α → α) (h : HashOrder) (dataFile : Table)
    (entropyOfDatas : α) (attributeName : String) : Except Fault (List String × α) := do
  let header ← index dataFile 0
  let columnCount : Int := header.length
  let rowCount : Int := dataFile.length
  let attributeIndex ← findAttribute dataFile attributeName (List.range (header.length - 1))
  if attributeIndex < 0 then
    pure (["Attribute not found: " ++ attributeName], 0)
  else do
    let partitions ← groupRows (dataFile.drop 1) attributeIndex id
    let infoGain ← (h.entries partitions).foldlM (fun (acc : α) kv => do
      let labelCount ← countLabels kv.2 (columnCount - 1)
      let subsetEntropy := entropySum log2 (h.entries labelCount) kv.2.length
      pure (acc - ((kv.2.length : α) / ((rowCount - 1 : Int) : α)) * subsetEntropy))
      entropyOfDatas
    pure ([], infoGain)

end DataSheet

namespace DecisionTree

/-- The arguments `(subset, newHeaders)` of the recursive calls that one invocation of
`buildTree` makes, in call order; none on the paths that return a leaf. -/
def recursiveCalls (log2 : α → α) (h : HashOrder) (data : Table) (headers : Row) :
    Except Fault (List (Table × Row)) := do
  let colCount : Nat := headers.length
  let labelIndex : Int := (colCount : Int) - 1
  let row1 ← index data 1
  let firstLab ← index row1 labelIndex
  let allSame ← allSameFrom firstLab labelIndex (data.drop 2)
  if allSame then pure []
  else if colCount ≤ 2 then do
    let _ ← majorityLeaf h (data.drop 1) labelIndex
    pure []
  else do
    let best ← selectBest (fun i => calculateIG_OnSubset log2 h data i) (colCount - 1)
    let bestIndex : Int := best.1
    if bestIndex < 0 then do
      let _ ← majorityLeaf h (data.drop 1) labelIndex
      pure []
    else do
      let _ ← index headers bestIndex
      let partitions ← groupRows (data.drop 1) bestIndex
        (fun r => r.eraseIdx bestIndex.toNat)
      let newHeaders := headers.eraseIdx bestIndex.toNat
      pure ((h.entries partitions).map (fun kv => (newHeaders :: kv.2, newHeaders)))

/-- One invocation of `buildTree` on `x` calls `buildTree` on `y`. -/
def DirectCall (log2 : α → α) (h : HashOrder) (x y : Table × Row) : Prop :=
  ∃ calls, recursiveCalls log2 h x.1 x.2 = .ok calls ∧ y ∈ calls

end DecisionTree

end NameBasedGain

namespace DataSheet

/-- The position of the first occurrence of a character in a character sequence. -/
def firstAt (delimiter : Char) : List Char → Option Nat
  | [] => none
  | c :: cs => if c = delimiter then some 0 else (firstAt delimiter cs).map (· + 1)

/-- The call `input.find(delimiter, start)` on a `std::string` given as its sequence of
`char`; `none` stands for `npos`. -/
def findFrom (input : List Char) (delimiter : Char) (start : Nat) : Option Nat :=
  (firstAt delimiter (input.drop start)).map (· + start)

/-- The loop `while (true)` of `splitDelimiter` with a bound on the number of rounds; the
state is `start` and `output`.  `substr` throws when `start` exceeds the size. -/
def splitLoop (input : List Char) (delimiter : Char) :
    Nat → Nat → List (List Char) → Except Fault (List (List Char))
  | 0, _, _ => .error .outOfFuel
  | fuel + 1, start, output =>
    match findFrom input delimiter start with
    | none =>
      if start ≤ input.length then pure (output ++ [input.drop start])
      else .error .outOfBounds
    | some pos =>
      if start ≤ input.length then
        splitLoop input delimiter fuel (pos + 1)
          (output ++ [(input.drop start).take (pos - start)])
      else .error .outOfBounds

/-- The method `DataSheet::splitDelimiter`; the result is the final content of `output`,
whose previous content is cleared first.  Every round but the last passes a delimiter, so
`input.size() + 1` rounds are supplied. -/
def splitDelimiter (input : List Char) (_output : List (List Char)) (delimiter : Char) :
    Except Fault (List (List Char)) :=
  splitLoop input delimiter (input.length + 1) 0 []

end DataSheet

/-- The fields of a line as the specification describes them: cut at every delimiter. -/
def splitFields (delimiter : Char) : List Char → List (List Char)
  | [] => [[]]
  | c :: cs =>
    if c = delimiter then [] :: splitFields delimiter cs
    else match splitFields delimiter cs with
      | [] => [[c]]
      | f :: fs => (c :: f) :: fs

/-- A table whose data rows all carry the empty label, as read from the lines
`Weather,Play`, `Sunny,`, `Rainy,`. -/
def emptyLabelTable : Table := [["Weather", "Play"], ["Sunny", ""], ["Rainy", ""]]

/-- A table that consists of the header row only. -/
def headerOnlyTable : Table := [["Weather", "Play"]]

/-- A printed line shows a node: it ends in `Leaf = <label>` for a Leaf and in
`Attribute = <name>` for a Split. -/
def lineShows (line : String) (n : TreeNode) : Prop :=
  (n.isLeafVariant = true ∧ ∃ pre, line = pre ++ "Leaf = " ++ n.label) ∨
  (n.isSplitVariant = true ∧ ∃ pre, line = pre ++ "Attribute = " ++ n.attr)

/-- The tree that the specification expects for the weather table: a Split on `Weather`
with the children `Sunny -> Leaf(Yes)` and `Rainy -> Leaf(No)`. -/
def weatherTree : TreeNode :=
  TreeNode.mk "Weather" "" [("Sunny", TreeNode.mk "" "Yes" []), ("Rainy", TreeNode.mk "" "No" [])]

/-- A printed line shows a node the way the traversal code tells the nodes apart, by the
test `!node->label.empty()`: the line ends in `Leaf = <label>` when the label is not empty
and in `Attribute = <name>` when it is. -/
def linePrints (line : String) (n : TreeNode) : Prop :=
  (n.label ≠ "" ∧ ∃ pre, line = pre ++ "Leaf = " ++ n.label) ∨
  (n.label = "" ∧ ∃ pre, line = pre ++ "Attribute = " ++ n.attr)

mutual
/-- The relation "`nodes` lists the nodes of the tree in depth-first pre-order, the children
of every node in ascending order of their keys": the node itself comes first, then, for the
children arranged so that their keys strictly ascend, the lists of the subtrees one after
the other. -/
inductive TreeNode.PreorderAscending : TreeNode → List TreeNode → Prop
  | node (a l : String) (cs ordered : List (String × TreeNode)) (below : List TreeNode) :
      ordered.Perm cs → (ordered.map Prod.fst).Sorted (fun x y => x < y) →
      TreeNode.PreorderEach ordered below →
      TreeNode.PreorderAscending (TreeNode.mk a l cs) (TreeNode.mk a l cs :: below)
/-- The lists of the given subtrees, one after the other in the given order. -/
inductive TreeNode.PreorderEach : List (String × TreeNode) → List TreeNode → Prop
  | nil : TreeNode.PreorderEach [] []
  | cons (k : String) (t : TreeNode) (rest : List (String × TreeNode))
      (ns ms : List TreeNode) :
      TreeNode.PreorderAscending t ns → TreeNode.PreorderEach rest ms →
      TreeNode.PreorderEach ((k, t) :: rest) (ns ++ ms)
end

/-! ## Theorems -/

/-! ### Indexing -/

theorem index_natCast {β : Type} (xs : List β) (i : Nat) (hi : i < xs.length) :
    index xs (i : Int) = .ok xs[i] := by
  simp [index, List.getElem?_eq_getElem hi]

theorem index_cell (r : Row) (i : Nat) (hi : i < r.length) :
    index r (i : Int) = .ok (cell r i) := by
  rw [index_natCast r i hi]
  simp [cell, List.getD_eq_getElem?_getD, List.getElem?_eq_getElem hi]

theorem index_label (r : Row) (c : Nat) (hc : 1 ≤ c) (hr : r.length = c) :
    index r ((c : Int) - 1) = .ok (cell r (c - 1)) := by
  have h1 : ((c : Int) - 1) = ((c - 1 : Nat) : Int) := by omega
  rw [h1]
  exact index_cell r (c - 1) (by omega)

/-! ### The association-list model of `unordered_map` -/

theorem StrMap.keys_update {β : Type} (m : StrMap β) (k : String) (d : β) (f : β → β) :
    (m.update k d f).map Prod.fst =
      if k ∈ m.map Prod.fst then m.map Prod.fst else m.map Prod.fst ++ [k] := by
  induction m with
  | nil => simp [StrMap.update]
  | cons e rest ih =>
    obtain ⟨k', v⟩ := e
    by_cases hk : k' = k
    · simp [StrMap.update, hk]
    · have hk2 : ¬ k = k' := fun e => hk e.symm
      simp only [StrMap.update, hk, if_false, List.map_cons, ih, List.mem_cons, hk2, false_or]
      split <;> simp

theorem lookup_cons_ite {β : Type} (k k0 : String) (v : β) (rest : List (String × β)) :
    List.lookup k ((k0, v) :: rest) = if k = k0 then some v else List.lookup k rest := by
  by_cases h : k = k0
  · simp [List.lookup, h]
  · have hb : (k == k0) = false := by simpa using h
    simp [List.lookup, h, hb]

theorem StrMap.lookup_update {β : Type} (m : StrMap β) (k : String) (d : β) (f : β → β)
    (k' : String) :
    (m.update k d f).lookup k' =
      if k' = k then some (f ((m.lookup k).getD d)) else m.lookup k' := by
  induction m with
  | nil =>
    simp only [StrMap.update, lookup_cons_ite]
    simp [List.lookup]
  | cons e rest ih =>
    obtain ⟨k0, v⟩ := e
    by_cases hk : k0 = k
    · subst hk
      simp only [StrMap.update, if_true, lookup_cons_ite]
      split <;> simp
    · have hk2 : ¬ k = k0 := fun e => hk e.symm
      simp only [StrMap.update, hk, if_false, lookup_cons_ite, ih, hk2]
      by_cases h : k' = k
      · subst h
        simp [hk2]
      · simp [h]

theorem StrMap.filterMap_keys {β : Type} (m : StrMap β) (hn : (m.map Prod.fst).Nodup) :
    (m.map Prod.fst).filterMap (fun k => (m.lookup k).map (fun v => (k, v))) = m := by
  induction m with
  | nil => rfl
  | cons e rest ih =>
    obtain ⟨k0, v⟩ := e
    simp only [List.map_cons, List.nodup_cons] at hn
    have h1 : List.filterMap (fun k => (List.lookup k ((k0, v) :: rest)).map (fun v => (k, v)))
        (rest.map Prod.fst) =
        List.filterMap (fun k => (List.lookup k rest).map (fun v => (k, v)))
        (rest.map Prod.fst) := by
      apply List.filterMap_congr
      intro k hk
      have : ¬ k = k0 := fun e => hn.1 (e ▸ hk)
      simp [lookup_cons_ite, this]
    rw [List.map_cons, List.filterMap_cons, h1, ih hn.2]
    simp [lookup_cons_ite]

theorem HashOrder.entries_perm {β : Type} (h : HashOrder) (m : StrMap β)
    (hn : (m.map Prod.fst).Nodup) : (h.entries m).Perm m := by
  have h1 := (h.perm (m.map Prod.fst)).filterMap
    (fun k => (m.lookup k).map (fun v => (k, v)))
  rw [StrMap.filterMap_keys m hn] at h1
  exact h1

theorem StrMap.mem_iff_lookup {β : Type} (m : StrMap β) (hn : (m.map Prod.fst).Nodup)
    (k : String) (v : β) : (k, v) ∈ m ↔ m.lookup k = some v := by
  induction m with
  | nil => simp [List.lookup]
  | cons e rest ih =>
    obtain ⟨k0, v0⟩ := e
    simp only [List.map_cons, List.nodup_cons] at hn
    rw [lookup_cons_ite, List.mem_cons]
    by_cases hk : k = k0
    · subst hk
      simp only [if_true, Prod.mk.injEq, true_and, Option.some.injEq]
      constructor
      · rintro (h | h)
        · exact h.symm
        · exact absurd (List.mem_map_of_mem Prod.fst h) hn.1
      · intro h
        exact Or.inl h.symm
    · simp [hk, ih hn.2]

theorem filterMap_eq_map_of {β γ : Type} (l : List β) (f : β → Option γ) (g : β → γ)
    (hfg : ∀ x ∈ l, f x = some (g x)) : l.filterMap f = l.map g := by
  induction l with
  | nil => rfl
  | cons x xs ih =>
    rw [List.filterMap_cons, hfg x (List.mem_cons_self x xs), List.map_cons,
      ih (fun y hy => hfg y (List.mem_cons_of_mem x hy))]

/-! ### Counting labels -/

theorem tally_append (ls : List String) (l : String) :
    tally (ls ++ [l]) = (tally ls).update l 0 (· + 1) := by
  simp [tally, List.foldl_append]

theorem tally_keys (ls : List String) :
    ((tally ls).map Prod.fst).Nodup ∧ ∀ k, k ∈ (tally ls).map Prod.fst ↔ k ∈ ls := by
  induction ls using List.reverseRecOn with
  | nil => simp [tally]
  | append_singleton ls l ih =>
    rw [tally_append, StrMap.keys_update]
    by_cases hl : l ∈ (tally ls).map Prod.fst
    · rw [if_pos hl]
      refine ⟨ih.1, fun k => ?_⟩
      rw [ih.2 k, List.mem_append, List.mem_singleton]
      constructor
      · exact Or.inl
      · rintro (h | h)
        · exact h
        · subst h; exact (ih.2 _).1 hl
    · rw [if_neg hl]
      refine ⟨?_, fun k => ?_⟩
      · rw [List.nodup_append]
        refine ⟨ih.1, List.nodup_singleton l, ?_⟩
        intro a ha hb
        rw [List.mem_singleton] at hb
        subst hb
        exact hl ha
      · simp only [List.mem_append, List.mem_singleton]
        rw [ih.2 k]

theorem tally_lookup (ls : List String) (k : String) :
    (tally ls).lookup k = if k ∈ ls then some (ls.count k) else none := by
  induction ls using List.reverseRecOn with
  | nil => simp [tally, List.lookup]
  | append_singleton ls l ih =>
    rw [tally_append, StrMap.lookup_update]
    by_cases hk : k = l
    · subst hk
      rw [if_pos rfl, ih]
      by_cases hm : k ∈ ls
      · simp [hm, List.count_append]
      · simp [hm, List.count_append, List.count_eq_zero_of_not_mem hm]
    · rw [if_neg hk, ih]
      have hc : List.count k [l] = 0 := List.count_eq_zero_of_not_mem (by simp [hk])
      simp [hk, List.count_append, hc]

theorem tally_mem (ls : List String) (k : String) (c : Nat) :
    (k, c) ∈ tally ls ↔ k ∈ ls ∧ c = ls.count k := by
  rw [StrMap.mem_iff_lookup _ (tally_keys ls).1, tally_lookup]
  by_cases hk : k ∈ ls
  · simp [hk, eq_comm]
  · simp [hk]

theorem tally_eq_map (ls : List String) :
    tally ls = ((tally ls).map Prod.fst).map (fun k => (k, ls.count k)) := by
  have h1 := StrMap.filterMap_keys (tally ls) (tally_keys ls).1
  have h2 : ((tally ls).map Prod.fst).filterMap
      (fun k => ((tally ls).lookup k).map (fun v => (k, v))) =
      ((tally ls).map Prod.fst).map (fun k => (k, ls.count k)) := by
    apply filterMap_eq_map_of
    intro k hk
    have hm : k ∈ ls := ((tally_keys ls).2 k).1 hk
    simp [tally_lookup, hm]
  rw [← h2]
  exact h1.symm

/-! ### Grouping rows by the value of a column -/

theorem groups_append (rows : List Row) (r : Row) (a : Nat) (g : Row → Row) :
    groups (rows ++ [r]) a g = (groups rows a g).update (cell r a) [] (· ++ [g r]) := by
  simp [groups, List.foldl_append]

theorem groups_keys (rows : List Row) (a : Nat) (g : Row → Row) :
    ((groups rows a g).map Prod.fst).Nodup ∧
      ∀ k, k ∈ (groups rows a g).map Prod.fst ↔ k ∈ column rows a := by
  induction rows using List.reverseRecOn with
  | nil => simp [groups, column]
  | append_singleton rows r ih =>
    rw [groups_append, StrMap.keys_update]
    have hcol : column (rows ++ [r]) a = column rows a ++ [cell r a] := by simp [column]
    rw [hcol]
    by_cases hl : cell r a ∈ (groups rows a g).map Prod.fst
    · rw [if_pos hl]
      refine ⟨ih.1, fun k => ?_⟩
      rw [ih.2 k, List.mem_append, List.mem_singleton]
      constructor
      · exact Or.inl
      · rintro (h | h)
        · exact h
        · subst h; exact (ih.2 _).1 hl
    · rw [if_neg hl]
      refine ⟨?_, fun k => ?_⟩
      · rw [List.nodup_append]
        refine ⟨ih.1, List.nodup_singleton _, ?_⟩
        intro x ha hb
        rw [List.mem_singleton] at hb
        subst hb
        exact hl ha
      · simp only [List.mem_append, List.mem_singleton]
        rw [ih.2 k]

theorem groups_lookup (rows : List Row) (a : Nat) (g : Row → Row) (v : String) :
    (groups rows a g).lookup v =
      if v ∈ column rows a then some ((rowsWith rows a v).map g) else none := by
  induction rows using List.reverseRecOn with
  | nil => simp [groups, column, List.lookup]
  | append_singleton rows r ih =>
    rw [groups_append, StrMap.lookup_update]
    have hcol : column (rows ++ [r]) a = column rows a ++ [cell r a] := by simp [column]
    rw [hcol]
    by_cases hk : v = cell r a
    · subst hk
      rw [if_pos rfl, ih]
      have hmem : cell r a ∈ column rows a ++ [cell r a] := by simp
      rw [if_pos hmem]
      by_cases hm : cell r a ∈ column rows a
      · simp [hm, rowsWith, List.filter_append]
      · have hnil : rowsWith rows a (cell r a) = [] := by
          simp only [rowsWith, List.filter_eq_nil_iff, decide_eq_true_eq]
          intro x hx hxe
          exact hm (by rw [← hxe]; exact List.mem_map_of_mem (fun r => cell r a) hx)
        rw [if_neg hm]
        simp only [rowsWith] at hnil
        simp [rowsWith, List.filter_append, hnil]
    · rw [if_neg hk, ih]
      have hv : ¬ cell r a = v := fun e => hk e.symm
      simp [hk, rowsWith, List.filter_append, hv]

theorem groups_mem (rows : List Row) (a : Nat) (g : Row → Row) (v : String) (rs : List Row) :
    (v, rs) ∈ groups rows a g ↔ v ∈ column rows a ∧ rs = (rowsWith rows a v).map g := by
  rw [StrMap.mem_iff_lookup _ (groups_keys rows a g).1, groups_lookup]
  by_cases hk : v ∈ column rows a
  · simp [hk, eq_comm]
  · simp [hk]

theorem groups_eq_map (rows : List Row) (a : Nat) (g : Row → Row) :
    groups rows a g =
      ((groups rows a g).map Prod.fst).map (fun v => (v, (rowsWith rows a v).map g)) := by
  have h1 := StrMap.filterMap_keys (groups rows a g) (groups_keys rows a g).1
  have h2 : ((groups rows a g).map Prod.fst).filterMap
      (fun k => ((groups rows a g).lookup k).map (fun v => (k, v))) =
      ((groups rows a g).map Prod.fst).map (fun v => (v, (rowsWith rows a v).map g)) := by
    apply filterMap_eq_map_of
    intro k hk
    have hm : k ∈ column rows a := ((groups_keys rows a g).2 k).1 hk
    simp [groups_lookup, hm]
  rw [← h2]
  exact h1.symm

theorem rowsWith_ne_nil (rows : List Row) (a : Nat) (v : String) (hv : v ∈ column rows a) :
    rowsWith rows a v ≠ [] := by
  simp only [column, List.mem_map] at hv
  obtain ⟨r, hr, hrv⟩ := hv
  intro h
  have : r ∈ rowsWith rows a v := by simp [rowsWith, hr, hrv]
  rw [h] at this
  exact absurd this (List.not_mem_nil r)

/-! ### The loops of the program return the pure counterparts -/

theorem countLabels_ok (rows : List Row) (c : Nat) (hc : 1 ≤ c)
    (hw : ∀ r ∈ rows, r.length = c) :
    countLabels rows ((c : Int) - 1) = .ok (tally (column rows (c - 1))) := by
  have key : ∀ (rs : List Row) (m : StrMap Nat), (∀ r ∈ rs, r.length = c) →
      rs.foldlM (fun (m : StrMap Nat) (r : Row) => do
        let lab ← index r ((c : Int) - 1)
        pure (m.update lab 0 (· + 1))) m =
      (Except.ok ((column rs (c - 1)).foldl (fun m l => m.update l 0 (· + 1)) m) :
        Except Fault (StrMap Nat)) := by
    intro rs
    induction rs with
    | nil => intro m _; rfl
    | cons r rs ih =>
      intro m hrs
      rw [List.foldlM_cons, index_label r c hc (hrs r (List.mem_cons_self r rs))]
      simp only [column, List.map_cons, List.foldl_cons]
      exact ih _ (fun x hx => hrs x (List.mem_cons_of_mem r hx))
  exact key rows [] hw

theorem groupRows_ok (rows : List Row) (a : Nat) (g : Row → Row)
    (hw : ∀ r ∈ rows, a < r.length) :
    groupRows rows (a : Int) g = .ok (groups rows a g) := by
  have key : ∀ (rs : List Row) (m : StrMap (List Row)), (∀ r ∈ rs, a < r.length) →
      rs.foldlM (fun (m : StrMap (List Row)) (r : Row) => do
        let key ← index r (a : Int)
        pure (m.update key [] (· ++ [g r]))) m =
      (Except.ok (rs.foldl (fun m r => m.update (cell r a) [] (· ++ [g r])) m) :
        Except Fault (StrMap (List Row))) := by
    intro rs
    induction rs with
    | nil => intro m _; rfl
    | cons r rs ih =>
      intro m hrs
      rw [List.foldlM_cons, index_cell r a (hrs r (List.mem_cons_self r rs))]
      simp only [List.foldl_cons]
      exact ih _ (fun x hx => hrs x (List.mem_cons_of_mem r hx))
  exact key rows [] hw

theorem allSameFrom_ok (firstLab : String) (rows : List Row) (c : Nat) (hc : 1 ≤ c)
    (hw : ∀ r ∈ rows, r.length = c) :
    allSameFrom firstLab ((c : Int) - 1) rows =
      .ok ((column rows (c - 1)).all (fun l => decide (l = firstLab))) := by
  induction rows with
  | nil => rfl
  | cons r rs ih =>
    rw [allSameFrom, index_label r c hc (hw r (List.mem_cons_self r rs))]
    by_cases hl : cell r (c - 1) = firstLab
    · have := ih (fun x hx => hw x (List.mem_cons_of_mem r hx))
      simpa [column, hl, bind, Except.bind] using this
    · simp [column, hl, bind, Except.bind, pure, Except.pure]

section SumLemmas

variable {α : Type} [LinearOrderedField α]

theorem foldl_add_eq_sum {β : Type} (f : β → α) (l : List β) (a : α) :
    l.foldl (fun acc x => acc + f x) a = a + (l.map f).sum := by
  induction l generalizing a with
  | nil => simp
  | cons x xs ih => simp [List.foldl_cons, ih, add_assoc]

theorem entropySum_eq_sum (log2 : α → α) (es : List (String × Nat)) (d : Int) :
    entropySum log2 es d =
      (es.map (fun kv => -((kv.2 : α) / (d : α)) * log2 ((kv.2 : α) / (d : α)))).sum := by
  unfold entropySum
  rw [foldl_add_eq_sum (fun kv : String × Nat =>
    -((kv.2 : α) / (d : α)) * log2 ((kv.2 : α) / (d : α)))]
  simp

theorem entropySum_tally (log2 : α → α) (h : HashOrder) (ls : List String) :
    entropySum log2 (h.entries (tally ls)) (ls.length : Int) = shannon log2 ls := by
  rw [entropySum_eq_sum]
  have hp := (h.entries_perm (tally ls) (tally_keys ls).1).map
    (fun kv : String × Nat =>
      -((kv.2 : α) / ((ls.length : Int) : α)) * log2 ((kv.2 : α) / ((ls.length : Int) : α)))
  rw [hp.sum_eq]
  conv_lhs => rw [tally_eq_map ls]
  rw [List.map_map]
  have hfin : ((tally ls).map Prod.fst).toFinset = ls.toFinset := by
    ext k
    simp only [List.mem_toFinset]
    exact (tally_keys ls).2 k
  unfold shannon
  rw [← hfin, List.sum_toFinset _ (tally_keys ls).1]
  simp [Function.comp_def]

end SumLemmas

section GainLemmas

variable {α : Type} [LinearOrderedField α]

theorem foldlM_add_ok {β : Type} (es : List β) (F : α → β → Except Fault α) (G : β → α)
    (hF : ∀ kv ∈ es, ∀ acc, F acc kv = .ok (acc + G kv)) (a : α) :
    es.foldlM F a = .ok (a + (es.map G).sum) := by
  induction es generalizing a with
  | nil => simp [pure, Except.pure]
  | cons x xs ih =>
    rw [List.foldlM_cons, hF x (List.mem_cons_self x xs) a]
    have := ih (fun kv hkv => hF kv (List.mem_cons_of_mem x hkv)) (a + G x)
    simpa [bind, Except.bind, add_assoc] using this

theorem column_length (rows : List Row) (i : Nat) : (column rows i).length = rows.length := by
  simp [column]

theorem rowsWith_width (rows : List Row) (a : Nat) (v : String) (c : Nat)
    (hw : ∀ r ∈ rows, r.length = c) : ∀ r ∈ rowsWith rows a v, r.length = c := by
  intro r hr
  exact hw r (List.mem_of_mem_filter hr)

theorem groups_sum (rows : List Row) (a : Nat) (h : HashOrder) (G : String × List Row → α) :
    ((h.entries (groups rows a id)).map G).sum =
      ∑ v ∈ (column rows a).toFinset, G (v, rowsWith rows a v) := by
  have hp := (h.entries_perm (groups rows a id) (groups_keys rows a id).1).map G
  rw [hp.sum_eq]
  conv_lhs => rw [groups_eq_map rows a id]
  rw [List.map_map]
  have hfin : ((groups rows a id).map Prod.fst).toFinset = (column rows a).toFinset := by
    ext k
    simp only [List.mem_toFinset]
    exact (groups_keys rows a id).2 k
  rw [← hfin, List.sum_toFinset _ (groups_keys rows a id).1]
  simp [Function.comp_def]

theorem DecisionTree.calculateIG_OnSubset_eq (log2 : α → α) (h : HashOrder) (hd : Row)
    (rows : List Row) (a : Nat) (hc : 1 ≤ hd.length)
    (hw : ∀ r ∈ rows, r.length = hd.length) (ha : a < hd.length) :
    DecisionTree.calculateIG_OnSubset log2 h (hd :: rows) (a : Int) =
      .ok (specGain log2 rows a (hd.length - 1)) := by
  have h0 : index (hd :: rows) 0 = .ok hd := by simp [index]
  have hn : (((hd :: rows).length : Int) - 1) = ((column rows (hd.length - 1)).length : Int) := by
    simp [column_length]
  have hstep : ∀ kv ∈ h.entries (groups rows a id), ∀ acc : α,
      (do
        let partLabelCount ← countLabels kv.2 ((hd.length : Int) - 1)
        pure (acc + ((kv.2.length : α) / ((((hd :: rows).length : Int) - 1 : Int) : α)) *
          entropySum log2 (h.entries partLabelCount) (kv.2.length : Nat)) : Except Fault α) =
      .ok (acc + (fun kv : String × List Row => ((kv.2.length : α) / (rows.length : α)) *
          shannon log2 (column kv.2 (hd.length - 1))) kv) := by
    intro kv hkv acc
    have hmem : kv ∈ groups rows a id :=
      (h.entries_perm (groups rows a id) (groups_keys rows a id).1).subset hkv
    obtain ⟨v, rs⟩ := kv
    rw [groups_mem] at hmem
    have hrs : rs = rowsWith rows a v := by simpa using hmem.2
    subst hrs
    rw [countLabels_ok _ hd.length hc (rowsWith_width rows a v hd.length hw)]
    have hlen : ((rowsWith rows a v).length : Int) =
        ((column (rowsWith rows a v) (hd.length - 1)).length : Int) := by
      simp [column_length]
    simp only [bind, Except.bind, pure, Except.pure]
    rw [hlen, entropySum_tally]
    simp
  unfold DecisionTree.calculateIG_OnSubset
  rw [h0]
  simp only [bind, Except.bind, pure, Except.pure, List.drop_one, List.tail_cons]
  rw [countLabels_ok rows hd.length hc hw,
    groupRows_ok rows a id (fun r hr => by rw [hw r hr]; exact ha)]
  simp only []
  have := foldlM_add_ok (h.entries (groups rows a id)) _ _ hstep (0 : α)
  simp only [bind, Except.bind, pure, Except.pure] at this
  rw [this, hn, entropySum_tally, groups_sum]
  simp [specGain, pure, Except.pure]

end GainLemmas

/-! ### Entropy over the reals -/

theorem bits_eq_negMulLog (p : ℝ) : -p * Real.logb 2 p = (Real.log 2)⁻¹ * Real.negMulLog p := by
  simp only [Real.logb, Real.negMulLog]
  ring

theorem bits_concave : ConcaveOn ℝ (Set.Ici (0 : ℝ)) (fun p : ℝ => -p * Real.logb 2 p) := by
  have hlog : (0 : ℝ) ≤ (Real.log 2)⁻¹ := inv_nonneg.mpr (Real.log_nonneg (by norm_num))
  have h := Real.concaveOn_negMulLog.smul hlog
  have hfun : (fun p : ℝ => -p * Real.logb 2 p) =
      fun p => (Real.log 2)⁻¹ • Real.negMulLog p := by
    funext p
    rw [bits_eq_negMulLog, smul_eq_mul]
  rw [hfun]
  exact h

theorem bits_nonneg (p : ℝ) (h0 : 0 ≤ p) (h1 : p ≤ 1) : 0 ≤ -p * Real.logb 2 p := by
  rw [bits_eq_negMulLog]
  exact mul_nonneg (inv_nonneg.mpr (Real.log_nonneg (by norm_num)))
    (Real.negMulLog_nonneg h0 h1)

theorem bits_eq_zero_iff (p : ℝ) (h0 : 0 < p) :
    -p * Real.logb 2 p = 0 ↔ p = 1 := by
  constructor
  · intro h
    have hp : -p ≠ 0 := by linarith
    have hl : Real.logb 2 p = 0 := by
      rcases mul_eq_zero.mp h with h | h
      · exact absurd h hp
      · exact h
    rw [Real.logb_eq_zero] at hl
    rcases hl with h | h | h | h | h | h
    · norm_num at h
    · norm_num at h
    · norm_num at h
    · linarith
    · exact h
    · linarith
  · intro h
    rw [h]
    simp

theorem count_div_length_bounds (ls : List String) (y : String) :
    0 ≤ ((ls.count y : ℝ) / (ls.length : ℝ)) ∧ ((ls.count y : ℝ) / (ls.length : ℝ)) ≤ 1 := by
  constructor
  · positivity
  · apply div_le_one_of_le₀
    · exact_mod_cast List.count_le_length y ls
    · positivity

theorem shannon_nonneg (ls : List String) : 0 ≤ shannon (Real.logb 2) ls := by
  unfold shannon
  apply Finset.sum_nonneg
  intro y _
  exact bits_nonneg _ (count_div_length_bounds ls y).1 (count_div_length_bounds ls y).2

theorem shannon_eq_zero_iff (ls : List String) (hne : ls ≠ []) :
    shannon (Real.logb 2) ls = 0 ↔ ∃ L, ∀ l ∈ ls, l = L := by
  have hlen : (0 : ℝ) < (ls.length : ℝ) := by
    exact_mod_cast List.length_pos.mpr hne
  unfold shannon
  rw [Finset.sum_eq_zero_iff_of_nonneg (fun y _ =>
    bits_nonneg _ (count_div_length_bounds ls y).1 (count_div_length_bounds ls y).2)]
  constructor
  · intro h
    obtain ⟨L, hL⟩ := List.exists_mem_of_ne_nil ls hne
    refine ⟨L, fun l hl => ?_⟩
    have hcpos : (0 : ℝ) < (ls.count L : ℝ) := by
      exact_mod_cast List.count_pos_iff.mpr hL
    have h1 := (bits_eq_zero_iff _ (div_pos hcpos hlen)).1
      (h L (List.mem_toFinset.mpr hL))
    rw [div_eq_one_iff_eq (ne_of_gt hlen)] at h1
    have h2 : ls.count L = ls.length := by exact_mod_cast h1
    exact (List.count_eq_length.mp h2 l hl).symm
  · rintro ⟨L, hL⟩ y hy
    have hyL : y = L := hL y (List.mem_toFinset.mp hy)
    have h2 : ls.count y = ls.length := List.count_eq_length.mpr (fun b hb => by
      rw [hyL]; exact (hL b hb).symm)
    rw [h2, div_self (ne_of_gt hlen)]
    simp

theorem sum_count_div_length (ls : List String) (hne : ls ≠ []) :
    ∑ y ∈ ls.toFinset, ((ls.count y : ℝ) / (ls.length : ℝ)) = 1 := by
  have hlen : (0 : ℝ) < (ls.length : ℝ) := by
    exact_mod_cast List.length_pos.mpr hne
  rw [← Finset.sum_div, div_eq_one_iff_eq (ne_of_gt hlen)]
  have := Multiset.toFinset_sum_count_eq (ls : Multiset String)
  simp only [Multiset.coe_count, Multiset.coe_card] at this
  have h2 : ((∑ y ∈ ls.toFinset, ls.count y : ℕ) : ℝ) = (ls.length : ℝ) := by
    exact_mod_cast this
  rw [← h2]
  push_cast
  rfl

theorem shannon_le_logb_card (ls : List String) (hne : ls ≠ []) :
    shannon (Real.logb 2) ls ≤ Real.logb 2 (ls.toFinset.card : ℝ) := by
  have hk : 0 < ls.toFinset.card := by
    obtain ⟨L, hL⟩ := List.exists_mem_of_ne_nil ls hne
    exact Finset.card_pos.mpr ⟨L, List.mem_toFinset.mpr hL⟩
  have hkR : (0 : ℝ) < (ls.toFinset.card : ℝ) := by exact_mod_cast hk
  have hJ := bits_concave.le_map_sum
    (fun (i : String) (_ : i ∈ ls.toFinset) => (le_of_lt (inv_pos.mpr hkR) :
      (0 : ℝ) ≤ (fun _ : String => ((ls.toFinset.card : ℝ))⁻¹) i))
    (by simp [Finset.sum_const, ne_of_gt hkR])
    (fun (y : String) (_ : y ∈ ls.toFinset) => (count_div_length_bounds ls y).1)
  simp only [smul_eq_mul, ← Finset.mul_sum, sum_count_div_length ls hne, mul_one] at hJ
  have h3 : -((ls.toFinset.card : ℝ))⁻¹ * Real.logb 2 ((ls.toFinset.card : ℝ))⁻¹ =
      ((ls.toFinset.card : ℝ))⁻¹ * Real.logb 2 (ls.toFinset.card : ℝ) := by
    rw [Real.logb_inv]
    ring
  rw [h3] at hJ
  have h4 := (mul_le_mul_left (inv_pos.mpr hkR)).mp hJ
  exact h4

theorem shannon_uniform (ls : List String) (hne : ls ≠ []) (c : Nat)
    (hc : ∀ y ∈ ls, ls.count y = c) :
    shannon (Real.logb 2) ls = Real.logb 2 (ls.toFinset.card : ℝ) := by
  have hlen : (0 : ℝ) < (ls.length : ℝ) := by
    exact_mod_cast List.length_pos.mpr hne
  have hk : 0 < ls.toFinset.card := by
    obtain ⟨L, hL⟩ := List.exists_mem_of_ne_nil ls hne
    exact Finset.card_pos.mpr ⟨L, List.mem_toFinset.mpr hL⟩
  have hkR : (0 : ℝ) < (ls.toFinset.card : ℝ) := by exact_mod_cast hk
  have hsum := sum_count_div_length ls hne
  have hterm : ∀ y ∈ ls.toFinset, ((ls.count y : ℝ) / (ls.length : ℝ)) =
      (c : ℝ) / (ls.length : ℝ) := by
    intro y hy
    rw [hc y (List.mem_toFinset.mp hy)]
  rw [Finset.sum_congr rfl hterm, Finset.sum_const, nsmul_eq_mul] at hsum
  have hp : (c : ℝ) / (ls.length : ℝ) = ((ls.toFinset.card : ℝ))⁻¹ := by
    field_simp
    field_simp at hsum
    linarith
  unfold shannon
  have hterm2 : ∀ y ∈ ls.toFinset,
      -((ls.count y : ℝ) / (ls.length : ℝ)) * Real.logb 2 ((ls.count y : ℝ) / (ls.length : ℝ)) =
      ((ls.toFinset.card : ℝ))⁻¹ * Real.logb 2 (ls.toFinset.card : ℝ) := by
    intro y hy
    rw [hterm y hy, hp, Real.logb_inv]
    ring
  rw [Finset.sum_congr rfl hterm2, Finset.sum_const, nsmul_eq_mul]
  field_simp

/-! ### Information gain over the reals is never negative -/

theorem rowsWith_length (rows : List Row) (a : Nat) (v : String) :
    (rowsWith rows a v).length = (column rows a).count v := by
  induction rows with
  | nil => rfl
  | cons r rs ih =>
    by_cases hv : cell r a = v
    · simp only [rowsWith, column, List.map_cons] at ih ⊢
      rw [List.filter_cons_of_pos (by simpa using hv), List.length_cons, ih, hv,
        List.count_cons_self]
    · simp only [rowsWith, column, List.map_cons] at ih ⊢
      rw [List.filter_cons_of_neg (by simpa using hv), ih,
        List.count_cons_of_ne (fun e => hv e.symm)]

theorem sum_count_rowsWith (rows : List Row) (a li : Nat) (y : String) (V : Finset String)
    (hV : ∀ r ∈ rows, cell r a ∈ V) :
    ∑ v ∈ V, (column (rowsWith rows a v) li).count y = (column rows li).count y := by
  induction rows with
  | nil => simp [rowsWith, column]
  | cons r rs ih =>
    have ih2 := ih (fun x hx => hV x (List.mem_cons_of_mem r hx))
    have hstep : ∀ v ∈ V, (column (rowsWith (r :: rs) a v) li).count y =
        (column (rowsWith rs a v) li).count y +
          (if cell r a = v then (if cell r li = y then 1 else 0) else 0) := by
      intro v _
      by_cases hv : cell r a = v
      · simp only [rowsWith, column] at *
        rw [List.filter_cons_of_pos (by simpa using hv), List.map_cons, List.count_cons]
        simp [hv]
      · simp only [rowsWith, column] at *
        rw [List.filter_cons_of_neg (by simpa using hv)]
        simp [hv]
    rw [Finset.sum_congr rfl hstep, Finset.sum_add_distrib, ih2, Finset.sum_ite_eq,
      if_pos (hV r (List.mem_cons_self r rs))]
    simp only [column, List.map_cons, List.count_cons]
    simp

theorem shannon_extend (ls : List String) (Y : Finset String) (hY : ls.toFinset ⊆ Y) :
    shannon (Real.logb 2) ls =
      ∑ y ∈ Y, -((ls.count y : ℝ) / (ls.length : ℝ)) *
        Real.logb 2 ((ls.count y : ℝ) / (ls.length : ℝ)) := by
  unfold shannon
  apply Finset.sum_subset hY
  intro y _ hy
  have : ls.count y = 0 := List.count_eq_zero_of_not_mem (fun hm => hy (List.mem_toFinset.mpr hm))
  simp [this]

theorem specGain_nonneg (rows : List Row) (a li : Nat) :
    0 ≤ specGain (Real.logb 2) rows a li := by
  by_cases hne : rows = []
  · subst hne
    simp [specGain, shannon, column, rowsWith]
  have hcol : column rows a ≠ [] := by
    simpa [column] using hne
  have hn : (0 : ℝ) < (rows.length : ℝ) := by
    exact_mod_cast List.length_pos.mpr hne
  have hsub : ∀ v, (column (rowsWith rows a v) li).toFinset ⊆ (column rows li).toFinset := by
    intro v y hy
    simp only [List.mem_toFinset, column, List.mem_map, rowsWith] at hy ⊢
    obtain ⟨r, hr, hry⟩ := hy
    exact ⟨r, List.mem_of_mem_filter hr, hry⟩
  have hw1 : ∑ v ∈ (column rows a).toFinset,
      ((rowsWith rows a v).length : ℝ) / (rows.length : ℝ) = 1 := by
    have := sum_count_div_length (column rows a) hcol
    rw [column_length] at this
    rw [← this]
    apply Finset.sum_congr rfl
    intro v _
    rw [rowsWith_length]
  have hjensen : ∀ y ∈ (column rows li).toFinset,
      ∑ v ∈ (column rows a).toFinset, ((rowsWith rows a v).length : ℝ) / (rows.length : ℝ) *
        (-(((column (rowsWith rows a v) li).count y : ℝ) / ((rowsWith rows a v).length : ℝ)) *
          Real.logb 2 (((column (rowsWith rows a v) li).count y : ℝ) /
            ((rowsWith rows a v).length : ℝ))) ≤
      -(((column rows li).count y : ℝ) / (rows.length : ℝ)) *
        Real.logb 2 (((column rows li).count y : ℝ) / (rows.length : ℝ)) := by
    intro y _
    have hJ := bits_concave.le_map_sum
      (fun (v : String) (_ : v ∈ (column rows a).toFinset) =>
        (by positivity : (0 : ℝ) ≤ (fun v : String =>
          ((rowsWith rows a v).length : ℝ) / (rows.length : ℝ)) v))
      hw1
      (fun (v : String) (_ : v ∈ (column rows a).toFinset) =>
        (by simp only [Set.mem_Ici]; positivity :
          (fun v : String => (((column (rowsWith rows a v) li).count y : ℝ) /
            ((rowsWith rows a v).length : ℝ))) v ∈ Set.Ici (0 : ℝ)))
    simp only [smul_eq_mul] at hJ
    have hmid : ∑ v ∈ (column rows a).toFinset,
        ((rowsWith rows a v).length : ℝ) / (rows.length : ℝ) *
          (((column (rowsWith rows a v) li).count y : ℝ) / ((rowsWith rows a v).length : ℝ)) =
        ((column rows li).count y : ℝ) / (rows.length : ℝ) := by
      have hterm : ∀ v ∈ (column rows a).toFinset,
          ((rowsWith rows a v).length : ℝ) / (rows.length : ℝ) *
            (((column (rowsWith rows a v) li).count y : ℝ) /
              ((rowsWith rows a v).length : ℝ)) =
          (((column (rowsWith rows a v) li).count y : ℝ)) / (rows.length : ℝ) := by
        intro v hv
        have hpos : (0 : ℝ) < ((rowsWith rows a v).length : ℝ) := by
          exact_mod_cast List.length_pos.mpr
            (rowsWith_ne_nil rows a v (List.mem_toFinset.mp hv))
        field_simp
        ring
      rw [Finset.sum_congr rfl hterm, ← Finset.sum_div]
      congr 1
      have := sum_count_rowsWith rows a li y (column rows a).toFinset (fun r hr =>
        List.mem_toFinset.mpr (List.mem_map_of_mem (fun r => cell r a) hr))
      exact_mod_cast this
    rw [hmid] at hJ
    exact hJ
  unfold specGain
  rw [sub_nonneg]
  have hrem : ∑ v ∈ (column rows a).toFinset,
      ((rowsWith rows a v).length : ℝ) / (rows.length : ℝ) *
        shannon (Real.logb 2) (column (rowsWith rows a v) li) =
      ∑ y ∈ (column rows li).toFinset, ∑ v ∈ (column rows a).toFinset,
        ((rowsWith rows a v).length : ℝ) / (rows.length : ℝ) *
        (-(((column (rowsWith rows a v) li).count y : ℝ) / ((rowsWith rows a v).length : ℝ)) *
          Real.logb 2 (((column (rowsWith rows a v) li).count y : ℝ) /
            ((rowsWith rows a v).length : ℝ))) := by
    rw [Finset.sum_comm]
    apply Finset.sum_congr rfl
    intro v _
    rw [shannon_extend _ _ (hsub v), Finset.mul_sum, column_length]
  rw [hrem]
  have htot : shannon (Real.logb 2) (column rows li) =
      ∑ y ∈ (column rows li).toFinset,
        -(((column rows li).count y : ℝ) / (rows.length : ℝ)) *
        Real.logb 2 (((column rows li).count y : ℝ) / (rows.length : ℝ)) := by
    unfold shannon
    rw [column_length]
  rw [htot]
  exact Finset.sum_le_sum hjensen

/-! ### The selection loop -/

section SelectLemmas

variable {α : Type} [LinearOrderedField α]

theorem argBest_succ (g : Nat → α) (n : Nat) :
    argBest g (n + 1) =
      if g n > (argBest g n).2 then ((n : Int), g n) else argBest g n := by
  simp [argBest, List.range_succ, List.foldl_append]

theorem argBest_spec (g : Nat → α) (n : Nat) :
    (argBest g n = (-1, -1) ∧ ∀ i < n, g i ≤ -1) ∨
    (∃ b : Nat, argBest g n = ((b : Int), g b) ∧ b < n ∧ -1 < g b ∧
      (∀ i < n, g i ≤ g b) ∧ ∀ i < b, g i < g b) := by
  induction n with
  | zero => left; simp [argBest]
  | succ n ih =>
    rw [argBest_succ]
    rcases ih with ⟨he, hall⟩ | ⟨b, he, hb, hgb, hmax, hfirst⟩
    · rw [he]
      by_cases hg : g n > -1
      · right
        refine ⟨n, by simp [hg], Nat.lt_succ_self n, hg, ?_, ?_⟩
        · intro i hi
          rcases Nat.lt_succ_iff_lt_or_eq.mp hi with h | h
          · exact le_trans (hall i h) (le_of_lt hg)
          · rw [h]
        · intro i hi
          exact lt_of_le_of_lt (hall i hi) hg
      · left
        refine ⟨by simp [hg], ?_⟩
        intro i hi
        rcases Nat.lt_succ_iff_lt_or_eq.mp hi with h | h
        · exact hall i h
        · rw [h]; exact not_lt.mp hg
    · rw [he]
      right
      by_cases hg : g n > g b
      · refine ⟨n, by simp [hg], Nat.lt_succ_self n, lt_trans hgb hg, ?_, ?_⟩
        · intro i hi
          rcases Nat.lt_succ_iff_lt_or_eq.mp hi with h | h
          · exact le_trans (hmax i h) (le_of_lt hg)
          · rw [h]
        · intro i hi
          exact lt_of_le_of_lt (hmax i hi) hg
      · refine ⟨b, by simp [hg], Nat.lt_succ_of_lt hb, hgb, ?_, hfirst⟩
        intro i hi
        rcases Nat.lt_succ_iff_lt_or_eq.mp hi with h | h
        · exact hmax i h
        · rw [h]; exact not_lt.mp hg

theorem DecisionTree.selectBest_ok (gainOf : Nat → Except Fault α) (g : Nat → α) (n : Nat)
    (hg : ∀ i < n, gainOf i = .ok (g i)) :
    DecisionTree.selectBest gainOf n = .ok (argBest g n) := by
  induction n with
  | zero => rfl
  | succ n ih =>
    have ih2 := ih (fun i hi => hg i (Nat.lt_succ_of_lt hi))
    unfold DecisionTree.selectBest at ih2 ⊢
    rw [List.range_succ, List.foldlM_append, ih2, argBest_succ]
    simp only [bind, Except.bind, List.foldlM_cons, List.foldlM_nil, hg n (Nat.lt_succ_self n)]
    by_cases hgt : g n > (argBest g n).2
    · simp only [hgt, if_true]; rfl
    · simp only [hgt, if_false]; rfl

end SelectLemmas

/-! ### The majority scan -/

theorem majority_scan (w : String → Nat) (ks : List String) (acc : String × Nat) :
    ((ks.map (fun k => (k, w k))).foldl (fun (acc : String × Nat) kv =>
        if kv.2 > acc.2 then (kv.1, kv.2) else acc) acc = acc ∧ ∀ k ∈ ks, w k ≤ acc.2) ∨
    (∃ pre L post, ks = pre ++ L :: post ∧
      (ks.map (fun k => (k, w k))).foldl (fun (acc : String × Nat) kv =>
        if kv.2 > acc.2 then (kv.1, kv.2) else acc) acc = (L, w L) ∧
      acc.2 < w L ∧ (∀ k ∈ pre, w k < w L) ∧ ∀ k ∈ ks, w k ≤ w L) := by
  induction ks generalizing acc with
  | nil => left; simp
  | cons k ks ih =>
    simp only [List.map_cons, List.foldl_cons]
    by_cases hk : w k > acc.2
    · rw [if_pos hk]
      rcases ih (k, w k) with ⟨he, hall⟩ | ⟨pre, L, post, hks, he, hlt, hpre, hall⟩
      · right
        refine ⟨[], k, ks, rfl, he, hk, by simp, ?_⟩
        intro x hx
        rcases List.mem_cons.mp hx with h | h
        · rw [h]
        · exact hall x h
      · right
        refine ⟨k :: pre, L, post, by rw [hks]; rfl, he, lt_trans hk hlt, ?_, ?_⟩
        · intro x hx
          rcases List.mem_cons.mp hx with h | h
          · rw [h]; exact hlt
          · exact hpre x h
        · intro x hx
          rcases List.mem_cons.mp hx with h | h
          · rw [h]; exact le_of_lt hlt
          · exact hall x h
    · rw [if_neg hk]
      rcases ih acc with ⟨he, hall⟩ | ⟨pre, L, post, hks, he, hlt, hpre, hall⟩
      · left
        refine ⟨he, ?_⟩
        intro x hx
        rcases List.mem_cons.mp hx with h | h
        · rw [h]; exact not_lt.mp hk
        · exact hall x h
      · right
        refine ⟨k :: pre, L, post, by rw [hks]; rfl, he, hlt, ?_, ?_⟩
        · intro x hx
          rcases List.mem_cons.mp hx with h | h
          · rw [h]; exact lt_of_le_of_lt (not_lt.mp hk) hlt
          · exact hpre x h
        · intro x hx
          rcases List.mem_cons.mp hx with h | h
          · rw [h]; exact le_trans (not_lt.mp hk) (le_of_lt hlt)
          · exact hall x h

theorem firstSeen_append (ls : List String) (l : String) :
    firstSeen (ls ++ [l]) = if l ∈ firstSeen ls then firstSeen ls else firstSeen ls ++ [l] := by
  simp [firstSeen, List.foldl_append]

theorem tally_keys_eq (ls : List String) : (tally ls).map Prod.fst = firstSeen ls := by
  induction ls using List.reverseRecOn with
  | nil => rfl
  | append_singleton ls l ih =>
    rw [tally_append, StrMap.keys_update, firstSeen_append, ih]

theorem entries_tally (h : HashOrder) (ls : List String) :
    h.entries (tally ls) = (h.iter (firstSeen ls)).map (fun k => (k, ls.count k)) := by
  unfold HashOrder.entries
  rw [tally_keys_eq]
  apply filterMap_eq_map_of
  intro k hk
  have hk2 : k ∈ firstSeen ls := (h.perm (firstSeen ls)).subset hk
  rw [← tally_keys_eq] at hk2
  have hm : k ∈ ls := ((tally_keys ls).2 k).1 hk2
  simp [tally_lookup, hm]

theorem majorityOf_tally (h : HashOrder) (ls : List String) (hne : ls ≠ []) :
    ∃ pre L post, h.iter (firstSeen ls) = pre ++ L :: post ∧
      majorityOf (h.entries (tally ls)) = L ∧ L ∈ ls ∧
      (∀ k ∈ pre, ls.count k < ls.count L) ∧ ∀ k, ls.count k ≤ ls.count L := by
  have hmemiff : ∀ k, k ∈ h.iter (firstSeen ls) ↔ k ∈ ls := by
    intro k
    rw [(h.perm (firstSeen ls)).mem_iff, ← tally_keys_eq]
    exact (tally_keys ls).2 k
  rw [entries_tally]
  unfold majorityOf
  rcases majority_scan (fun k => ls.count k) (h.iter (firstSeen ls)) ("", 0) with
    ⟨_, hall⟩ | ⟨pre, L, post, hks, he, _, hpre, hall⟩
  · exfalso
    obtain ⟨x, hx⟩ := List.exists_mem_of_ne_nil ls hne
    have h1 := hall x ((hmemiff x).2 hx)
    have h2 : 0 < ls.count x := List.count_pos_iff.mpr hx
    simp only at h1
    omega
  · refine ⟨pre, L, post, hks, by rw [he], ?_, hpre, ?_⟩
    · apply (hmemiff L).1
      rw [hks]
      simp
    · intro k
      by_cases hk : k ∈ ls
      · exact hall k ((hmemiff k).2 hk)
      · rw [List.count_eq_zero_of_not_mem hk]
        exact Nat.zero_le _

/-! ### The paths through `buildTree` -/

theorem WellFormed.shape {data : Table} {headers : Row} (hwf : WellFormed data headers) :
    ∃ r1 rest, data = headers :: r1 :: rest ∧ 1 ≤ headers.length ∧
      ∀ r ∈ r1 :: rest, r.length = headers.length := by
  obtain ⟨hhead, hc, hlen, hw⟩ := hwf
  match data, hhead, hlen, hw with
  | hd :: r1 :: rest, hhead, _, hw =>
    simp only [List.head?_cons, Option.some.injEq] at hhead
    subst hhead
    exact ⟨r1, rest, rfl, hc, fun r hr => hw r (List.mem_cons_of_mem _ hr)⟩

theorem all_eq_true_iff_labels (r1 : Row) (rest : List Row) (li : Nat) :
    (column rest li).all (fun l => decide (l = cell r1 li)) = true ↔
      ∀ x ∈ column (r1 :: rest) li, ∀ y ∈ column (r1 :: rest) li, x = y := by
  simp only [List.all_eq_true, decide_eq_true_eq, column, List.map_cons, List.mem_cons]
  constructor
  · intro h x hx y hy
    have hx' : x = cell r1 li := by
      rcases hx with hx | hx
      · exact hx
      · exact h x hx
    have hy' : y = cell r1 li := by
      rcases hy with hy | hy
      · exact hy
      · exact h y hy
    rw [hx', hy']
  · intro h x hx
    exact h x (Or.inr hx) (cell r1 li) (Or.inl rfl)

section PathLemmas

variable {α : Type} [LinearOrderedField α]

theorem DecisionTree.buildTreeFuel_pure (log2 : α → α) (h : HashOrder) (f : Nat) (hd r1 : Row)
    (rest : List Row) (hc : 1 ≤ hd.length) (hw : ∀ r ∈ r1 :: rest, r.length = hd.length)
    (hsame : (column rest (hd.length - 1)).all
      (fun l => decide (l = cell r1 (hd.length - 1))) = true) :
    DecisionTree.buildTreeFuel log2 h (f + 1) (hd :: r1 :: rest) hd =
      .ok (TreeNode.mk "" (cell r1 (hd.length - 1)) []) := by
  have h1 : index (hd :: r1 :: rest) 1 = .ok r1 := by simp [index]
  rw [DecisionTree.buildTreeFuel]
  simp only [h1, bind, Except.bind, index_label r1 hd.length hc (hw r1 (List.mem_cons_self _ _)),
    List.drop_succ_cons, List.drop_zero,
    allSameFrom_ok _ rest hd.length hc (fun r hr => hw r (List.mem_cons_of_mem _ hr)), hsame]
  rfl

theorem DecisionTree.buildTreeFuel_few (log2 : α → α) (h : HashOrder) (f : Nat) (hd r1 : Row)
    (rest : List Row) (hc : 1 ≤ hd.length) (hw : ∀ r ∈ r1 :: rest, r.length = hd.length)
    (hmixed : (column rest (hd.length - 1)).all
      (fun l => decide (l = cell r1 (hd.length - 1))) = false)
    (hc2 : hd.length ≤ 2) :
    DecisionTree.buildTreeFuel log2 h (f + 1) (hd :: r1 :: rest) hd =
      .ok (TreeNode.mk ""
        (majorityOf (h.entries (tally (column (r1 :: rest) (hd.length - 1))))) []) := by
  have h1 : index (hd :: r1 :: rest) 1 = .ok r1 := by simp [index]
  rw [DecisionTree.buildTreeFuel]
  simp only [h1, bind, Except.bind, index_label r1 hd.length hc (hw r1 (List.mem_cons_self _ _)),
    List.drop_succ_cons, List.drop_zero,
    allSameFrom_ok _ rest hd.length hc (fun r hr => hw r (List.mem_cons_of_mem _ hr)), hmixed,
    majorityLeaf, countLabels_ok (r1 :: rest) hd.length hc hw, hc2]
  rfl

theorem DecisionTree.buildTreeFuel_select (log2 : α → α) (h : HashOrder) (f : Nat) (hd r1 : Row)
    (rest : List Row) (hc : 1 ≤ hd.length) (hw : ∀ r ∈ r1 :: rest, r.length = hd.length)
    (hmixed : (column rest (hd.length - 1)).all
      (fun l => decide (l = cell r1 (hd.length - 1))) = false)
    (hc3 : 3 ≤ hd.length) :
    DecisionTree.buildTreeFuel log2 h (f + 1) (hd :: r1 :: rest) hd =
      (if (argBest (fun i => specGain log2 (r1 :: rest) i (hd.length - 1)) (hd.length - 1)).1 < 0
      then .ok (TreeNode.mk ""
        (majorityOf (h.entries (tally (column (r1 :: rest) (hd.length - 1))))) [])
      else do
        let bestIndex : Int :=
          (argBest (fun i => specGain log2 (r1 :: rest) i (hd.length - 1)) (hd.length - 1)).1
        let bestAttr ← index hd bestIndex
        let partitions ← groupRows (r1 :: rest) bestIndex (fun r => r.eraseIdx bestIndex.toNat)
        let children ← (h.entries partitions).mapM (fun kv => do
          let child ← DecisionTree.buildTreeFuel log2 h f
            (hd.eraseIdx bestIndex.toNat :: kv.2) (hd.eraseIdx bestIndex.toNat)
          pure (kv.1, child))
        pure (TreeNode.mk bestAttr "" children)) := by
  have h1 : index (hd :: r1 :: rest) 1 = .ok r1 := by simp [index]
  have hnot : ¬ hd.length ≤ 2 := by omega
  have hsel := DecisionTree.selectBest_ok
    (fun i : Nat => DecisionTree.calculateIG_OnSubset log2 h (hd :: r1 :: rest) (i : Int))
    (fun i : Nat => specGain log2 (r1 :: rest) i (hd.length - 1)) (hd.length - 1)
    (fun i hi => DecisionTree.calculateIG_OnSubset_eq log2 h hd (r1 :: rest) i hc hw (by omega))
  rw [DecisionTree.buildTreeFuel]
  simp only [h1, bind, Except.bind, index_label r1 hd.length hc (hw r1 (List.mem_cons_self _ _)),
    List.drop_succ_cons, List.drop_zero,
    allSameFrom_ok _ rest hd.length hc (fun r hr => hw r (List.mem_cons_of_mem _ hr)), hmixed,
    majorityLeaf, countLabels_ok (r1 :: rest) hd.length hc hw, hnot, hsel]
  rfl

end PathLemmas

section SplitLemmas

variable {α : Type} [LinearOrderedField α]

theorem DecisionTree.buildTreeFuel_split (log2 : α → α) (h : HashOrder) (f : Nat) (hd r1 : Row)
    (rest : List Row) (hc : 1 ≤ hd.length) (hw : ∀ r ∈ r1 :: rest, r.length = hd.length)
    (hmixed : (column rest (hd.length - 1)).all
      (fun l => decide (l = cell r1 (hd.length - 1))) = false)
    (hc3 : 3 ≤ hd.length) (b : Nat) (gb : α)
    (hbest : argBest (fun i => specGain log2 (r1 :: rest) i (hd.length - 1)) (hd.length - 1) =
      ((b : Int), gb))
    (hb : b < hd.length - 1) :
    DecisionTree.buildTreeFuel log2 h (f + 1) (hd :: r1 :: rest) hd =
      (do
        let children ← (h.entries (groups (r1 :: rest) b (fun r => r.eraseIdx b))).mapM
          (fun kv => do
            let child ← DecisionTree.buildTreeFuel log2 h f (hd.eraseIdx b :: kv.2)
              (hd.eraseIdx b)
            pure (kv.1, child))
        pure (TreeNode.mk (cell hd b) "" children)) := by
  rw [DecisionTree.buildTreeFuel_select log2 h f hd r1 rest hc hw hmixed hc3, hbest]
  have hneg : ¬ ((b : Int) < 0) := by omega
  simp only [hneg, if_false, Int.toNat_ofNat, index_cell hd b (by omega), bind, Except.bind,
    groupRows_ok (r1 :: rest) b (fun r => r.eraseIdx b) (fun r hr => by rw [hw r hr]; omega)]

end SplitLemmas

theorem exists_forall2 {β γ : Type} (R : β → γ → Prop) (es : List β)
    (hR : ∀ x ∈ es, ∃ y, R x y) : ∃ ys, List.Forall₂ R es ys := by
  induction es with
  | nil => exact ⟨[], List.Forall₂.nil⟩
  | cons x xs ih =>
    obtain ⟨y, hy⟩ := hR x (List.mem_cons_self x xs)
    obtain ⟨ys, hys⟩ := ih (fun z hz => hR z (List.mem_cons_of_mem x hz))
    exact ⟨y :: ys, List.Forall₂.cons hy hys⟩

theorem mapM_ok_of_forall2 {β γ : Type} (F : β → Except Fault γ) (es : List β) (ys : List γ)
    (hF : List.Forall₂ (fun x y => F x = .ok y) es ys) : es.mapM F = .ok ys := by
  induction hF with
  | nil => rw [List.mapM_nil]; rfl
  | cons hxy _ ih =>
    rw [List.mapM_cons, hxy, ih]
    rfl

theorem depthList_le (kids : List (String × TreeNode)) (d : Nat)
    (hk : ∀ kt ∈ kids, kt.2.depth ≤ d) : TreeNode.depthList kids ≤ d + 1 := by
  induction kids with
  | nil => simp [TreeNode.depthList]
  | cons kt rest ih =>
    obtain ⟨k, t⟩ := kt
    simp only [TreeNode.depthList]
    have h1 : t.depth ≤ d := hk (k, t) (List.mem_cons_self _ _)
    have h2 := ih (fun x hx => hk x (List.mem_cons_of_mem _ hx))
    omega

theorem subtable_wellFormed (h : HashOrder) (hd : Row) (rows : List Row) (b : Nat)
    (hw : ∀ r ∈ rows, r.length = hd.length) (hb : b < hd.length - 1)
    (kv : String × List Row)
    (hkv : kv ∈ h.entries (groups rows b (fun r => r.eraseIdx b))) :
    kv.1 ∈ column rows b ∧ kv.2 = (rowsWith rows b kv.1).map (fun r => r.eraseIdx b) ∧
      WellFormed (hd.eraseIdx b :: kv.2) (hd.eraseIdx b) := by
  have hmem : kv ∈ groups rows b (fun r => r.eraseIdx b) :=
    (h.entries_perm _ (groups_keys rows b _).1).subset hkv
  obtain ⟨v, rs⟩ := kv
  rw [groups_mem] at hmem
  obtain ⟨hv, hrs⟩ := hmem
  refine ⟨hv, hrs, rfl, ?_, ?_, ?_⟩
  · rw [List.length_eraseIdx]
    simp only [show b < hd.length by omega, if_true]
    omega
  · have hne := rowsWith_ne_nil rows b v hv
    have : 0 < (rowsWith rows b v).length := List.length_pos.mpr hne
    simp only [hrs, List.length_cons, List.length_map]
    omega
  · intro r hr
    rcases List.mem_cons.mp hr with h1 | h1
    · rw [h1]
    · simp only [hrs, List.mem_map] at h1
      obtain ⟨r0, hr0, hre⟩ := h1
      have hlen := rowsWith_width rows b v hd.length hw r0 hr0
      rw [← hre, List.length_eraseIdx, List.length_eraseIdx, hlen]

theorem forall2_mem_right {β γ : Type} {R : β → γ → Prop} {es : List β} {ys : List γ}
    (hF : List.Forall₂ R es ys) : ∀ y ∈ ys, ∃ x ∈ es, R x y := by
  induction hF with
  | nil => intro y hy; exact absurd hy (List.not_mem_nil y)
  | cons hxy _ ih =>
    intro y hy
    rcases List.mem_cons.mp hy with h | h
    · exact ⟨_, List.mem_cons_self _ _, h ▸ hxy⟩
    · obtain ⟨x, hx, hr⟩ := ih y h
      exact ⟨x, List.mem_cons_of_mem _ hx, hr⟩

theorem forall2_map_fst {γ δ : Type} {R : String × γ → String × δ → Prop}
    {es : List (String × γ)} {ys : List (String × δ)}
    (hF : List.Forall₂ R es ys) (hR : ∀ x y, R x y → y.1 = x.1) :
    ys.map Prod.fst = es.map Prod.fst := by
  induction hF with
  | nil => rfl
  | cons hxy _ ih => simp [List.map_cons, hR _ _ hxy, ih]

theorem leaf_depth (a l : String) : (TreeNode.mk a l []).depth = 0 := by
  simp [TreeNode.depth, TreeNode.depthList]

section Totality

variable {α : Type} [LinearOrderedField α]

/-- With `f + 1` units of fuel, a well-formed table of at most `f + 2` columns yields a tree
of depth at most `columns - 2`, and every larger amount of fuel yields the same tree. -/
theorem DecisionTree.buildTreeFuel_total (log2 : α → α) (h : HashOrder) :
    ∀ (f : Nat) (data : Table) (headers : Row), WellFormed data headers →
      headers.length ≤ f + 2 →
      ∃ t, t.depth ≤ headers.length - 2 ∧
        ∀ f', f + 1 ≤ f' → DecisionTree.buildTreeFuel log2 h f' data headers = .ok t := by
  intro f
  induction f with
  | zero =>
    intro data headers hwf hlen
    obtain ⟨r1, rest, hdata, hc, hw⟩ := hwf.shape
    subst hdata
    by_cases hsame : (column rest (headers.length - 1)).all
        (fun l => decide (l = cell r1 (headers.length - 1))) = true
    · refine ⟨TreeNode.mk "" (cell r1 (headers.length - 1)) [], ?_, fun f' hf' => ?_⟩
      · exact (le_of_eq (leaf_depth "" (cell r1 (headers.length - 1)))).trans (Nat.zero_le _)
      · obtain ⟨f0, rfl⟩ : ∃ f0, f' = f0 + 1 := ⟨f' - 1, by omega⟩
        exact DecisionTree.buildTreeFuel_pure log2 h f0 headers r1 rest hc hw hsame
    · have hmixed := Bool.eq_false_iff.mpr hsame
      refine ⟨TreeNode.mk ""
        (majorityOf (h.entries (tally (column (r1 :: rest) (headers.length - 1))))) [],
        ?_, fun f' hf' => ?_⟩
      · exact (le_of_eq (leaf_depth ""
          (majorityOf (h.entries (tally (column (r1 :: rest) (headers.length - 1))))))).trans
          (Nat.zero_le _)
      · obtain ⟨f0, rfl⟩ : ∃ f0, f' = f0 + 1 := ⟨f' - 1, by omega⟩
        exact DecisionTree.buildTreeFuel_few log2 h f0 headers r1 rest hc hw hmixed (by omega)
  | succ f0 ih =>
    intro data headers hwf hlen
    obtain ⟨r1, rest, hdata, hc, hw⟩ := hwf.shape
    subst hdata
    by_cases hsame : (column rest (headers.length - 1)).all
        (fun l => decide (l = cell r1 (headers.length - 1))) = true
    · refine ⟨TreeNode.mk "" (cell r1 (headers.length - 1)) [], ?_, fun f' hf' => ?_⟩
      · exact (le_of_eq (leaf_depth "" (cell r1 (headers.length - 1)))).trans (Nat.zero_le _)
      · obtain ⟨f1, rfl⟩ : ∃ f1, f' = f1 + 1 := ⟨f' - 1, by omega⟩
        exact DecisionTree.buildTreeFuel_pure log2 h f1 headers r1 rest hc hw hsame
    have hmixed := Bool.eq_false_iff.mpr hsame
    by_cases hc2 : headers.length ≤ 2
    · refine ⟨TreeNode.mk ""
        (majorityOf (h.entries (tally (column (r1 :: rest) (headers.length - 1))))) [],
        ?_, fun f' hf' => ?_⟩
      · exact (le_of_eq (leaf_depth ""
          (majorityOf (h.entries (tally (column (r1 :: rest) (headers.length - 1))))))).trans
          (Nat.zero_le _)
      · obtain ⟨f1, rfl⟩ : ∃ f1, f' = f1 + 1 := ⟨f' - 1, by omega⟩
        exact DecisionTree.buildTreeFuel_few log2 h f1 headers r1 rest hc hw hmixed hc2
    have hc3 : 3 ≤ headers.length := by omega
    rcases argBest_spec (fun i => specGain log2 (r1 :: rest) i (headers.length - 1))
        (headers.length - 1) with ⟨he, _⟩ | ⟨b, he, hb, _, _, _⟩
    · refine ⟨TreeNode.mk ""
        (majorityOf (h.entries (tally (column (r1 :: rest) (headers.length - 1))))) [],
        ?_, fun f' hf' => ?_⟩
      · exact (le_of_eq (leaf_depth ""
          (majorityOf (h.entries (tally (column (r1 :: rest) (headers.length - 1))))))).trans
          (Nat.zero_le _)
      · obtain ⟨f1, rfl⟩ : ∃ f1, f' = f1 + 1 := ⟨f' - 1, by omega⟩
        rw [DecisionTree.buildTreeFuel_select log2 h f1 headers r1 rest hc hw hmixed hc3, he]
        simp
    · have hsub := fun kv hkv => subtable_wellFormed h headers (r1 :: rest) b hw hb kv hkv
      have hnh : (headers.eraseIdx b).length = headers.length - 1 := by
        rw [List.length_eraseIdx]
        simp [show b < headers.length by omega]
      obtain ⟨kids, hkids⟩ := exists_forall2
        (fun (kv : String × List Row) (kt : String × TreeNode) =>
          kt.1 = kv.1 ∧ kt.2.depth ≤ headers.length - 3 ∧
          ∀ f', f0 + 1 ≤ f' → DecisionTree.buildTreeFuel log2 h f'
            (headers.eraseIdx b :: kv.2) (headers.eraseIdx b) = .ok kt.2)
        (h.entries (groups (r1 :: rest) b (fun r => r.eraseIdx b)))
        (fun kv hkv => by
          obtain ⟨t, htd, htf⟩ := ih (headers.eraseIdx b :: kv.2) (headers.eraseIdx b)
            (hsub kv hkv).2.2 (by rw [hnh]; omega)
          refine ⟨(kv.1, t), rfl, ?_, htf⟩
          rw [hnh] at htd
          simpa [Nat.sub_sub] using htd)
      refine ⟨TreeNode.mk (cell headers b) "" kids, ?_, fun f' hf' => ?_⟩
      · have hd := depthList_le kids (headers.length - 3) (fun kt hkt => by
          obtain ⟨kv, _, hr⟩ := forall2_mem_right hkids kt hkt
          exact hr.2.1)
        simp only [TreeNode.depth]
        omega
      · obtain ⟨f1, rfl⟩ : ∃ f1, f' = f1 + 1 := ⟨f' - 1, by omega⟩
        rw [DecisionTree.buildTreeFuel_split log2 h f1 headers r1 rest hc hw hmixed hc3 b _ he hb]
        have hm := mapM_ok_of_forall2
          (fun (kv : String × List Row) => (do
            let child ← DecisionTree.buildTreeFuel log2 h f1 (headers.eraseIdx b :: kv.2)
              (headers.eraseIdx b)
            pure (kv.1, child) : Except Fault (String × TreeNode)))
          (h.entries (groups (r1 :: rest) b (fun r => r.eraseIdx b))) kids
          (hkids.imp (fun kv kt hr => by
            obtain ⟨k, t⟩ := kt
            obtain ⟨h1, _, h3⟩ := hr
            simp only at h1
            subst h1
            simp only [h3 f1 (by omega), bind, Except.bind, pure, Except.pure]))
        simp only [bind, Except.bind, pure, Except.pure] at hm ⊢
        rw [hm]

end Totality

section Structure

variable {α : Type} [LinearOrderedField α]

/-- The three ways in which `buildTree` leaves a well-formed table: a leaf for the single
label, a leaf for the majority label, or a node on the selected column with one subtree
per value of that column, each built from the reduced table of that value. -/
theorem DecisionTree.buildTree_cases (log2 : α → α) (h : HashOrder) (data : Table)
    (headers : Row) (hwf : WellFormed data headers) :
    ((∀ x ∈ labelsOf data headers, ∀ y ∈ labelsOf data headers, x = y) ∧
      ∃ L, (labelsOf data headers).head? = some L ∧
        DecisionTree.buildTree log2 h data headers = .ok (TreeNode.mk "" L [])) ∨
    ((∃ x ∈ labelsOf data headers, ∃ y ∈ labelsOf data headers, x ≠ y) ∧
      (headers.length ≤ 2 ∨
        argBest (fun i => specGain log2 data.tail i (headers.length - 1)) (headers.length - 1) =
          (-1, -1)) ∧
      DecisionTree.buildTree log2 h data headers =
        .ok (TreeNode.mk "" (majorityOf (h.entries (tally (labelsOf data headers)))) [])) ∨
    ((∃ x ∈ labelsOf data headers, ∃ y ∈ labelsOf data headers, x ≠ y) ∧
      3 ≤ headers.length ∧
      ∃ (b : Nat) (kids : List (String × TreeNode)),
        argBest (fun i => specGain log2 data.tail i (headers.length - 1)) (headers.length - 1) =
          ((b : Int), specGain log2 data.tail b (headers.length - 1)) ∧
        b < headers.length - 1 ∧
        DecisionTree.buildTree log2 h data headers = .ok (TreeNode.mk (cell headers b) "" kids) ∧
        List.Forall₂ (fun (kv : String × List Row) (kt : String × TreeNode) =>
            kt.1 = kv.1 ∧
            DecisionTree.buildTree log2 h (headers.eraseIdx b :: kv.2) (headers.eraseIdx b) =
              .ok kt.2)
          (h.entries (groups data.tail b (fun r => r.eraseIdx b))) kids) := by
  obtain ⟨r1, rest, hdata, hc, hw⟩ := hwf.shape
  subst hdata
  have hiff := all_eq_true_iff_labels r1 rest (headers.length - 1)
  simp only [labelsOf, List.tail_cons, DecisionTree.buildTree]
  by_cases hsame : (column rest (headers.length - 1)).all
      (fun l => decide (l = cell r1 (headers.length - 1))) = true
  · left
    refine ⟨hiff.mp hsame, cell r1 (headers.length - 1), by simp [column], ?_⟩
    exact DecisionTree.buildTreeFuel_pure log2 h _ headers r1 rest hc hw hsame
  have hmixed := Bool.eq_false_iff.mpr hsame
  have hmix : ∃ x ∈ column (r1 :: rest) (headers.length - 1),
      ∃ y ∈ column (r1 :: rest) (headers.length - 1), x ≠ y := by
    by_contra hcon
    apply hsame
    apply hiff.mpr
    intro x hx y hy
    by_contra hxy
    exact hcon ⟨x, hx, y, hy, hxy⟩
  right
  by_cases hc2 : headers.length ≤ 2
  · left
    exact ⟨hmix, Or.inl hc2,
      DecisionTree.buildTreeFuel_few log2 h _ headers r1 rest hc hw hmixed hc2⟩
  have hc3 : 3 ≤ headers.length := by omega
  rcases argBest_spec (fun i => specGain log2 (r1 :: rest) i (headers.length - 1))
      (headers.length - 1) with ⟨he, _⟩ | ⟨b, he, hb, _, _, _⟩
  · left
    refine ⟨hmix, Or.inr he, ?_⟩
    rw [DecisionTree.buildTreeFuel_select log2 h _ headers r1 rest hc hw hmixed hc3, he]
    simp
  · right
    have hnh : (headers.eraseIdx b).length = headers.length - 1 := by
      rw [List.length_eraseIdx]
      simp [show b < headers.length by omega]
    have hfuel : (headers.eraseIdx b).length + 1 = headers.length := by omega
    obtain ⟨kids, hkids⟩ := exists_forall2
      (fun (kv : String × List Row) (kt : String × TreeNode) =>
        kt.1 = kv.1 ∧
        DecisionTree.buildTreeFuel log2 h headers.length
          (headers.eraseIdx b :: kv.2) (headers.eraseIdx b) = .ok kt.2)
      (h.entries (groups (r1 :: rest) b (fun r => r.eraseIdx b)))
      (fun kv hkv => by
        obtain ⟨t, _, htf⟩ := DecisionTree.buildTreeFuel_total log2 h (headers.length - 3)
          (headers.eraseIdx b :: kv.2) (headers.eraseIdx b)
          (subtable_wellFormed h headers (r1 :: rest) b hw hb kv hkv).2.2 (by omega)
        exact ⟨(kv.1, t), rfl, htf headers.length (by omega)⟩)
    refine ⟨hmix, hc3, b, kids, he, hb, ?_, ?_⟩
    · rw [DecisionTree.buildTreeFuel_split log2 h _ headers r1 rest hc hw hmixed hc3 b _ he hb]
      have hm := mapM_ok_of_forall2
        (fun (kv : String × List Row) => (do
          let child ← DecisionTree.buildTreeFuel log2 h headers.length
            (headers.eraseIdx b :: kv.2) (headers.eraseIdx b)
          pure (kv.1, child) : Except Fault (String × TreeNode)))
        (h.entries (groups (r1 :: rest) b (fun r => r.eraseIdx b))) kids
        (hkids.imp (fun kv kt hr => by
          obtain ⟨k, t⟩ := kt
          obtain ⟨h1, h3⟩ := hr
          simp only at h1
          subst h1
          simp only [h3, bind, Except.bind, pure, Except.pure]))
      simp only [bind, Except.bind, pure, Except.pure] at hm ⊢
      rw [hm]
    · rw [hfuel]
      exact hkids

end Structure

/-! ### Further facts used by the main results -/

theorem majorityOf_unique (h : HashOrder) (ls : List String) (L0 : String) (hmem : L0 ∈ ls)
    (hmax : ∀ k ∈ ls, k ≠ L0 → ls.count k < ls.count L0) :
    majorityOf (h.entries (tally ls)) = L0 := by
  obtain ⟨pre, L, post, _, hL, hLmem, _, hall⟩ :=
    majorityOf_tally h ls (List.ne_nil_of_mem hmem)
  rw [hL]
  by_contra hne
  have h1 := hmax L hLmem hne
  have h2 := hall L0
  omega

theorem entries_groups_ne_nil (h : HashOrder) (rows : List Row) (b : Nat) (g : Row → Row)
    (hne : rows ≠ []) : h.entries (groups rows b g) ≠ [] := by
  obtain ⟨r, hr⟩ := List.exists_mem_of_ne_nil rows hne
  have hk : cell r b ∈ (groups rows b g).map Prod.fst :=
    ((groups_keys rows b g).2 _).2 (List.mem_map_of_mem (fun r => cell r b) hr)
  obtain ⟨kv, hkv, _⟩ := List.mem_map.mp hk
  have hin : kv ∈ h.entries (groups rows b g) :=
    (h.entries_perm _ (groups_keys rows b g).1).symm.subset hkv
  exact List.ne_nil_of_mem hin

theorem argBest_real_found (rows : List Row) (li n : Nat) (hn : 1 ≤ n) :
    argBest (fun i => specGain (Real.logb 2) rows i li) n ≠ (-1, -1) := by
  intro he
  rcases argBest_spec (fun i => specGain (Real.logb 2) rows i li) n with
    ⟨_, hall⟩ | ⟨b, hb, _, hgt, _, _⟩
  · have h0 := hall 0 (by omega)
    have h1 := specGain_nonneg rows 0 li
    simp only at h0
    linarith
  · rw [he] at hb
    have : (-1 : Int) = (b : Int) := congrArg Prod.fst hb
    omega

section EntropyOk

variable {α : Type} [LinearOrderedField α]

theorem DataSheet.calculateEntropy_eq (log2 : α → α) (h : HashOrder) (dataFile : Table)
    (headers : Row) (hwf : WellFormed dataFile headers) :
    DataSheet.calculateEntropy log2 h dataFile = .ok (shannon log2 (labelsOf dataFile headers)) := by
  obtain ⟨r1, rest, hdata, hc, hw⟩ := hwf.shape
  subst hdata
  have h0 : index (headers :: r1 :: rest) 0 = .ok headers := by simp [index]
  have hn : (((headers :: r1 :: rest).length : Int) - 1) =
      ((column (r1 :: rest) (headers.length - 1)).length : Int) := by
    simp [column_length]
  unfold DataSheet.calculateEntropy
  simp only [h0, bind, Except.bind, pure, Except.pure, List.drop_one, List.tail_cons,
    countLabels_ok (r1 :: rest) headers.length hc hw, labelsOf]
  rw [hn, entropySum_tally]

end EntropyOk

/-! ### First-seen order and the first label of maximal count -/

theorem split_unique {β : Type} (L : β) (pre post pre' post' : List β)
    (hn : (pre ++ L :: post).Nodup) (he : pre ++ L :: post = pre' ++ L :: post') :
    pre = pre' := by
  induction pre generalizing pre' with
  | nil =>
    cases pre' with
    | nil => rfl
    | cons x p =>
      exfalso
      simp only [List.nil_append, List.cons_append, List.cons.injEq] at he
      obtain ⟨_, hpost⟩ := he
      simp only [List.nil_append, List.nodup_cons] at hn
      apply hn.1
      rw [hpost]
      simp
  | cons a p ih =>
    simp only [List.cons_append, List.nodup_cons] at hn
    cases pre' with
    | nil =>
      exfalso
      simp only [List.nil_append, List.cons_append, List.cons.injEq] at he
      apply hn.1
      rw [he.1]
      simp
    | cons x p' =>
      simp only [List.cons_append, List.cons.injEq] at he
      rw [he.1, ih p' hn.2 he.2]

theorem firstSeen_spec (ls : List String) :
    (firstSeen ls).Nodup ∧ ∀ k, k ∈ firstSeen ls ↔ k ∈ ls := by
  rw [← tally_keys_eq]
  exact tally_keys ls

theorem firstSeen_fold_extends (l : List String) (acc : List String) :
    ∃ r, l.foldl (fun acc l => if l ∈ acc then acc else acc ++ [l]) acc = acc ++ r := by
  induction l generalizing acc with
  | nil => exact ⟨[], by simp⟩
  | cons x xs ih =>
    simp only [List.foldl_cons]
    by_cases hx : x ∈ acc
    · rw [if_pos hx]
      exact ih acc
    · rw [if_neg hx]
      obtain ⟨r, hr⟩ := ih (acc ++ [x])
      exact ⟨x :: r, by rw [hr]; simp⟩

theorem firstSeen_split (l1 l2 : List String) (L : String) (hL : L ∉ l1) :
    ∃ r, firstSeen (l1 ++ L :: l2) = firstSeen l1 ++ L :: r := by
  have hL2 : L ∉ firstSeen l1 := fun hm => hL (((firstSeen_spec l1).2 L).1 hm)
  obtain ⟨r, hr⟩ := firstSeen_fold_extends l2 (firstSeen l1 ++ [L])
  refine ⟨r, ?_⟩
  have : firstSeen (l1 ++ L :: l2) =
      l2.foldl (fun acc l => if l ∈ acc then acc else acc ++ [l]) (firstSeen l1 ++ [L]) := by
    simp only [firstSeen, List.foldl_append, List.foldl_cons]
    have hL3 : L ∉ List.foldl (fun acc l => if l ∈ acc then acc else acc ++ [l]) [] l1 := hL2
    rw [if_neg hL3]
  rw [this, hr]
  simp

theorem firstMajority_of_firstSeen (ls pre post : List String) (L : String)
    (hfs : firstSeen ls = pre ++ L :: post)
    (hmax : ∀ l, ls.count l ≤ ls.count L)
    (hpre : ∀ k ∈ pre, ls.count k < ls.count L) :
    firstMajority ls = some L := by
  have hLmem : L ∈ ls := ((firstSeen_spec ls).2 L).1 (by rw [hfs]; simp)
  obtain ⟨l1, l2, hls, hnot⟩ := List.eq_append_cons_of_mem hLmem
  obtain ⟨r, hr⟩ := firstSeen_split l1 l2 L hnot
  have hnd := (firstSeen_spec ls).1
  rw [hls, hr] at hfs
  have hpre_eq : firstSeen l1 = pre := by
    apply split_unique L (firstSeen l1) r pre post _ hfs
    rw [← hr, ← hls]
    exact hnd
  unfold firstMajority
  rw [List.find?_eq_some]
  refine ⟨?_, l1, l2, hls, ?_⟩
  · simp only [List.all_eq_true, decide_eq_true_eq]
    intro x _
    exact hmax x
  · intro a ha
    have ha2 : a ∈ pre := by
      rw [← hpre_eq]
      exact ((firstSeen_spec l1).2 a).2 ha
    have hlt := hpre a ha2
    simp only [Bool.not_eq_true', List.all_eq_false, decide_eq_true_eq]
    exact ⟨L, hLmem, by omega⟩

/-! ## Main results -/

/-- C1, evaluated at its own example: for headers `[Weather, Play]` and data rows
`[Sunny,Yes]`, `[Sunny,Yes]`, `[Rainy,No]`, `buildTree` returns the node with empty
attribute, label `Yes` and no children, for every iteration order of the maps; the test
`colCount <= 2` returns the majority label before the only attribute is scored, so the result
is not a split on `Weather`. -/
theorem buildTree_weather_is_majority_leaf (h : HashOrder) :
    DecisionTree.buildTree (Real.logb 2) h weatherTable weatherHeaders =
      .ok (TreeNode.mk "" "Yes" []) := by
  have hf := DecisionTree.buildTreeFuel_few (Real.logb 2) h 2 ["Weather", "Play"]
    ["Sunny", "Yes"] [["Sunny", "Yes"], ["Rainy", "No"]] (by decide) (by decide) (by decide)
    (by decide)
  have hcol : column [["Sunny", "Yes"], ["Sunny", "Yes"], ["Rainy", "No"]]
      (["Weather", "Play"].length - 1) = ["Yes", "Yes", "No"] := by decide
  have hm := majorityOf_unique h ["Yes", "Yes", "No"] "Yes" (by decide) (by decide)
  rw [hcol, hm] at hf
  exact hf

/-- C2: on every well-formed table `buildTree` returns a tree; its depth (number of nodes
with children on the longest path from the root to a leaf) is at most the number of
non-label columns, and every amount of fuel of at least `headers.size()` returns the same
tree, so the recursion ends by itself. -/
theorem buildTree_terminates_with_bounded_depth {α : Type} [LinearOrderedField α]
    (log2 : α → α) (h : HashOrder) (data : Table) (headers : Row)
    (hwf : WellFormed data headers) :
    ∃ t, DecisionTree.buildTree log2 h data headers = .ok t ∧
      t.depth ≤ headers.length - 1 ∧
      ∀ fuel, headers.length ≤ fuel →
        DecisionTree.buildTreeFuel log2 h fuel data headers = .ok t := by
  have hc : 1 ≤ headers.length := hwf.2.1
  obtain ⟨t, hd, hf⟩ := DecisionTree.buildTreeFuel_total log2 h (headers.length - 1)
    data headers hwf (by omega)
  refine ⟨t, hf _ (by omega), by omega, fun fuel hfuel => hf fuel (by omega)⟩

/-- Witness for C2 on the outlook table. -/
theorem buildTree_terminates_with_bounded_depth_witness :
    WellFormed outlookTable outlookHeaders ∧
    ∃ t, DecisionTree.buildTree (Real.logb 2) insertionOrder outlookTable outlookHeaders =
        .ok t ∧
      t.depth ≤ outlookHeaders.length - 1 ∧
      ∀ fuel, outlookHeaders.length ≤ fuel →
        DecisionTree.buildTreeFuel (Real.logb 2) insertionOrder fuel outlookTable
          outlookHeaders = .ok t :=
  ⟨by decide, buildTree_terminates_with_bounded_depth (Real.logb 2) insertionOrder
    outlookTable outlookHeaders (by decide)⟩

/-- C3: when every data row of a well-formed table carries the same label `L`, `buildTree`
returns the node with empty attribute, label `L` and no children, for any number of
columns; the result is the same for every arithmetic and every `log2`, since no gain is
computed on that path. -/
theorem buildTree_single_label_leaf {α : Type} [LinearOrderedField α]
    (log2 : α → α) (h : HashOrder) (data : Table) (headers : Row) (L : String)
    (hwf : WellFormed data headers)
    (hL : ∀ r ∈ data.tail, cell r (headers.length - 1) = L) :
    DecisionTree.buildTree log2 h data headers = .ok (TreeNode.mk "" L []) := by
  have hall : ∀ x ∈ labelsOf data headers, x = L := by
    intro x hx
    simp only [labelsOf, column, List.mem_map] at hx
    obtain ⟨r, hr, hrx⟩ := hx
    rw [← hrx]
    exact hL r hr
  rcases DecisionTree.buildTree_cases log2 h data headers hwf with
    ⟨_, L', hhead, hres⟩ | ⟨⟨x, hx, y, hy, hxy⟩, _⟩ | ⟨⟨x, hx, y, hy, hxy⟩, _⟩
  · have : L' = L := hall L' (List.mem_of_mem_head? hhead)
    rw [hres, this]
  · exact absurd ((hall x hx).trans (hall y hy).symm) hxy
  · exact absurd ((hall x hx).trans (hall y hy).symm) hxy

/-- Witness for C3 on a table whose two data rows both carry the label `Yes`. -/
theorem buildTree_single_label_leaf_witness :
    WellFormed sameLabelTable weatherHeaders ∧
    (∀ r ∈ sameLabelTable.tail, cell r (weatherHeaders.length - 1) = "Yes") ∧
    DecisionTree.buildTree (Real.logb 2) reverseOrder sameLabelTable weatherHeaders =
      .ok (TreeNode.mk "" "Yes" []) :=
  ⟨by decide, by decide, buildTree_single_label_leaf (Real.logb 2) reverseOrder
    sameLabelTable weatherHeaders "Yes" (by decide) (by decide)⟩

/-- C4: on every well-formed table `buildTree` returns a node; with at most two columns the
node has no children; and whenever the returned node has no children, its attribute is
empty and its label occurs among the labels of the data rows with an occurrence count that
no other label exceeds. -/
theorem buildTree_leaf_label_has_max_count {α : Type} [LinearOrderedField α]
    (log2 : α → α) (h : HashOrder) (data : Table) (headers : Row)
    (hwf : WellFormed data headers) :
    ∃ t, DecisionTree.buildTree log2 h data headers = .ok t ∧
      (headers.length ≤ 2 → t.children = []) ∧
      (t.children = [] → t.attr = "" ∧ t.label ∈ labelsOf data headers ∧
        ∀ l, (labelsOf data headers).count l ≤ (labelsOf data headers).count t.label) := by
  rcases DecisionTree.buildTree_cases log2 h data headers hwf with
    ⟨hsame, L, hhead, hres⟩ | ⟨⟨x, hx, _⟩, _, hres⟩ | ⟨_, hc3, b, kids, _, _, hres, hkids⟩
  · refine ⟨_, hres, fun _ => rfl, fun _ => ⟨rfl, List.mem_of_mem_head? hhead, fun l => ?_⟩⟩
    have hLlen : (labelsOf data headers).count L = (labelsOf data headers).length :=
      List.count_eq_length.mpr (fun y hy => hsame L (List.mem_of_mem_head? hhead) y hy)
    simp only [TreeNode.label]
    rw [hLlen]
    exact List.count_le_length l _
  · obtain ⟨pre, L, post, _, hL, hmem, _, hall⟩ :=
      majorityOf_tally h (labelsOf data headers) (List.ne_nil_of_mem hx)
    refine ⟨_, hres, fun _ => rfl, fun _ => ⟨rfl, ?_, fun l => ?_⟩⟩
    · simp only [TreeNode.label]
      rw [hL]
      exact hmem
    · simp only [TreeNode.label]
      rw [hL]
      exact hall l
  · have hne : kids ≠ [] := by
      intro hk
      rw [hk] at hkids
      have hnil := List.forall₂_nil_right_iff.mp hkids
      obtain ⟨r1, rest, hdata, _, _⟩ := hwf.shape
      subst hdata
      exact entries_groups_ne_nil h (r1 :: rest) b _ (List.cons_ne_nil _ _) hnil
    refine ⟨_, hres, fun hc2 => ?_, fun hk => absurd hk hne⟩
    omega

/-- Witness for C4: with labels `A, A, B` and no attribute column left the returned leaf is
`A`, here under the iteration order that visits the last inserted key first. -/
theorem buildTree_leaf_label_has_max_count_witness :
    WellFormed aabTable labelOnlyHeaders ∧
    DecisionTree.buildTree (Real.logb 2) reverseOrder aabTable labelOnlyHeaders =
      .ok (TreeNode.mk "" "A" []) := by
  refine ⟨by decide, ?_⟩
  obtain ⟨t, hres, hkids, hprop⟩ := buildTree_leaf_label_has_max_count (Real.logb 2)
    reverseOrder aabTable labelOnlyHeaders (by decide)
  obtain ⟨a, l, cs⟩ := t
  have hcs : cs = [] := hkids (by decide)
  obtain ⟨ha, hmem, hmax⟩ := hprop hcs
  simp only [TreeNode.attr, TreeNode.label] at ha hmem hmax
  have hl : l = "A" := by
    have hlab : labelsOf aabTable labelOnlyHeaders = ["A", "A", "B"] := by decide
    rw [hlab] at hmem hmax
    simp only [List.mem_cons, List.mem_singleton, List.not_mem_nil, or_false, or_self_left]
      at hmem
    rcases hmem with h1 | h1
    · exact h1
    · have h2 := hmax "A"
      rw [h1] at h2
      exact absurd h2 (by decide)
  rw [hres, ha, hl, hcs]

/-- C6: for a well-formed subset and a non-label column `a`, `calculateIG_OnSubset` returns
the Shannon entropy of the labels of the subset's own data rows minus the sum, over the
values `v` observed in column `a`, of the share of rows with value `v` times the Shannon
entropy of the labels of those rows; nothing but the subset enters the result.  This holds
in every ordered field and for every `log2`, in particular over the reals in bits. -/
theorem calculateIG_OnSubset_is_entropy_minus_weighted_entropies {α : Type}
    [LinearOrderedField α] (log2 : α → α) (h : HashOrder) (subset : Table) (headers : Row)
    (a : Nat) (hwf : WellFormed subset headers) (ha : a < headers.length - 1) :
    DecisionTree.calculateIG_OnSubset log2 h subset (a : Int) =
      .ok (shannon log2 (labelsOf subset headers) -
        ∑ v ∈ (column subset.tail a).toFinset,
          ((rowsWith subset.tail a v).length : α) / (subset.tail.length : α) *
            shannon log2 (column (rowsWith subset.tail a v) (headers.length - 1))) := by
  obtain ⟨r1, rest, hdata, hc1, hw⟩ := hwf.shape
  subst hdata
  exact DecisionTree.calculateIG_OnSubset_eq log2 h headers (r1 :: rest) a hc1 hw (by omega)

/-- Witness for C6: the gain of column `Outlook` of the outlook table, over the reals. -/
theorem calculateIG_OnSubset_is_entropy_minus_weighted_entropies_witness :
    WellFormed outlookTable outlookHeaders ∧ 0 < outlookHeaders.length - 1 ∧
    DecisionTree.calculateIG_OnSubset (Real.logb 2) insertionOrder outlookTable ((0 : Nat) : Int) =
      .ok (shannon (Real.logb 2) (labelsOf outlookTable outlookHeaders) -
        ∑ v ∈ (column outlookTable.tail 0).toFinset,
          ((rowsWith outlookTable.tail 0 v).length : ℝ) / (outlookTable.tail.length : ℝ) *
            shannon (Real.logb 2)
              (column (rowsWith outlookTable.tail 0 v) (outlookHeaders.length - 1))) :=
  ⟨by decide, by decide, calculateIG_OnSubset_is_entropy_minus_weighted_entropies (Real.logb 2)
    insertionOrder outlookTable outlookHeaders 0 (by decide) (by decide)⟩

/-- C7: when `buildTree` splits (well-formed table, at least three columns, labels not all
equal), the returned node has an empty label and the header of the selected column `b` as
attribute; the keys of its children are pairwise distinct and are exactly the values that
occur in column `b` of the data rows; and the child for value `v` is the result of
`buildTree` on the rows whose column `b` equals `v`, in their original order, with column
`b` erased from every row and from the headers. -/
theorem buildTree_split_structure (h : HashOrder) (data : Table) (headers : Row)
    (hwf : WellFormed data headers) (hc : 3 ≤ headers.length)
    (hmix : ∃ x ∈ labelsOf data headers, ∃ y ∈ labelsOf data headers, x ≠ y) :
    ∃ (b : Nat) (g : ℝ) (name : String) (kids : List (String × TreeNode)),
      DecisionTree.selectBest
        (fun i : Nat => DecisionTree.calculateIG_OnSubset (Real.logb 2) h data (i : Int))
        (headers.length - 1) = .ok ((b : Int), g) ∧
      b < headers.length - 1 ∧ headers[b]? = some name ∧
      DecisionTree.buildTree (Real.logb 2) h data headers = .ok (TreeNode.mk name "" kids) ∧
      (kids.map Prod.fst).Nodup ∧
      (∀ v, v ∈ kids.map Prod.fst ↔ v ∈ column data.tail b) ∧
      ∀ v t, (v, t) ∈ kids →
        DecisionTree.buildTree (Real.logb 2) h
          (headers.eraseIdx b :: (rowsWith data.tail b v).map (fun r => r.eraseIdx b))
          (headers.eraseIdx b) = .ok t := by
  obtain ⟨r1, rest, hdata, hc1, hw⟩ := hwf.shape
  have hgains : ∀ j, j < headers.length - 1 →
      DecisionTree.calculateIG_OnSubset (Real.logb 2) h data (j : Int) =
        .ok (specGain (Real.logb 2) data.tail j (headers.length - 1)) := by
    intro j hj
    rw [hdata]
    exact DecisionTree.calculateIG_OnSubset_eq (Real.logb 2) h headers (r1 :: rest) j hc1 hw
      (by omega)
  have hsel := DecisionTree.selectBest_ok
    (fun i : Nat => DecisionTree.calculateIG_OnSubset (Real.logb 2) h data (i : Int))
    (fun i : Nat => specGain (Real.logb 2) data.tail i (headers.length - 1))
    (headers.length - 1) hgains
  rcases DecisionTree.buildTree_cases (Real.logb 2) h data headers hwf with
    ⟨hsame, _⟩ | ⟨_, hor, _⟩ | ⟨_, _, b, kids, he, hb, hres, hkids⟩
  · obtain ⟨x, hx, y, hy, hxy⟩ := hmix
    exact absurd (hsame x hx y hy) hxy
  · rcases hor with h2 | h2
    · omega
    · exact absurd h2 (argBest_real_found data.tail (headers.length - 1)
        (headers.length - 1) (by omega))
  · have hkeys : kids.map Prod.fst =
        (h.entries (groups data.tail b (fun r => r.eraseIdx b))).map Prod.fst :=
      forall2_map_fst hkids (fun _ _ hr => hr.1)
    have hperm := (h.entries_perm (groups data.tail b (fun r => r.eraseIdx b))
      (groups_keys data.tail b _).1).map Prod.fst
    have hblt : b < headers.length := by omega
    refine ⟨b, _, cell headers b, kids, by rw [hsel, he], hb, ?_, hres, ?_, ?_, ?_⟩
    · simp [cell, List.getD_eq_getElem?_getD, List.getElem?_eq_getElem hblt]
    · rw [hkeys]
      exact hperm.nodup_iff.mpr (groups_keys data.tail b _).1
    · intro v
      rw [hkeys, hperm.mem_iff]
      exact (groups_keys data.tail b _).2 v
    · intro v t hvt
      obtain ⟨kv, hkv, hk1, hk2⟩ := forall2_mem_right hkids (v, t) hvt
      have hsub := subtable_wellFormed h headers data.tail b
        (by rw [hdata]; exact hw) hb kv hkv
      simp only at hk1 hk2
      rw [← hk2, hsub.2.1, ← hk1]

/-- Witness for C7 on the outlook table. -/
theorem buildTree_split_structure_witness :
    WellFormed outlookTable outlookHeaders ∧ 3 ≤ outlookHeaders.length ∧
    (∃ x ∈ labelsOf outlookTable outlookHeaders,
      ∃ y ∈ labelsOf outlookTable outlookHeaders, x ≠ y) ∧
    ∃ (b : Nat) (g : ℝ) (name : String) (kids : List (String × TreeNode)),
      DecisionTree.selectBest
        (fun i : Nat =>
          DecisionTree.calculateIG_OnSubset (Real.logb 2) insertionOrder outlookTable (i : Int))
        (outlookHeaders.length - 1) = .ok ((b : Int), g) ∧
      b < outlookHeaders.length - 1 ∧ outlookHeaders[b]? = some name ∧
      DecisionTree.buildTree (Real.logb 2) insertionOrder outlookTable outlookHeaders =
        .ok (TreeNode.mk name "" kids) ∧
      (kids.map Prod.fst).Nodup ∧
      (∀ v, v ∈ kids.map Prod.fst ↔ v ∈ column outlookTable.tail b) ∧
      ∀ v t, (v, t) ∈ kids →
        DecisionTree.buildTree (Real.logb 2) insertionOrder
          (outlookHeaders.eraseIdx b ::
            (rowsWith outlookTable.tail b v).map (fun r => r.eraseIdx b))
          (outlookHeaders.eraseIdx b) = .ok t :=
  ⟨by decide, by decide, by decide, buildTree_split_structure insertionOrder outlookTable
    outlookHeaders (by decide) (by decide) (by decide)⟩

/-- C8, counterexample: with labels `A, B` (one occurrence each, no attribute column left)
and maps that visit the most recently inserted key first, `buildTree` returns the leaf `B`,
while the first label of maximal count in row order is `A`. -/
theorem majority_tie_not_by_row_order :
    DecisionTree.buildTree (Real.logb 2) reverseOrder tieTable labelOnlyHeaders =
      .ok (TreeNode.mk "" "B" []) ∧
    firstMajority (labelsOf tieTable labelOnlyHeaders) = some "A" :=
  ⟨rfl, by decide⟩

/-- C8, amended: when `buildTree` falls back to the majority label (well-formed table, at
most two columns, labels not all equal), the returned label `L` has maximal count and is
the first label of maximal count in the iteration order of the frequency map, whose keys
were inserted in the order in which the rows first show them; if the map iterates in
insertion order, `L` is the first label of maximal count in row order. -/
theorem majority_tie_by_map_iteration_order {α : Type} [LinearOrderedField α]
    (log2 : α → α) (h : HashOrder) (data : Table) (headers : Row)
    (hwf : WellFormed data headers) (hc : headers.length ≤ 2)
    (hmix : ∃ x ∈ labelsOf data headers, ∃ y ∈ labelsOf data headers, x ≠ y) :
    ∃ pre L post,
      h.iter (firstSeen (labelsOf data headers)) = pre ++ L :: post ∧
      DecisionTree.buildTree log2 h data headers = .ok (TreeNode.mk "" L []) ∧
      (∀ l, (labelsOf data headers).count l ≤ (labelsOf data headers).count L) ∧
      (∀ k ∈ pre, (labelsOf data headers).count k < (labelsOf data headers).count L) ∧
      (h.iter (firstSeen (labelsOf data headers)) = firstSeen (labelsOf data headers) →
        firstMajority (labelsOf data headers) = some L) := by
  obtain ⟨x, hx, y, hy, hxy⟩ := hmix
  obtain ⟨pre, L, post, hiter, hL, _, hpre, hall⟩ :=
    majorityOf_tally h (labelsOf data headers) (List.ne_nil_of_mem hx)
  rcases DecisionTree.buildTree_cases log2 h data headers hwf with
    ⟨hsame, _⟩ | ⟨_, _, hres⟩ | ⟨_, hc3, _⟩
  · exact absurd (hsame x hx y hy) hxy
  · refine ⟨pre, L, post, hiter, by rw [hres, hL], hall, hpre, fun hid => ?_⟩
    rw [hid] at hiter
    exact firstMajority_of_firstSeen _ pre post L hiter hall hpre
  · omega

/-- Witness for C8 (amended) on the table with labels `A, B` under the iteration order
that visits the most recently inserted key first. -/
theorem majority_tie_by_map_iteration_order_witness :
    WellFormed tieTable labelOnlyHeaders ∧ labelOnlyHeaders.length ≤ 2 ∧
    (∃ x ∈ labelsOf tieTable labelOnlyHeaders,
      ∃ y ∈ labelsOf tieTable labelOnlyHeaders, x ≠ y) ∧
    ∃ pre L post,
      reverseOrder.iter (firstSeen (labelsOf tieTable labelOnlyHeaders)) = pre ++ L :: post ∧
      DecisionTree.buildTree (Real.logb 2) reverseOrder tieTable labelOnlyHeaders =
        .ok (TreeNode.mk "" L []) ∧
      (∀ l, (labelsOf tieTable labelOnlyHeaders).count l ≤
        (labelsOf tieTable labelOnlyHeaders).count L) ∧
      (∀ k ∈ pre, (labelsOf tieTable labelOnlyHeaders).count k <
        (labelsOf tieTable labelOnlyHeaders).count L) ∧
      (reverseOrder.iter (firstSeen (labelsOf tieTable labelOnlyHeaders)) =
          firstSeen (labelsOf tieTable labelOnlyHeaders) →
        firstMajority (labelsOf tieTable labelOnlyHeaders) = some L) :=
  ⟨by decide, by decide, by decide, majority_tie_by_map_iteration_order (Real.logb 2)
    reverseOrder tieTable labelOnlyHeaders (by decide) (by decide) (by decide)⟩

/-- C9: over the reals, on a well-formed table, the entropy returned by
`DataSheet::calculateEntropy` is `0` exactly when all data rows carry one single label; the
same holds for the entropy that `calculateIG_OnSubset` accumulates from its own label
counts. -/
theorem entropy_zero_iff_single_label (h : HashOrder) (dataFile : Table) (headers : Row)
    (hwf : WellFormed dataFile headers) :
    ∃ e, DataSheet.calculateEntropy (Real.logb 2) h dataFile = .ok e ∧
      (e = 0 ↔ ∃ L, ∀ l ∈ labelsOf dataFile headers, l = L) ∧
      ∃ labelCount,
        countLabels (dataFile.drop 1) ((headers.length : Int) - 1) = .ok labelCount ∧
        (entropySum (Real.logb 2) (h.entries labelCount) ((dataFile.length : Int) - 1) = 0 ↔
          ∃ L, ∀ l ∈ labelsOf dataFile headers, l = L) := by
  obtain ⟨r1, rest, hdata, hc1, hw⟩ := hwf.shape
  have hne : labelsOf dataFile headers ≠ [] := by
    rw [hdata]
    simp [labelsOf, column]
  refine ⟨_, DataSheet.calculateEntropy_eq (Real.logb 2) h dataFile headers hwf,
    shannon_eq_zero_iff _ hne, tally (labelsOf dataFile headers), ?_, ?_⟩
  · rw [hdata]
    exact countLabels_ok (r1 :: rest) headers.length hc1 hw
  · have hn : ((dataFile.length : Int) - 1) = ((labelsOf dataFile headers).length : Int) := by
      rw [hdata]
      simp [labelsOf, column_length]
    rw [hn, entropySum_tally]
    exact shannon_eq_zero_iff _ hne

/-- Witness for C9 on the weather table. -/
theorem entropy_zero_iff_single_label_witness :
    WellFormed weatherTable weatherHeaders ∧
    ∃ e, DataSheet.calculateEntropy (Real.logb 2) insertionOrder weatherTable = .ok e ∧
      (e = 0 ↔ ∃ L, ∀ l ∈ labelsOf weatherTable weatherHeaders, l = L) ∧
      ∃ labelCount,
        countLabels (weatherTable.drop 1) ((weatherHeaders.length : Int) - 1) =
          .ok labelCount ∧
        (entropySum (Real.logb 2) (insertionOrder.entries labelCount)
            ((weatherTable.length : Int) - 1) = 0 ↔
          ∃ L, ∀ l ∈ labelsOf weatherTable weatherHeaders, l = L) :=
  ⟨by decide, entropy_zero_iff_single_label insertionOrder weatherTable weatherHeaders
    (by decide)⟩

/-- C10: over the reals, on a well-formed table whose data rows carry `k` distinct labels,
the entropy returned by `DataSheet::calculateEntropy` is at most `log2 k`, and it equals
`log2 k` when all these labels occur equally often. -/
theorem entropy_le_log2_of_label_count (h : HashOrder) (dataFile : Table) (headers : Row)
    (hwf : WellFormed dataFile headers) :
    ∃ e, DataSheet.calculateEntropy (Real.logb 2) h dataFile = .ok e ∧
      e ≤ Real.logb 2 ((labelsOf dataFile headers).toFinset.card : ℝ) ∧
      ((∃ c, ∀ y ∈ labelsOf dataFile headers, (labelsOf dataFile headers).count y = c) →
        e = Real.logb 2 ((labelsOf dataFile headers).toFinset.card : ℝ)) := by
  obtain ⟨r1, rest, hdata, _, _⟩ := hwf.shape
  have hne : labelsOf dataFile headers ≠ [] := by
    rw [hdata]
    simp [labelsOf, column]
  refine ⟨_, DataSheet.calculateEntropy_eq (Real.logb 2) h dataFile headers hwf,
    shannon_le_logb_card _ hne, ?_⟩
  rintro ⟨c, hcnt⟩
  exact shannon_uniform _ hne c hcnt

/-- Witness for C10 on the table with labels `A, B`. -/
theorem entropy_le_log2_of_label_count_witness :
    WellFormed tieTable labelOnlyHeaders ∧
    ∃ e, DataSheet.calculateEntropy (Real.logb 2) reverseOrder tieTable = .ok e ∧
      e ≤ Real.logb 2 ((labelsOf tieTable labelOnlyHeaders).toFinset.card : ℝ) ∧
      ((∃ c, ∀ y ∈ labelsOf tieTable labelOnlyHeaders,
          (labelsOf tieTable labelOnlyHeaders).count y = c) →
        e = Real.logb 2 ((labelsOf tieTable labelOnlyHeaders).toFinset.card : ℝ)) :=
  ⟨by decide, entropy_le_log2_of_label_count reverseOrder tieTable labelOnlyHeaders
    (by decide)⟩

/-! ### Splitting a line at a delimiter -/

theorem splitFields_ne_nil (d : Char) (l : List Char) : splitFields d l ≠ [] := by
  induction l with
  | nil => simp [splitFields]
  | cons c cs ih =>
    by_cases hc : c = d
    · simp [splitFields, hc]
    · cases hs : splitFields d cs with
      | nil => exact absurd hs ih
      | cons f fs => simp [splitFields, hc, hs]

theorem splitFields_no_delimiter (d : Char) (l : List Char) :
    ∀ f ∈ splitFields d l, d ∉ f := by
  induction l with
  | nil => simp [splitFields]
  | cons c cs ih =>
    by_cases hc : c = d
    · intro f hf
      simp only [splitFields, hc, if_true, List.mem_cons] at hf
      rcases hf with h | h
      · rw [h]; exact List.not_mem_nil d
      · exact ih f h
    · cases hs : splitFields d cs with
      | nil => exact absurd hs (splitFields_ne_nil d cs)
      | cons f0 fs =>
        rw [hs] at ih
        intro f hf
        simp only [splitFields, hc, if_false, hs, List.mem_cons] at hf
        rcases hf with h | h
        · rw [h]
          intro hm
          rcases List.mem_cons.mp hm with h1 | h1
          · exact hc h1.symm
          · exact ih f0 (List.mem_cons_self _ _) h1
        · exact ih f (List.mem_cons_of_mem _ h)

theorem splitFields_length (d : Char) (l : List Char) :
    (splitFields d l).length = l.count d + 1 := by
  induction l with
  | nil => simp [splitFields]
  | cons c cs ih =>
    by_cases hc : c = d
    · simp [splitFields, hc, ih]
    · cases hs : splitFields d cs with
      | nil => exact absurd hs (splitFields_ne_nil d cs)
      | cons f0 fs =>
        rw [hs] at ih
        simp only [splitFields, hc, if_false, hs, List.length_cons]
        rw [List.count_cons_of_ne (fun e => hc e.symm)]
        simpa using ih

theorem splitFields_intercalate (d : Char) (l : List Char) :
    List.intercalate [d] (splitFields d l) = l := by
  induction l with
  | nil => simp [splitFields, List.intercalate]
  | cons c cs ih =>
    by_cases hc : c = d
    · cases hs : splitFields d cs with
      | nil => exact absurd hs (splitFields_ne_nil d cs)
      | cons f0 fs =>
        rw [hs] at ih
        simp only [splitFields, hc, if_true, hs]
        simp only [List.intercalate, List.intersperse, List.flatten, List.nil_append,
          List.singleton_append] at ih ⊢
        rw [ih]
    · cases hs : splitFields d cs with
      | nil => exact absurd hs (splitFields_ne_nil d cs)
      | cons f0 fs =>
        rw [hs] at ih
        simp only [splitFields, hc, if_false, hs]
        cases fs with
        | nil =>
          simp only [List.intercalate, List.intersperse, List.flatten, List.append_nil] at ih ⊢
          rw [ih]
        | cons f1 fs1 =>
          simp only [List.intercalate, List.intersperse, List.flatten, List.cons_append] at ih ⊢
          rw [ih]

theorem firstAt_none (d : Char) (l : List Char) (hn : DataSheet.firstAt d l = none) :
    splitFields d l = [l] := by
  induction l with
  | nil => rfl
  | cons c cs ih =>
    by_cases hc : c = d
    · simp [DataSheet.firstAt, hc] at hn
    · simp only [DataSheet.firstAt, hc, if_false, Option.map_eq_none'] at hn
      simp [splitFields, hc, ih hn]

theorem firstAt_some (d : Char) (l : List Char) (p : Nat)
    (hs : DataSheet.firstAt d l = some p) :
    p < l.length ∧ splitFields d l = l.take p :: splitFields d (l.drop (p + 1)) := by
  induction l generalizing p with
  | nil => simp [DataSheet.firstAt] at hs
  | cons c cs ih =>
    by_cases hc : c = d
    · simp only [DataSheet.firstAt, hc, if_true, Option.some.injEq] at hs
      subst hs
      simp [splitFields, hc]
    · simp only [DataSheet.firstAt, hc, if_false, Option.map_eq_some'] at hs
      obtain ⟨q, hq, hqp⟩ := hs
      subst hqp
      obtain ⟨hlt, hsplit⟩ := ih q hq
      refine ⟨by simpa using hlt, ?_⟩
      simp only [splitFields, hc, if_false, hsplit, List.take_succ_cons, List.drop_succ_cons]

theorem DataSheet.splitLoop_eq (input : List Char) (d : Char) :
    ∀ (fuel start : Nat) (output : List (List Char)), start ≤ input.length →
      input.length - start < fuel →
      DataSheet.splitLoop input d fuel start output =
        .ok (output ++ splitFields d (input.drop start)) := by
  intro fuel
  induction fuel with
  | zero => intro start output _ hf; omega
  | succ fuel ih =>
    intro start output hs hf
    rw [DataSheet.splitLoop]
    cases hfind : DataSheet.firstAt d (input.drop start) with
    | none =>
      simp only [DataSheet.findFrom, hfind, Option.map_none', hs, if_true]
      rw [firstAt_none d _ hfind]
      rfl
    | some p =>
      obtain ⟨hp, hsplit⟩ := firstAt_some d _ p hfind
      simp only [List.length_drop] at hp
      simp only [DataSheet.findFrom, hfind, Option.map_some', hs, if_true]
      rw [ih (p + start + 1) _ (by omega) (by omega), hsplit]
      have h1 : p + start - start = p := by omega
      have h2 : List.drop (p + 1) (List.drop start input) = List.drop (p + start + 1) input := by
        rw [List.drop_drop]
        congr 1
        omega
      rw [h1, h2]
      simp

/-! ### Selection and gains once more -/

/-! ### The name-based gain of `DataSheet` -/

theorem cell_eq_iff (r : Row) (i : Nat) (hi : i < r.length) (s : String) :
    cell r i = s ↔ r[i]? = some s := by
  simp [cell, List.getD_eq_getElem?_getD, List.getElem?_eq_getElem hi]

theorem mem_nonlabel_iff (headers : Row) (name : String) :
    name ∈ headers.take (headers.length - 1) ↔
      ∃ i, i < headers.length - 1 ∧ cell headers i = name := by
  rw [List.mem_take_iff_getElem]
  constructor
  · rintro ⟨i, hi, he⟩
    have h1 : i < headers.length - 1 := lt_of_lt_of_le hi (Nat.min_le_left _ _)
    have h2 : i < headers.length := lt_of_lt_of_le hi (Nat.min_le_right _ _)
    refine ⟨i, h1, ?_⟩
    rw [cell_eq_iff headers i h2, List.getElem?_eq_getElem h2, he]
  · rintro ⟨i, hi, he⟩
    have h2 : i < headers.length := by omega
    refine ⟨i, lt_min hi h2, ?_⟩
    rw [cell_eq_iff headers i h2, List.getElem?_eq_getElem h2] at he
    exact Option.some.inj he

theorem DataSheet.findAttribute_ok (hd : Row) (rows : List Row) (name : String)
    (is : List Nat) (his : ∀ i ∈ is, i < hd.length) :
    DataSheet.findAttribute (hd :: rows) name is =
      .ok (match is.find? (fun i => decide (cell hd i = name)) with
        | some i => (i : Int)
        | none => -1) := by
  have h0 : index (hd :: rows) 0 = .ok hd := by simp [index]
  induction is with
  | nil => rfl
  | cons i rest ih =>
    rw [DataSheet.findAttribute, h0]
    simp only [bind, Except.bind, index_cell hd i (his i (List.mem_cons_self _ _))]
    by_cases hn : cell hd i = name
    · simp [hn, List.find?_cons, pure, Except.pure]
    · simp only [hn, if_false, List.find?_cons, decide_False]
      exact ih (fun j hj => his j (List.mem_cons_of_mem _ hj))

section NameGainLemmas

variable {α : Type} [LinearOrderedField α]

theorem foldlM_sub_ok {β : Type} (es : List β) (F : α → β → Except Fault α) (G : β → α)
    (hF : ∀ kv ∈ es, ∀ acc, F acc kv = .ok (acc - G kv)) (a : α) :
    es.foldlM F a = .ok (a - (es.map G).sum) := by
  induction es generalizing a with
  | nil => simp [pure, Except.pure]
  | cons x xs ih =>
    rw [List.foldlM_cons, hF x (List.mem_cons_self x xs) a]
    have := ih (fun kv hkv => hF kv (List.mem_cons_of_mem x hkv)) (a - G x)
    simpa [bind, Except.bind, sub_sub] using this

theorem DataSheet.calculateInformationGain_missing (log2 : α → α) (h : HashOrder) (hd : Row)
    (rows : List Row) (ent : α) (name : String)
    (hmiss : ∀ i, i < hd.length - 1 → cell hd i ≠ name) :
    DataSheet.calculateInformationGain log2 h (hd :: rows) ent name =
      .ok (["Attribute not found: " ++ name], 0) := by
  have h0 : index (hd :: rows) 0 = .ok hd := by simp [index]
  have hfind : (List.range (hd.length - 1)).find? (fun i => decide (cell hd i = name)) =
      none := by
    rw [List.find?_eq_none]
    intro i hi
    simpa using hmiss i (List.mem_range.mp hi)
  have hfa := DataSheet.findAttribute_ok hd rows name (List.range (hd.length - 1))
    (fun i hi => by have := List.mem_range.mp hi; omega)
  rw [hfind] at hfa
  unfold DataSheet.calculateInformationGain
  simp only [h0, bind, Except.bind, hfa]
  rfl

theorem DataSheet.calculateInformationGain_found (log2 : α → α) (h : HashOrder) (hd : Row)
    (rows : List Row) (ent : α) (name : String) (i : Nat) (hc : 1 ≤ hd.length)
    (hw : ∀ r ∈ rows, r.length = hd.length) (hi : i < hd.length - 1)
    (hfind : (List.range (hd.length - 1)).find? (fun j => decide (cell hd j = name)) =
      some i) :
    DataSheet.calculateInformationGain log2 h (hd :: rows) ent name =
      .ok ([], ent - ∑ v ∈ (column rows i).toFinset,
        ((rowsWith rows i v).length : α) / (rows.length : α) *
          shannon log2 (column (rowsWith rows i v) (hd.length - 1))) := by
  have h0 : index (hd :: rows) 0 = .ok hd := by simp [index]
  have hneg : ¬ ((i : Int) < 0) := by omega
  have hstep : ∀ kv ∈ h.entries (groups rows i id), ∀ acc : α,
      (do
        let labelCount ← countLabels kv.2 ((hd.length : Int) - 1)
        pure (acc - ((kv.2.length : α) / ((((hd :: rows).length : Int) - 1 : Int) : α)) *
          entropySum log2 (h.entries labelCount) (kv.2.length : Nat)) : Except Fault α) =
      .ok (acc - (fun kv : String × List Row => ((kv.2.length : α) / (rows.length : α)) *
          shannon log2 (column kv.2 (hd.length - 1))) kv) := by
    intro kv hkv acc
    have hmem : kv ∈ groups rows i id :=
      (h.entries_perm (groups rows i id) (groups_keys rows i id).1).subset hkv
    obtain ⟨v, rs⟩ := kv
    rw [groups_mem] at hmem
    have hrs : rs = rowsWith rows i v := by simpa using hmem.2
    subst hrs
    rw [countLabels_ok _ hd.length hc (rowsWith_width rows i v hd.length hw)]
    have hlen : ((rowsWith rows i v).length : Int) =
        ((column (rowsWith rows i v) (hd.length - 1)).length : Int) := by
      simp [column_length]
    simp only [bind, Except.bind, pure, Except.pure]
    rw [hlen, entropySum_tally]
    simp
  have hfa := DataSheet.findAttribute_ok hd rows name (List.range (hd.length - 1))
    (fun j hj => by have := List.mem_range.mp hj; omega)
  rw [hfind] at hfa
  unfold DataSheet.calculateInformationGain
  simp only [h0, bind, Except.bind, pure, Except.pure, List.drop_one, List.tail_cons,
    hfa, hneg, if_false,
    groupRows_ok rows i id (fun r hr => by rw [hw r hr]; omega)]
  have := foldlM_sub_ok (h.entries (groups rows i id)) _ _ hstep ent
  simp only [bind, Except.bind, pure, Except.pure] at this
  rw [this, groups_sum]

end NameGainLemmas

theorem find_attribute_some (hd : Row) (name : String) (n : Nat)
    (hex : ∃ i, i < n ∧ cell hd i = name) :
    ∃ j, j < n ∧ cell hd j = name ∧
      (List.range n).find? (fun j => decide (cell hd j = name)) = some j := by
  cases hf : (List.range n).find? (fun j => decide (cell hd j = name)) with
  | none =>
    exfalso
    rw [List.find?_eq_none] at hf
    obtain ⟨i, hi, he⟩ := hex
    exact hf i (List.mem_range.mpr hi) (by simpa using he)
  | some j =>
    have hp := List.find?_some hf
    have hm := List.mem_of_find?_eq_some hf
    exact ⟨j, List.mem_range.mp hm, by simpa using hp, rfl⟩

/-! ### The recursive calls of `buildTree` -/

section CallLemmas

variable {α : Type} [LinearOrderedField α]

theorem DecisionTree.recursiveCalls_cases (log2 : α → α) (h : HashOrder) (data : Table)
    (headers : Row) (hwf : WellFormed data headers) :
    (DecisionTree.recursiveCalls log2 h data headers = .ok [] ∧
      ((∀ x ∈ labelsOf data headers, ∀ y ∈ labelsOf data headers, x = y) ∨
        headers.length ≤ 2 ∨
        argBest (fun i => specGain log2 data.tail i (headers.length - 1)) (headers.length - 1) =
          (-1, -1))) ∨
    (∃ b : Nat, (∃ x ∈ labelsOf data headers, ∃ y ∈ labelsOf data headers, x ≠ y) ∧
      3 ≤ headers.length ∧
      argBest (fun i => specGain log2 data.tail i (headers.length - 1)) (headers.length - 1) =
        ((b : Int), specGain log2 data.tail b (headers.length - 1)) ∧
      b < headers.length - 1 ∧
      DecisionTree.recursiveCalls log2 h data headers =
        .ok ((h.entries (groups data.tail b (fun r => r.eraseIdx b))).map
          (fun kv => (headers.eraseIdx b :: kv.2, headers.eraseIdx b)))) := by
  obtain ⟨r1, rest, hdata, hc, hw⟩ := hwf.shape
  subst hdata
  have hiff := all_eq_true_iff_labels r1 rest (headers.length - 1)
  have h1 : index (headers :: r1 :: rest) 1 = .ok r1 := by simp [index]
  simp only [labelsOf, List.tail_cons]
  by_cases hsame : (column rest (headers.length - 1)).all
      (fun l => decide (l = cell r1 (headers.length - 1))) = true
  · left
    refine ⟨?_, Or.inl (hiff.mp hsame)⟩
    unfold DecisionTree.recursiveCalls
    simp only [h1, bind, Except.bind,
      index_label r1 headers.length hc (hw r1 (List.mem_cons_self _ _)),
      List.drop_succ_cons, List.drop_zero,
      allSameFrom_ok _ rest headers.length hc (fun r hr => hw r (List.mem_cons_of_mem _ hr)),
      hsame]
    rfl
  have hmixed := Bool.eq_false_iff.mpr hsame
  have hmix : ∃ x ∈ column (r1 :: rest) (headers.length - 1),
      ∃ y ∈ column (r1 :: rest) (headers.length - 1), x ≠ y := by
    by_contra hcon
    apply hsame
    apply hiff.mpr
    intro x hx y hy
    by_contra hxy
    exact hcon ⟨x, hx, y, hy, hxy⟩
  by_cases hc2 : headers.length ≤ 2
  · left
    refine ⟨?_, Or.inr (Or.inl hc2)⟩
    unfold DecisionTree.recursiveCalls
    simp only [h1, bind, Except.bind,
      index_label r1 headers.length hc (hw r1 (List.mem_cons_self _ _)),
      List.drop_succ_cons, List.drop_zero,
      allSameFrom_ok _ rest headers.length hc (fun r hr => hw r (List.mem_cons_of_mem _ hr)),
      hmixed, majorityLeaf, countLabels_ok (r1 :: rest) headers.length hc hw, hc2]
    rfl
  have hsel := DecisionTree.selectBest_ok
    (fun i : Nat => DecisionTree.calculateIG_OnSubset log2 h (headers :: r1 :: rest) (i : Int))
    (fun i : Nat => specGain log2 (r1 :: rest) i (headers.length - 1)) (headers.length - 1)
    (fun i hi => DecisionTree.calculateIG_OnSubset_eq log2 h headers (r1 :: rest) i hc hw
      (by omega))
  rcases argBest_spec (fun i => specGain log2 (r1 :: rest) i (headers.length - 1))
      (headers.length - 1) with ⟨he, _⟩ | ⟨b, he, hb, _, _, _⟩
  · left
    refine ⟨?_, Or.inr (Or.inr he)⟩
    unfold DecisionTree.recursiveCalls
    simp only [h1, bind, Except.bind,
      index_label r1 headers.length hc (hw r1 (List.mem_cons_self _ _)),
      List.drop_succ_cons, List.drop_zero,
      allSameFrom_ok _ rest headers.length hc (fun r hr => hw r (List.mem_cons_of_mem _ hr)),
      hmixed, majorityLeaf, countLabels_ok (r1 :: rest) headers.length hc hw, hc2, hsel, he]
    rfl
  · have hneg : ¬ ((b : Int) < 0) := by omega
    right
    refine ⟨b, hmix, by omega, he, hb, ?_⟩
    unfold DecisionTree.recursiveCalls
    simp only [h1, bind, Except.bind,
      index_label r1 headers.length hc (hw r1 (List.mem_cons_self _ _)),
      List.drop_succ_cons, List.drop_zero,
      allSameFrom_ok _ rest headers.length hc (fun r hr => hw r (List.mem_cons_of_mem _ hr)),
      hmixed, majorityLeaf, countLabels_ok (r1 :: rest) headers.length hc hw, hc2, hsel, he,
      hneg, Int.toNat_ofNat, index_cell headers b (by omega),
      groupRows_ok (r1 :: rest) b (fun r => r.eraseIdx b)
        (fun r hr => by rw [hw r hr]; omega)]
    rfl

theorem DecisionTree.recursiveCalls_wellFormed (log2 : α → α) (h : HashOrder) (data : Table)
    (headers : Row) (hwf : WellFormed data headers) :
    ∃ calls, DecisionTree.recursiveCalls log2 h data headers = .ok calls ∧
      ∀ y ∈ calls, WellFormed y.1 y.2 ∧ y.2.length + 1 = headers.length := by
  rcases DecisionTree.recursiveCalls_cases log2 h data headers hwf with
    ⟨hres, _⟩ | ⟨b, _, _, _, hb, hres⟩
  · exact ⟨[], hres, fun y hy => absurd hy (List.not_mem_nil y)⟩
  · refine ⟨_, hres, ?_⟩
    obtain ⟨r1, rest, hdata, hc, hw⟩ := hwf.shape
    subst hdata
    intro y hy
    obtain ⟨kv, hkv, hye⟩ := List.mem_map.mp hy
    have hsub := subtable_wellFormed h headers (r1 :: rest) b hw hb kv hkv
    rw [← hye]
    refine ⟨hsub.2.2, ?_⟩
    simp only [List.length_eraseIdx, show b < headers.length by omega, if_true]
    omega

theorem DecisionTree.recursiveCalls_children (log2 : α → α) (h : HashOrder) (data : Table)
    (headers : Row) (hwf : WellFormed data headers) :
    ∃ t calls, DecisionTree.buildTree log2 h data headers = .ok t ∧
      DecisionTree.recursiveCalls log2 h data headers = .ok calls ∧
      List.Forall₂ (fun (y : Table × Row) (kt : String × TreeNode) =>
        DecisionTree.buildTree log2 h y.1 y.2 = .ok kt.2) calls t.children := by
  rcases DecisionTree.buildTree_cases log2 h data headers hwf with
    ⟨hsame, L, _, hres⟩ | ⟨⟨x, hx, y, hy, hxy⟩, hor, hres⟩ |
    ⟨⟨x, hx, y, hy, hxy⟩, hc3, b, kids, he, hb, hres, hkids⟩
  · rcases DecisionTree.recursiveCalls_cases log2 h data headers hwf with
      ⟨hcalls, _⟩ | ⟨_, ⟨x, hx, y, hy, hxy⟩, _⟩
    · exact ⟨_, [], hres, hcalls, List.Forall₂.nil⟩
    · exact absurd (hsame x hx y hy) hxy
  · rcases DecisionTree.recursiveCalls_cases log2 h data headers hwf with
      ⟨hcalls, _⟩ | ⟨b, _, hc3, he, _, _⟩
    · exact ⟨_, [], hres, hcalls, List.Forall₂.nil⟩
    · exfalso
      rcases hor with h2 | h2
      · omega
      · rw [h2] at he
        have : (-1 : Int) = (b : Int) := congrArg Prod.fst he
        omega
  · rcases DecisionTree.recursiveCalls_cases log2 h data headers hwf with
      ⟨_, hor⟩ | ⟨b', _, _, he', _, hcalls⟩
    · exfalso
      rcases hor with h2 | h2 | h2
      · exact hxy (h2 x hx y hy)
      · omega
      · rw [h2] at he
        have : (-1 : Int) = (b : Int) := congrArg Prod.fst he
        omega
    · rw [he] at he'
      have hbb : (b : Int) = (b' : Int) := congrArg Prod.fst he'
      have hbb' : b' = b := by omega
      subst hbb'
      refine ⟨_, _, hres, hcalls, ?_⟩
      simp only [TreeNode.children]
      rw [List.forall₂_map_left_iff]
      exact hkids.imp (fun _ _ hr => hr.2)

end CallLemmas

/-! ### Induction over the recursion of `buildTree` -/

theorem cell_eraseIdx (r : Row) (b i : Nat) :
    cell (r.eraseIdx b) i = if i < b then cell r i else cell r (i + 1) := by
  simp only [cell, List.getD_eq_getElem?_getD, List.getElem?_eraseIdx]
  split <;> rfl

theorem labelsOf_subtable (hd : Row) (rows : List Row) (b : Nat) (v : String)
    (hb : b < hd.length - 1) :
    labelsOf (hd.eraseIdx b :: (rowsWith rows b v).map (fun r => r.eraseIdx b))
        (hd.eraseIdx b) =
      column (rowsWith rows b v) (hd.length - 1) := by
  have hlen : (hd.eraseIdx b).length = hd.length - 1 := by
    rw [List.length_eraseIdx]
    simp [show b < hd.length by omega]
  simp only [labelsOf, List.tail_cons, column, List.map_map, hlen]
  apply List.map_congr_left
  intro r _
  simp only [Function.comp, cell_eraseIdx]
  rw [if_neg (by omega)]
  congr 1
  omega

theorem column_rowsWith_subset (rows : List Row) (b li : Nat) (v : String) :
    ∀ l ∈ column (rowsWith rows b v) li, l ∈ column rows li := by
  intro l hl
  simp only [column, List.mem_map, rowsWith] at hl ⊢
  obtain ⟨r, hr, hrl⟩ := hl
  exact ⟨r, List.mem_of_mem_filter hr, hrl⟩

theorem nonlabel_eraseIdx (hd : Row) (b : Nat) (hb : b < hd.length - 1) (a : String)
    (ha : a ∈ (hd.eraseIdx b).take ((hd.eraseIdx b).length - 1)) :
    ∃ i, i < hd.length - 1 ∧ i ≠ b ∧ cell hd i = a := by
  have hlen : (hd.eraseIdx b).length = hd.length - 1 := by
    rw [List.length_eraseIdx]
    simp [show b < hd.length by omega]
  obtain ⟨i, hi, he⟩ := (mem_nonlabel_iff _ a).1 ha
  rw [hlen] at hi
  rw [cell_eraseIdx] at he
  by_cases hib : i < b
  · rw [if_pos hib] at he
    exact ⟨i, by omega, by omega, he⟩
  · rw [if_neg hib] at he
    exact ⟨i + 1, by omega, by omega, he⟩

theorem cell_ne_of_nodup (hd : Row) (hnd : hd.Nodup) (i j : Nat) (hi : i < hd.length)
    (hj : j < hd.length) (hij : i ≠ j) : cell hd i ≠ cell hd j := by
  intro he
  have h1 : cell hd i = hd[i] :=
    (cell_eq_iff hd i hi hd[i]).2 (List.getElem?_eq_getElem hi)
  have h2 : cell hd j = hd[j] :=
    (cell_eq_iff hd j hj hd[j]).2 (List.getElem?_eq_getElem hj)
  rw [h1, h2] at he
  exact hij ((hnd.getElem_inj_iff).1 he)

theorem TreeNode.allList_iff (p : TreeNode → Bool) (cs : List (String × TreeNode)) :
    TreeNode.allList p cs = true ↔ ∀ kt ∈ cs, kt.2.all p = true := by
  induction cs with
  | nil => simp [TreeNode.allList]
  | cons kt rest ih =>
    obtain ⟨k, t⟩ := kt
    simp [TreeNode.allList, ih]

theorem TreeNode.keysDistinctList_iff (cs : List (String × TreeNode)) :
    TreeNode.keysDistinctList cs = true ↔ ∀ kt ∈ cs, kt.2.keysDistinct = true := by
  induction cs with
  | nil => simp [TreeNode.keysDistinctList]
  | cons kt rest ih =>
    obtain ⟨k, t⟩ := kt
    simp [TreeNode.keysDistinctList, ih]

theorem TreeNode.mem_pathsList (cs : List (String × TreeNode)) (p : List String) :
    p ∈ TreeNode.pathsList cs ↔ ∃ kt ∈ cs, p ∈ kt.2.paths := by
  induction cs with
  | nil => simp [TreeNode.pathsList]
  | cons kt rest ih =>
    obtain ⟨k, t⟩ := kt
    simp [TreeNode.pathsList, ih]

section Induction

variable {α : Type} [LinearOrderedField α]

/-- Induction over the trees that `buildTree` returns: a property that holds for every
leaf carrying a label of its table, and for every node on a selected column once it holds
for the subtrees built from the reduced tables, holds for the tree of every well-formed
table. -/
theorem DecisionTree.buildTree_induct (log2 : α → α) (h : HashOrder)
    (P : Table → Row → TreeNode → Prop)
    (hleaf : ∀ data headers L, WellFormed data headers → L ∈ labelsOf data headers →
      P data headers (TreeNode.mk "" L []))
    (hsplit : ∀ data headers b kids, WellFormed data headers → 3 ≤ headers.length →
      b < headers.length - 1 → kids ≠ [] → (kids.map Prod.fst).Nodup →
      (∀ kt ∈ kids, kt.1 ∈ column data.tail b ∧
        P (headers.eraseIdx b :: (rowsWith data.tail b kt.1).map (fun r => r.eraseIdx b))
          (headers.eraseIdx b) kt.2) →
      P data headers (TreeNode.mk (cell headers b) "" kids)) :
    ∀ data headers, WellFormed data headers →
      ∃ t, DecisionTree.buildTree log2 h data headers = .ok t ∧ P data headers t := by
  have key : ∀ n data headers, headers.length ≤ n → WellFormed data headers →
      ∃ t, DecisionTree.buildTree log2 h data headers = .ok t ∧ P data headers t := by
    intro n
    induction n with
    | zero =>
      intro data headers hn hwf
      have := hwf.2.1
      omega
    | succ n ih =>
      intro data headers hn hwf
      rcases DecisionTree.buildTree_cases log2 h data headers hwf with
        ⟨_, L, hhead, hres⟩ | ⟨⟨x, hx, _⟩, _, hres⟩ | ⟨_, hc3, b, kids, _, hb, hres, hkids⟩
      · exact ⟨_, hres, hleaf data headers L hwf (List.mem_of_mem_head? hhead)⟩
      · obtain ⟨_, L, _, _, hL, hmem, _, _⟩ :=
          majorityOf_tally h (labelsOf data headers) (List.ne_nil_of_mem hx)
        refine ⟨_, hres, ?_⟩
        rw [hL]
        exact hleaf data headers L hwf hmem
      · obtain ⟨r1, rest, hdata, _, hw⟩ := hwf.shape
        have hwt : ∀ r ∈ data.tail, r.length = headers.length := by
          rw [hdata]; exact hw
        have hne : kids ≠ [] := by
          intro hk
          rw [hk] at hkids
          have hnil := List.forall₂_nil_right_iff.mp hkids
          rw [hdata] at hnil
          exact entries_groups_ne_nil h (r1 :: rest) b _ (List.cons_ne_nil _ _) hnil
        have hkeys : kids.map Prod.fst =
            (h.entries (groups data.tail b (fun r => r.eraseIdx b))).map Prod.fst :=
          forall2_map_fst hkids (fun _ _ hr => hr.1)
        have hperm := (h.entries_perm (groups data.tail b (fun r => r.eraseIdx b))
          (groups_keys data.tail b _).1).map Prod.fst
        have hnd : (kids.map Prod.fst).Nodup := by
          rw [hkeys]
          exact hperm.nodup_iff.mpr (groups_keys data.tail b _).1
        have hnh : (headers.eraseIdx b).length = headers.length - 1 := by
          rw [List.length_eraseIdx]
          simp [show b < headers.length by omega]
        refine ⟨_, hres, hsplit data headers b kids hwf hc3 hb hne hnd ?_⟩
        intro kt hkt
        obtain ⟨kv, hkv, hk1, hk2⟩ := forall2_mem_right hkids kt hkt
        have hsub := subtable_wellFormed h headers data.tail b hwt hb kv hkv
        obtain ⟨t', ht', hP⟩ := ih (headers.eraseIdx b :: kv.2) (headers.eraseIdx b)
          (by rw [hnh]; omega) hsub.2.2
        rw [hk2] at ht'
        have hte : kt.2 = t' := Except.ok.inj ht'
        rw [hk1]
        refine ⟨hsub.1, ?_⟩
        rw [← hsub.2.1, hte]
        exact hP
  intro data headers hwf
  exact key headers.length data headers (le_refl _) hwf

end Induction

theorem DecisionTree.buildTree_keysDistinct {α : Type} [LinearOrderedField α]
    (log2 : α → α) (h : HashOrder) (data : Table) (headers : Row)
    (hwf : WellFormed data headers) :
    ∃ t, DecisionTree.buildTree log2 h data headers = .ok t ∧ t.keysDistinct = true := by
  apply DecisionTree.buildTree_induct log2 h (fun _ _ t => t.keysDistinct = true)
  · intro _ _ _ _ _
    simp [TreeNode.keysDistinct, TreeNode.keysDistinctList]
  · intro _ _ _ kids _ _ _ _ hnd hkids
    simp only [TreeNode.keysDistinct, Bool.and_eq_true, decide_eq_true_eq]
    refine ⟨hnd, ?_⟩
    rw [TreeNode.keysDistinctList_iff]
    exact fun kt hkt => (hkids kt hkt).2
  · exact hwf

/-! ### Properties of the trees that `buildTree` returns -/

/-! ### Printing a tree -/

theorem sortKeys_entries {β : Type} (h : HashOrder) (m : StrMap β)
    (hn : (m.map Prod.fst).Nodup) :
    sortKeys ((h.entries m).map Prod.fst) = sortKeys (m.map Prod.fst) := by
  have hp : ((h.entries m).map Prod.fst).Perm (m.map Prod.fst) :=
    (h.entries_perm m hn).map Prod.fst
  apply List.eq_of_perm_of_sorted (r := fun a b : String => a ≤ b)
  · exact ((List.perm_insertionSort _ _).trans hp).trans (List.perm_insertionSort _ _).symm
  · exact List.sorted_insertionSort _ _
  · exact List.sorted_insertionSort _ _

theorem lookup_some_mem {β : Type} (m : StrMap β) (k : String) (v : β)
    (hl : m.lookup k = some v) : (k, v) ∈ m := by
  induction m with
  | nil => simp [List.lookup] at hl
  | cons e rest ih =>
    obtain ⟨k0, v0⟩ := e
    rw [lookup_cons_ite] at hl
    by_cases hk : k = k0
    · rw [if_pos hk] at hl
      rw [hk, Option.some.inj hl]
      exact List.mem_cons_self _ _
    · rw [if_neg hk] at hl
      exact List.mem_cons_of_mem _ (ih hl)

theorem lookup_of_mem_keys {β : Type} (m : StrMap β) (k : String)
    (hk : k ∈ m.map Prod.fst) : ∃ v, m.lookup k = some v := by
  induction m with
  | nil => simp at hk
  | cons e rest ih =>
    obtain ⟨k0, v0⟩ := e
    rw [lookup_cons_ite]
    by_cases hkk : k = k0
    · exact ⟨v0, by rw [if_pos hkk]⟩
    · rw [if_neg hkk]
      simp only [List.map_cons, List.mem_cons] at hk
      rcases hk with h1 | h1
      · exact absurd h1 hkk
      · exact ih h1

theorem TreeNode.lookup_preorderList (cs : List (String × TreeNode)) (k : String) :
    (TreeNode.preorderList cs).lookup k = (cs.lookup k).map TreeNode.preorder := by
  induction cs with
  | nil => simp [TreeNode.preorderList, List.lookup]
  | cons e rest ih =>
    obtain ⟨k0, t⟩ := e
    simp only [TreeNode.preorderList, lookup_cons_ite, ih]
    split <;> rfl

theorem TreeNode.depth_lt_of_mem (a l : String) (cs : List (String × TreeNode))
    (kt : String × TreeNode) (hkt : kt ∈ cs) : kt.2.depth < (TreeNode.mk a l cs).depth := by
  simp only [TreeNode.depth]
  induction cs with
  | nil => exact absurd hkt (List.not_mem_nil kt)
  | cons e rest ih =>
    obtain ⟨k0, t⟩ := e
    simp only [TreeNode.depthList]
    rcases List.mem_cons.mp hkt with h1 | h1
    · rw [h1]
      simp only
      omega
    · have := ih h1
      omega

theorem mapM_congr_mem {β γ : Type} (F G : β → Except Fault γ) (l : List β)
    (hFG : ∀ x ∈ l, F x = G x) : l.mapM F = l.mapM G := by
  induction l with
  | nil => rfl
  | cons x xs ih =>
    rw [List.mapM_cons, List.mapM_cons, hFG x (List.mem_cons_self _ _),
      ih (fun y hy => hFG y (List.mem_cons_of_mem _ hy))]

theorem forall2_flatten {β γ δ : Type} (R : γ → δ → Prop) (G : β → List δ) (ks : List β)
    (ls : List (List γ))
    (hF : List.Forall₂ (fun k l => List.Forall₂ R l (G k)) ks ls) :
    List.Forall₂ R ls.flatten (ks.flatMap G) := by
  induction hF with
  | nil => exact List.Forall₂.nil
  | cons hxy _ ih =>
    simp only [List.flatten_cons, List.flatMap_cons]
    exact List.rel_append hxy ih

theorem leaf_line_shape (indent fullPath label : String) :
    ∃ pre, indent ++ "├── " ++ fullPath ++ ": Leaf = " ++ label = pre ++ "Leaf = " ++ label :=
  ⟨indent ++ "├── " ++ fullPath ++ ": ", by
    have : (": Leaf = " : String) = ": " ++ "Leaf = " := by decide
    rw [this]
    simp only [String.append_assoc]⟩

theorem split_line_shape (indent edgeValue attr : String) :
    ∃ pre, (if edgeValue ≠ "" then indent ++ "├── " ++ edgeValue ++ ": Attribute = " ++ attr
      else indent ++ "Attribute = " ++ attr) = pre ++ "Attribute = " ++ attr := by
  by_cases he : edgeValue ≠ ""
  · rw [if_pos he]
    refine ⟨indent ++ "├── " ++ edgeValue ++ ": ", ?_⟩
    have : (": Attribute = " : String) = ": " ++ "Attribute = " := by decide
    rw [this]
    simp only [String.append_assoc]
  · rw [if_neg he]
    exact ⟨indent, rfl⟩

theorem TreeNode.sizeList_eq_sum (cs : List (String × TreeNode)) :
    TreeNode.sizeList cs = (cs.map (fun kc => kc.2.size)).sum := by
  induction cs with
  | nil => rfl
  | cons e rest ih =>
    obtain ⟨k, t⟩ := e
    simp [TreeNode.sizeList, ih]

theorem TreeNode.preorder_length :
    ∀ (n : Nat) (t : TreeNode), t.depth < n → t.keysDistinct = true →
      t.preorder.length = t.size := by
  intro n
  induction n with
  | zero => intro t ht; omega
  | succ n ih =>
    intro t ht hk
    obtain ⟨a, l, cs⟩ := t
    simp only [TreeNode.keysDistinct, Bool.and_eq_true, decide_eq_true_eq] at hk
    obtain ⟨hnd, hkids⟩ := hk
    rw [TreeNode.keysDistinctList_iff] at hkids
    simp only [TreeNode.preorder, TreeNode.size, List.length_cons, List.length_flatMap]
    have hp : (sortKeys (cs.map Prod.fst)).Perm (cs.map Prod.fst) :=
      List.perm_insertionSort _ _
    rw [(hp.map _).sum_eq, List.map_map, TreeNode.sizeList_eq_sum, Nat.add_comm]
    congr 1
    apply congrArg
    apply List.map_congr_left
    intro kc hkc
    have hlook : cs.lookup kc.1 = some kc.2 :=
      (StrMap.mem_iff_lookup cs hnd kc.1 kc.2).1 hkc
    simp only [Function.comp, TreeNode.lookup_preorderList, hlook, Option.map_some',
      Option.getD_some]
    have hd := TreeNode.depth_lt_of_mem a l cs kc hkc
    exact ih kc.2 (by omega) (hkids kc hkc)

theorem find_range_first (p : Nat → Bool) (n j : Nat)
    (hf : (List.range n).find? p = some j) : ∀ i, i < j → p i = false := by
  induction n with
  | zero => simp at hf
  | succ n ih =>
    rw [List.range_succ, List.find?_append] at hf
    cases hr : (List.range n).find? p with
    | some j' =>
      rw [hr] at hf
      simp only [Option.or_some] at hf
      rw [hf] at hr
      exact ih hr
    | none =>
      rw [hr] at hf
      simp only [Option.none_or] at hf
      have hjn : j = n := by
        have := List.mem_of_find?_eq_some hf
        simpa using this
      rw [List.find?_eq_none] at hr
      intro i hi
      have := hr i (List.mem_range.mpr (by omega))
      simpa using this

theorem filterMap_lookup_keys {β : Type} (m : StrMap β) (ks : List String)
    (hks : ∀ k ∈ ks, k ∈ m.map Prod.fst) :
    (ks.filterMap (fun k => (m.lookup k).map (fun v => (k, v)))).map Prod.fst = ks := by
  induction ks with
  | nil => rfl
  | cons k rest ih =>
    obtain ⟨v, hv⟩ := lookup_of_mem_keys m k (hks k (List.mem_cons_self k rest))
    rw [List.filterMap_cons]
    simp only [hv, Option.map_some', List.map_cons]
    rw [ih (fun k' hk' => hks k' (List.mem_cons_of_mem k hk'))]

theorem TreeNode.preorderEach_of_keys (cs : List (String × TreeNode)) (ks : List String)
    (hks : ∀ k ∈ ks, ∃ c, cs.lookup k = some c ∧ TreeNode.PreorderAscending c c.preorder) :
    TreeNode.PreorderEach (ks.filterMap (fun k => (cs.lookup k).map (fun v => (k, v))))
      (ks.flatMap (fun k => ((TreeNode.preorderList cs).lookup k).getD [])) := by
  induction ks with
  | nil => exact TreeNode.PreorderEach.nil
  | cons k rest ih =>
    obtain ⟨c, hc, hpre⟩ := hks k (List.mem_cons_self k rest)
    rw [List.filterMap_cons, List.flatMap_cons]
    simp only [hc, Option.map_some', TreeNode.lookup_preorderList, Option.getD_some]
    exact TreeNode.PreorderEach.cons k c _ _ _ hpre
      (by
        have := ih (fun k' hk' => hks k' (List.mem_cons_of_mem k hk'))
        simpa only [TreeNode.lookup_preorderList] using this)

theorem TreeNode.preorder_ascending :
    ∀ (n : Nat) (t : TreeNode), t.depth < n → t.keysDistinct = true →
      TreeNode.PreorderAscending t t.preorder := by
  intro n
  induction n with
  | zero => intro t ht; omega
  | succ n ih =>
    intro t ht hk
    obtain ⟨a, l, cs⟩ := t
    simp only [TreeNode.keysDistinct, Bool.and_eq_true, decide_eq_true_eq] at hk
    obtain ⟨hnd, hkids⟩ := hk
    rw [TreeNode.keysDistinctList_iff] at hkids
    have hsub : ∀ k ∈ sortKeys (cs.map Prod.fst), k ∈ cs.map Prod.fst := fun k hkmem =>
      (List.perm_insertionSort (fun a b : String => a ≤ b) _).subset hkmem
    rw [TreeNode.preorder]
    refine TreeNode.PreorderAscending.node a l cs
      ((sortKeys (cs.map Prod.fst)).filterMap (fun k => (cs.lookup k).map (fun v => (k, v))))
      _ ?_ ?_ ?_
    · exact HashOrder.entries_perm ⟨sortKeys, fun ks => List.perm_insertionSort _ ks⟩ cs hnd
    · rw [filterMap_lookup_keys cs _ hsub]
      exact (List.sorted_insertionSort (fun a b : String => a ≤ b) _).lt_of_le
        ((List.perm_insertionSort (fun a b : String => a ≤ b) _).nodup_iff.mpr hnd)
    · apply TreeNode.preorderEach_of_keys
      intro k hkmem
      obtain ⟨c, hc⟩ := lookup_of_mem_keys cs k (hsub k hkmem)
      have hcm := lookup_some_mem cs k c hc
      have hd := TreeNode.depth_lt_of_mem a l cs (k, c) hcm
      exact ⟨c, hc, ih c (by simp only at hd; omega) (hkids (k, c) hcm)⟩

theorem DecisionTree.printTreeFuel_lines (p : TreeNode → Bool) :
    ∀ (n : Nat) (t : TreeNode) (indent edge path : String), t.depth < n →
      t.keysDistinct = true →
      t.all (fun n => !n.isLeaf || n.children.isEmpty) = true →
      t.all p = true →
      ∃ lines,
        (∀ (h : HashOrder) (fuel : Nat), t.depth < fuel →
          DecisionTree.printTreeFuel h fuel t indent edge path = .ok lines) ∧
        List.Forall₂ (fun line n => linePrints line n ∧ p n = true) lines t.preorder := by
  intro n
  induction n with
  | zero => intro t _ _ _ ht; omega
  | succ n ih =>
    intro t indent edge path ht hk hc hv
    obtain ⟨a, l, cs⟩ := t
    have hk0 := hk
    simp only [TreeNode.keysDistinct, Bool.and_eq_true, decide_eq_true_eq] at hk
    obtain ⟨hnd, hkids⟩ := hk
    rw [TreeNode.keysDistinctList_iff] at hkids
    simp only [TreeNode.all, Bool.and_eq_true] at hv hc
    obtain ⟨hnode, hvkids⟩ := hv
    obtain ⟨hcnode, hckids⟩ := hc
    rw [TreeNode.allList_iff] at hvkids hckids
    by_cases hl : l = ""
    · -- a node with empty label: its attribute is printed, then the children
      obtain ⟨below, hbelow⟩ := exists_forall2
        (fun (k : String) (ls : List String) => ∃ c, cs.lookup k = some c ∧
          (∀ (h : HashOrder) (fuel : Nat), c.depth < fuel →
            DecisionTree.printTreeFuel h fuel c (indent ++ "│   ") k
              (if edge ≠ "" then (if path ≠ "" then path ++ " -> " else path) ++ edge
                else path) = .ok ls) ∧
          List.Forall₂ (fun line n => linePrints line n ∧ p n = true) ls c.preorder)
        (sortKeys (cs.map Prod.fst))
        (fun k hkmem => by
          have hkm : k ∈ cs.map Prod.fst :=
            (List.perm_insertionSort (fun a b : String => a ≤ b) _).subset hkmem
          obtain ⟨c, hc⟩ := lookup_of_mem_keys cs k hkm
          have hcm := lookup_some_mem cs k c hc
          have hd := TreeNode.depth_lt_of_mem a l cs (k, c) hcm
          obtain ⟨ls, hls1, hls2⟩ := ih c (indent ++ "│   ") k
            (if edge ≠ "" then (if path ≠ "" then path ++ " -> " else path) ++ edge
              else path) (by simp only at hd; omega) (hkids (k, c) hcm) (hckids (k, c) hcm)
            (hvkids (k, c) hcm)
          exact ⟨ls, c, hc, hls1, hls2⟩)
      refine ⟨(if edge ≠ "" then indent ++ "├── " ++ edge ++ ": Attribute = " ++ a
          else indent ++ "Attribute = " ++ a) :: below.flatten, ?_, ?_⟩
      · intro h fuel hfuel
        obtain ⟨f, rfl⟩ : ∃ f, fuel = f + 1 := ⟨fuel - 1, by omega⟩
        rw [DecisionTree.printTreeFuel]
        simp only [TreeNode.label, TreeNode.attr, TreeNode.children, hl, ne_eq,
          not_true_eq_false, if_false]
        rw [sortKeys_entries h cs hnd]
        have hm := mapM_ok_of_forall2
          (fun (val : String) => (match cs.lookup val with
            | some c => DecisionTree.printTreeFuel h f c (indent ++ "│   ") val
              (if edge ≠ "" then (if path ≠ "" then path ++ " -> " else path) ++ edge
                else path)
            | none => Except.error Fault.outOfBounds : Except Fault (List String)))
          (sortKeys (cs.map Prod.fst)) below
          (hbelow.imp (fun k ls hr => by
            obtain ⟨c, hc, hp, _⟩ := hr
            have hcm := lookup_some_mem cs k c hc
            have hd := TreeNode.depth_lt_of_mem a l cs (k, c) hcm
            simp only [hc]
            exact hp h f (by simp only at hd; omega)))
        simp only [bind, Except.bind, pure, Except.pure, ne_eq] at hm ⊢
        erw [hm]
      · rw [TreeNode.preorder]
        refine List.Forall₂.cons ⟨Or.inr ⟨by simp only [TreeNode.label, hl], ?_⟩, hnode⟩ ?_
        · simp only [TreeNode.attr]
          exact split_line_shape indent edge a
        · apply forall2_flatten
          exact hbelow.imp (fun k ls hr => by
            obtain ⟨c, hc, _, hf⟩ := hr
            simp only [TreeNode.lookup_preorderList, hc, Option.map_some', Option.getD_some]
            exact hf)
    · -- a node with non-empty label: the label is printed, and there are no children
      have hcs : cs = [] := by
        simp only [TreeNode.isLeaf, TreeNode.label, TreeNode.children, ne_eq, hl,
          not_false_eq_true, decide_True, Bool.not_true, Bool.false_or,
          List.isEmpty_iff] at hcnode
        exact hcnode
      subst hcs
      refine ⟨[indent ++ "├── " ++
          (if edge ≠ "" then (if path ≠ "" then path ++ " -> " else path) ++ edge
            else path) ++ ": Leaf = " ++ l], ?_, ?_⟩
      · intro h fuel hfuel
        obtain ⟨f, rfl⟩ : ∃ f, fuel = f + 1 := ⟨fuel - 1, by omega⟩
        rw [DecisionTree.printTreeFuel]
        simp only [TreeNode.label, ne_eq, hl, not_false_eq_true, if_true]
        rfl
      · rw [TreeNode.preorder]
        simp only [List.map_nil, sortKeys, List.insertionSort, List.flatMap_nil]
        exact List.Forall₂.cons
          ⟨Or.inl ⟨by simp only [TreeNode.label]; exact hl, leaf_line_shape _ _ _⟩, hnode⟩
          List.Forall₂.nil

theorem DecisionTree.buildTree_leaves_childless {α : Type} [LinearOrderedField α]
    (log2 : α → α) (h : HashOrder) (data : Table) (headers : Row)
    (hwf : WellFormed data headers) :
    ∃ t, DecisionTree.buildTree log2 h data headers = .ok t ∧
      t.all (fun n => !n.isLeaf || n.children.isEmpty) = true := by
  apply DecisionTree.buildTree_induct log2 h
    (fun _ _ t => t.all (fun n => !n.isLeaf || n.children.isEmpty) = true)
  · intro _ _ _ _ _
    simp [TreeNode.all, TreeNode.allList, TreeNode.children]
  · intro _ _ _ kids _ _ _ _ _ hkids
    simp only [TreeNode.all, Bool.and_eq_true]
    refine ⟨by simp [TreeNode.isLeaf, TreeNode.label], ?_⟩
    rw [TreeNode.allList_iff]
    exact fun kt hkt => (hkids kt hkt).2
  · exact hwf

theorem lineShows_of_linePrints (line : String) (n : TreeNode)
    (hp : linePrints line n) (hv : (n.isLeafVariant || n.isSplitVariant) = true) :
    lineShows line n := by
  simp only [Bool.or_eq_true] at hv
  rcases hp with ⟨hl, hpre⟩ | ⟨hl, hpre⟩
  · rcases hv with h1 | h1
    · exact Or.inl ⟨h1, hpre⟩
    · simp [TreeNode.isSplitVariant, hl] at h1
  · rcases hv with h1 | h1
    · simp [TreeNode.isLeafVariant, hl] at h1
    · exact Or.inr ⟨h1, hpre⟩

/-! ## Main results, continued -/

/-- C11, counterexample: on the table read from the lines `Weather,Play`, `Sunny,`,
`Rainy,` all data rows carry the empty label, and `buildTree` returns the node with empty
attribute, empty label and no children: it is neither variant, and the leaf test
`!label.empty()` does not recognise it as the leaf it is. -/
theorem empty_label_leaf_is_neither_variant :
    ∃ t, DecisionTree.buildTree (Real.logb 2) insertionOrder emptyLabelTable weatherHeaders =
        .ok t ∧
      t.children = [] ∧ t.isLeafVariant = false ∧ t.isSplitVariant = false ∧
      t.isLeaf = false :=
  ⟨TreeNode.mk "" "" [], rfl, rfl, by decide, by decide, by decide⟩

/-- C11, amended: on a well-formed table in which every label of a data row and every
non-label header name is a non-empty string, every node of the tree that `buildTree`
returns is exactly one of the two variants, Leaf (non-empty label, empty attribute, no
children) or Split (non-empty attribute, empty label, at least one child), and the leaf
test `!label.empty()` holds exactly at the Leaf nodes. -/
theorem built_nodes_are_leaf_or_split {α : Type} [LinearOrderedField α]
    (log2 : α → α) (h : HashOrder) (data : Table) (headers : Row)
    (hwf : WellFormed data headers)
    (hlab : ∀ l ∈ labelsOf data headers, l ≠ "")
    (hattr : ∀ a ∈ headers.take (headers.length - 1), a ≠ "") :
    ∃ t, DecisionTree.buildTree log2 h data headers = .ok t ∧
      t.all (fun n => (n.isLeafVariant != n.isSplitVariant) &&
        (n.isLeaf == n.isLeafVariant)) = true := by
  obtain ⟨t, hres, hP⟩ := DecisionTree.buildTree_induct log2 h
    (fun d hd t => (∀ l ∈ labelsOf d hd, l ≠ "") →
      (∀ a ∈ hd.take (hd.length - 1), a ≠ "") →
      t.all (fun n => (n.isLeafVariant != n.isSplitVariant) &&
        (n.isLeaf == n.isLeafVariant)) = true)
    (fun d hd L _ hL hl _ => by
      have hne : L ≠ "" := hl L hL
      simp [TreeNode.all, TreeNode.allList, TreeNode.isLeafVariant, TreeNode.isSplitVariant,
        TreeNode.isLeaf, TreeNode.label, TreeNode.attr, TreeNode.children, hne])
    (fun d hd b kids hwf' hc3 hb hne _ hkids hl ha => by
      have hbne : cell hd b ≠ "" :=
        ha _ ((mem_nonlabel_iff hd _).2 ⟨b, hb, rfl⟩)
      have hkne : kids.isEmpty = false := by
        cases kids with
        | nil => exact absurd rfl hne
        | cons _ _ => rfl
      simp only [TreeNode.all, Bool.and_eq_true]
      refine ⟨by simp [TreeNode.isLeafVariant, TreeNode.isSplitVariant, TreeNode.isLeaf,
        TreeNode.label, TreeNode.attr, TreeNode.children, hbne, hkne], ?_⟩
      rw [TreeNode.allList_iff]
      intro kt hkt
      obtain ⟨_, hPk⟩ := hkids kt hkt
      apply hPk
      · intro l hl'
        rw [labelsOf_subtable hd d.tail b kt.1 hb] at hl'
        exact hl l (column_rowsWith_subset d.tail b _ kt.1 l hl')
      · intro a ha'
        obtain ⟨i, hi, _, hia⟩ := nonlabel_eraseIdx hd b hb a ha'
        exact ha a ((mem_nonlabel_iff hd a).2 ⟨i, hi, hia⟩))
    data headers hwf
  exact ⟨t, hres, hP hlab hattr⟩

/-- Witness for C11 (amended) on the outlook table. -/
theorem built_nodes_are_leaf_or_split_witness :
    WellFormed outlookTable outlookHeaders ∧
    (∀ l ∈ labelsOf outlookTable outlookHeaders, l ≠ "") ∧
    (∀ a ∈ outlookHeaders.take (outlookHeaders.length - 1), a ≠ "") ∧
    ∃ t, DecisionTree.buildTree (Real.logb 2) reverseOrder outlookTable outlookHeaders =
        .ok t ∧
      t.all (fun n => (n.isLeafVariant != n.isSplitVariant) &&
        (n.isLeaf == n.isLeafVariant)) = true :=
  ⟨by decide, by decide, by decide, built_nodes_are_leaf_or_split (Real.logb 2) reverseOrder
    outlookTable outlookHeaders (by decide) (by decide) (by decide)⟩

/-- C12, evaluated at tables without data rows or without columns: on the table that holds
only the header row, on the empty table, and on a table whose rows have no fields,
`buildTree` does not check its input; its first statement reads `data[1][labelIndex]`
outside the vector, which is the fault `outOfBounds` (undefined behaviour in the program),
not a reported error. -/
theorem buildTree_reads_out_of_range_on_empty_input (h : HashOrder) :
    DecisionTree.buildTree (Real.logb 2) h headerOnlyTable weatherHeaders =
      .error Fault.outOfBounds ∧
    DecisionTree.buildTree (Real.logb 2) h [] [] = .error Fault.outOfBounds ∧
    DecisionTree.buildTree (Real.logb 2) h [[], []] [] = .error Fault.outOfBounds :=
  ⟨rfl, rfl, rfl⟩

/-- C13, counterexample: asked for `Humidity` on the weather table, whose only non-label
header is `Weather`, `calculateInformationGain` writes one line to `cerr` and returns the
number `0` to its caller. -/
theorem calculateInformationGain_unknown_returns_zero :
    "Humidity" ∉ weatherHeaders.take (weatherHeaders.length - 1) ∧
    ∃ ent : ℝ, DataSheet.calculateEntropy (Real.logb 2) insertionOrder weatherTable = .ok ent ∧
      DataSheet.calculateInformationGain (Real.logb 2) insertionOrder weatherTable ent
        "Humidity" = .ok (["Attribute not found: Humidity"], 0) :=
  ⟨by decide, _, DataSheet.calculateEntropy_eq (Real.logb 2) insertionOrder weatherTable
    weatherHeaders (by decide),
    DataSheet.calculateInformationGain_missing (Real.logb 2) insertionOrder
      ["Weather", "Play"] [["Sunny", "Yes"], ["Sunny", "Yes"], ["Rainy", "No"]] _ "Humidity"
      (by decide)⟩

/-- C13, amended: on a well-formed table `calculateInformationGain` returns a number for
every name.  For a name that is not a non-label header it writes the line
`Attribute not found: <name>` to `cerr` and returns `0`.  For a non-label header it writes
nothing and returns the gain of the first column `i` that carries the name: the member
`entropyOfDatas` minus the sum, over the values `v` observed in column `i`, of the share of
rows with value `v` times the Shannon entropy of the labels of those rows; when
`entropyOfDatas` is the entropy that `calculateEntropy` returns for the table, this is the
number that `calculateIG_OnSubset` returns for the table and column `i`. -/
theorem calculateInformationGain_reports_on_cerr {α : Type} [LinearOrderedField α]
    (log2 : α → α) (h : HashOrder) (dataFile : Table) (headers : Row) (ent : α)
    (name : String) (hwf : WellFormed dataFile headers) :
    (name ∉ headers.take (headers.length - 1) →
      DataSheet.calculateInformationGain log2 h dataFile ent name =
        .ok (["Attribute not found: " ++ name], 0)) ∧
    (name ∈ headers.take (headers.length - 1) →
      ∃ i : Nat, i < headers.length - 1 ∧ headers[i]? = some name ∧
        (∀ j, j < i → headers[j]? ≠ some name) ∧
        DataSheet.calculateInformationGain log2 h dataFile ent name =
          .ok ([], ent - ∑ v ∈ (column dataFile.tail i).toFinset,
            ((rowsWith dataFile.tail i v).length : α) / (dataFile.tail.length : α) *
              shannon log2 (column (rowsWith dataFile.tail i v) (headers.length - 1))) ∧
        (DataSheet.calculateEntropy log2 h dataFile = .ok ent →
          DecisionTree.calculateIG_OnSubset log2 h dataFile (i : Int) =
            .ok (ent - ∑ v ∈ (column dataFile.tail i).toFinset,
              ((rowsWith dataFile.tail i v).length : α) / (dataFile.tail.length : α) *
                shannon log2 (column (rowsWith dataFile.tail i v) (headers.length - 1))))) := by
  obtain ⟨r1, rest, hdata, hc1, hw⟩ := hwf.shape
  subst hdata
  constructor
  · intro hnot
    apply DataSheet.calculateInformationGain_missing
    intro i hi he
    exact hnot ((mem_nonlabel_iff headers name).2 ⟨i, hi, he⟩)
  · intro hmem
    obtain ⟨i, hi, hie, hfind⟩ := find_attribute_some headers name (headers.length - 1)
      ((mem_nonlabel_iff headers name).1 hmem)
    have hil : i < headers.length := by omega
    refine ⟨i, hi, (cell_eq_iff headers i hil name).1 hie, fun j hj hje => ?_,
      DataSheet.calculateInformationGain_found log2 h headers (r1 :: rest) ent name i
        hc1 hw hi hfind, fun hent => ?_⟩
    · have hp := find_range_first (fun j => decide (cell headers j = name))
        (headers.length - 1) i hfind j hj
      have hjc : cell headers j = name := (cell_eq_iff headers j (by omega) name).2 hje
      simp [hjc] at hp
    · have he2 := DataSheet.calculateEntropy_eq log2 h (headers :: r1 :: rest) headers hwf
      rw [he2] at hent
      have hee : shannon log2 (labelsOf (headers :: r1 :: rest) headers) = ent :=
        Except.ok.inj hent
      rw [← hee]
      exact DecisionTree.calculateIG_OnSubset_eq log2 h headers (r1 :: rest) i hc1 hw hil

/-- Witness for C13 (amended) on the weather table, over the reals and with the entropy
that `calculateEntropy` returns: the name `Humidity` takes the branch that reports on
`cerr`, the name `Weather` of the only attribute column the branch that returns the gain,
the same number as `calculateIG_OnSubset` returns for column `0`. -/
theorem calculateInformationGain_reports_on_cerr_witness :
    WellFormed weatherTable weatherHeaders ∧
    "Weather" ∈ weatherHeaders.take (weatherHeaders.length - 1) ∧
    "Humidity" ∉ weatherHeaders.take (weatherHeaders.length - 1) ∧
    ∃ (ent g : ℝ),
      DataSheet.calculateEntropy (Real.logb 2) reverseOrder weatherTable = .ok ent ∧
      DataSheet.calculateInformationGain (Real.logb 2) reverseOrder weatherTable ent
        "Humidity" = .ok (["Attribute not found: " ++ "Humidity"], 0) ∧
      DataSheet.calculateInformationGain (Real.logb 2) reverseOrder weatherTable ent
        "Weather" = .ok ([], g) ∧
      DecisionTree.calculateIG_OnSubset (Real.logb 2) reverseOrder weatherTable
        ((0 : Nat) : Int) = .ok g := by
  have hent := DataSheet.calculateEntropy_eq (Real.logb 2) reverseOrder weatherTable
    weatherHeaders (by decide)
  obtain ⟨i, hi, _, _, hfound, hsame⟩ :=
    (calculateInformationGain_reports_on_cerr (Real.logb 2) reverseOrder weatherTable
      weatherHeaders (shannon (Real.logb 2) (labelsOf weatherTable weatherHeaders))
      "Weather" (by decide)).2 (by decide)
  have hi0 : i = 0 := by
    have : weatherHeaders.length - 1 = 1 := by decide
    omega
  subst hi0
  exact ⟨by decide, by decide, by decide, _, _, hent,
    (calculateInformationGain_reports_on_cerr (Real.logb 2) reverseOrder weatherTable
      weatherHeaders _ "Humidity" (by decide)).1 (by decide), hfound, hsame hent⟩

/-- C14, counterexample: on the table read from the lines `Weather,Play`, `Sunny,`, `Rainy,`
the tree that `buildTree` returns is the single leaf with the empty label; `printTree` writes
for it the one line `Attribute = `, the line of an attribute node: the line does not contain
`Leaf = `, and it shows the node neither as a Leaf nor as a Split. -/
theorem printTree_empty_label_leaf_as_attribute :
    DecisionTree.buildTree (Real.logb 2) insertionOrder emptyLabelTable weatherHeaders =
      .ok (TreeNode.mk "" "" []) ∧
    (TreeNode.mk "" "" []).children = [] ∧
    DecisionTree.printTree insertionOrder (some (TreeNode.mk "" "" [])) =
      .ok ["Attribute = "] ∧
    (¬ ∃ pre suf : String, "Attribute = " = pre ++ "Leaf = " ++ suf) ∧
    ¬ lineShows "Attribute = " (TreeNode.mk "" "" []) := by
  refine ⟨rfl, rfl, rfl, ?_, ?_⟩
  · rintro ⟨pre, suf, h⟩
    have hm : 'L' ∈ ("Attribute = " : String).data := by
      rw [h]
      simp only [String.data_append, List.mem_append]
      exact Or.inl (Or.inr (by decide))
    revert hm
    decide
  · rintro (⟨h1, _⟩ | ⟨h1, _⟩)
    · revert h1
      decide
    · revert h1
      decide

/-- C14, amended: for a tree in which the keys of the children of every node are pairwise
distinct and no node with a non-empty label has children, `printTree` returns a list of
lines with exactly one line per node; the lines follow the nodes in depth-first pre-order
with the children of every node taken in strictly ascending order of their keys; the line of
a node with a non-empty label ends in `Leaf = <label>` and the line of a node with the empty
label ends in `Attribute = <name>`; when every node is a Leaf or a Split, the line of a
Leaf ends in `Leaf = <label>` and the line of a Split in `Attribute = <name>`; and the
lines are the same for any two iteration orders of the children maps and for every
recursion bound above the depth of the tree. -/
theorem printTree_one_line_per_node (h h' : HashOrder) (t : TreeNode)
    (hk : t.keysDistinct = true)
    (hc : t.all (fun n => !n.isLeaf || n.children.isEmpty) = true) :
    ∃ lines, DecisionTree.printTree h (some t) = .ok lines ∧
      DecisionTree.printTree h' (some t) = .ok lines ∧
      (∀ fuel, t.depth < fuel → DecisionTree.printTreeFuel h fuel t "" "" "" = .ok lines) ∧
      lines.length = t.size ∧
      TreeNode.PreorderAscending t t.preorder ∧
      List.Forall₂ linePrints lines t.preorder ∧
      (t.all (fun n => n.isLeafVariant || n.isSplitVariant) = true →
        List.Forall₂ lineShows lines t.preorder) := by
  obtain ⟨lines, hl1, hl2⟩ := DecisionTree.printTreeFuel_lines
    (fun n => !n.isLeaf || n.children.isEmpty) (t.depth + 1) t "" "" ""
    (Nat.lt_succ_self _) hk hc hc
  have hlen : lines.length = t.size := by
    rw [hl2.length_eq]
    exact TreeNode.preorder_length (t.depth + 1) t (Nat.lt_succ_self _) hk
  refine ⟨lines, hl1 h _ (Nat.lt_succ_self _), hl1 h' _ (Nat.lt_succ_self _),
    fun fuel hf => hl1 h fuel hf, hlen,
    TreeNode.preorder_ascending (t.depth + 1) t (Nat.lt_succ_self _) hk,
    hl2.imp (fun _ _ hr => hr.1), fun hv => ?_⟩
  obtain ⟨lines2, hm1, hm2⟩ := DecisionTree.printTreeFuel_lines
    (fun n => n.isLeafVariant || n.isSplitVariant) (t.depth + 1) t "" "" ""
    (Nat.lt_succ_self _) hk hc hv
  have heq : lines2 = lines := by
    have h1 := hl1 h _ (Nat.lt_succ_self t.depth)
    rw [hm1 h _ (Nat.lt_succ_self t.depth)] at h1
    exact Except.ok.inj h1
  rw [← heq]
  exact hm2.imp (fun line n hr => lineShows_of_linePrints line n hr.1 hr.2)

/-- Witness for C14 (amended) on the tree with root `Weather` and the children
`Sunny -> Yes`, `Rainy -> No`, whose keys are stored in descending order, and on the leaf
with the empty label that `buildTree` returns for the table of the counterexample. -/
theorem printTree_one_line_per_node_witness :
    (weatherTree.keysDistinct = true ∧
      weatherTree.all (fun n => !n.isLeaf || n.children.isEmpty) = true ∧
      ∃ lines, DecisionTree.printTree insertionOrder (some weatherTree) = .ok lines ∧
        DecisionTree.printTree reverseOrder (some weatherTree) = .ok lines ∧
        (∀ fuel, weatherTree.depth < fuel →
          DecisionTree.printTreeFuel insertionOrder fuel weatherTree "" "" "" = .ok lines) ∧
        lines.length = weatherTree.size ∧
        TreeNode.PreorderAscending weatherTree weatherTree.preorder ∧
        List.Forall₂ linePrints lines weatherTree.preorder ∧
        (weatherTree.all (fun n => n.isLeafVariant || n.isSplitVariant) = true →
          List.Forall₂ lineShows lines weatherTree.preorder)) ∧
    ((TreeNode.mk "" "" []).keysDistinct = true ∧
      (TreeNode.mk "" "" []).all (fun n => !n.isLeaf || n.children.isEmpty) = true ∧
      ∃ lines,
        DecisionTree.printTree insertionOrder (some (TreeNode.mk "" "" [])) = .ok lines ∧
        DecisionTree.printTree reverseOrder (some (TreeNode.mk "" "" [])) = .ok lines ∧
        (∀ fuel, (TreeNode.mk "" "" []).depth < fuel →
          DecisionTree.printTreeFuel insertionOrder fuel (TreeNode.mk "" "" []) "" "" "" =
            .ok lines) ∧
        lines.length = (TreeNode.mk "" "" []).size ∧
        TreeNode.PreorderAscending (TreeNode.mk "" "" []) (TreeNode.mk "" "" []).preorder ∧
        List.Forall₂ linePrints lines (TreeNode.mk "" "" []).preorder ∧
        ((TreeNode.mk "" "" []).all (fun n => n.isLeafVariant || n.isSplitVariant) = true →
          List.Forall₂ lineShows lines (TreeNode.mk "" "" []).preorder)) :=
  ⟨⟨by decide, by decide, printTree_one_line_per_node insertionOrder reverseOrder weatherTree
      (by decide) (by decide)⟩,
    ⟨by decide, by decide, printTree_one_line_per_node insertionOrder reverseOrder
      (TreeNode.mk "" "" []) (by decide) (by decide)⟩⟩

/-- C15: starting from a well-formed table, every table that `buildTree` is called on,
directly or through any chain of recursive calls, is well-formed again (its first row is
the reduced header, it has at least one data row, every row is as wide as the header);
on each of them `buildTree` returns a tree and `calculateIG_OnSubset` returns a number for
every non-label column, so no read leaves its vector; each direct call passes a header
that is one entry shorter, and the trees of the direct calls are the children of the
returned node. -/
theorem recursive_calls_stay_well_formed {α : Type} [LinearOrderedField α]
    (log2 : α → α) (h : HashOrder) (data : Table) (headers : Row)
    (hwf : WellFormed data headers) :
    ∀ d hd, Relation.ReflTransGen (DecisionTree.DirectCall log2 h) (data, headers) (d, hd) →
      WellFormed d hd ∧
      (∀ i, i < hd.length - 1 →
        ∃ g, DecisionTree.calculateIG_OnSubset log2 h d (i : Int) = .ok g) ∧
      ∃ t calls, DecisionTree.buildTree log2 h d hd = .ok t ∧
        DecisionTree.recursiveCalls log2 h d hd = .ok calls ∧
        (∀ y ∈ calls, WellFormed y.1 y.2 ∧ y.2.length + 1 = hd.length) ∧
        List.Forall₂ (fun (y : Table × Row) (kt : String × TreeNode) =>
          DecisionTree.buildTree log2 h y.1 y.2 = .ok kt.2) calls t.children := by
  have hall : ∀ x : Table × Row,
      Relation.ReflTransGen (DecisionTree.DirectCall log2 h) (data, headers) x →
        WellFormed x.1 x.2 := by
    intro x hx
    induction hx with
    | refl => exact hwf
    | tail _ hstep ih =>
      obtain ⟨calls, hcalls, hmem⟩ := hstep
      obtain ⟨calls', hcalls', hprop⟩ :=
        DecisionTree.recursiveCalls_wellFormed log2 h _ _ ih
      rw [hcalls] at hcalls'
      have : calls = calls' := Except.ok.inj hcalls'
      subst this
      exact (hprop _ hmem).1
  intro d hd hreach
  have hw2 : WellFormed d hd := hall (d, hd) hreach
  obtain ⟨r1, rest, hdata, hc, hw⟩ := hw2.shape
  obtain ⟨t, calls, hres, hcalls, hkids⟩ :=
    DecisionTree.recursiveCalls_children log2 h d hd hw2
  obtain ⟨calls', hcalls', hprop⟩ := DecisionTree.recursiveCalls_wellFormed log2 h d hd hw2
  rw [hcalls] at hcalls'
  have hcc : calls = calls' := Except.ok.inj hcalls'
  subst hcc
  refine ⟨hw2, fun i hi => ?_, t, calls, hres, hcalls, hprop, hkids⟩
  rw [hdata]
  exact ⟨_, DecisionTree.calculateIG_OnSubset_eq log2 h hd (r1 :: rest) i hc hw (by omega)⟩

/-- Witness for C15 on the outlook table. -/
theorem recursive_calls_stay_well_formed_witness :
    WellFormed outlookTable outlookHeaders ∧
    ∀ d hd, Relation.ReflTransGen (DecisionTree.DirectCall (Real.logb 2) insertionOrder)
        (outlookTable, outlookHeaders) (d, hd) →
      WellFormed d hd ∧
      (∀ i, i < hd.length - 1 →
        ∃ g, DecisionTree.calculateIG_OnSubset (Real.logb 2) insertionOrder d (i : Int) =
          .ok g) ∧
      ∃ t calls, DecisionTree.buildTree (Real.logb 2) insertionOrder d hd = .ok t ∧
        DecisionTree.recursiveCalls (Real.logb 2) insertionOrder d hd = .ok calls ∧
        (∀ y ∈ calls, WellFormed y.1 y.2 ∧ y.2.length + 1 = hd.length) ∧
        List.Forall₂ (fun (y : Table × Row) (kt : String × TreeNode) =>
          DecisionTree.buildTree (Real.logb 2) insertionOrder y.1 y.2 = .ok kt.2) calls
          t.children :=
  ⟨by decide, recursive_calls_stay_well_formed (Real.logb 2) insertionOrder outlookTable
    outlookHeaders (by decide)⟩

/-- C16: over the reals, on a well-formed table, every gain that the selection loop
computes exceeds the start value `-1.0`; with at least one non-label column the loop ends
with `bestIndex` in `[0, colCount - 1)`, and `bestIndex < 0` after the loop is possible only
when there is no non-label column. -/
theorem selection_finds_candidate (h : HashOrder) (data : Table) (headers : Row)
    (hwf : WellFormed data headers) :
    ∃ st : Int × ℝ,
      DecisionTree.selectBest
        (fun i : Nat => DecisionTree.calculateIG_OnSubset (Real.logb 2) h data (i : Int))
        (headers.length - 1) = .ok st ∧
      (∀ j, j < headers.length - 1 →
        ∃ g : ℝ, DecisionTree.calculateIG_OnSubset (Real.logb 2) h data (j : Int) = .ok g ∧
          -1 < g) ∧
      (2 ≤ headers.length → 0 ≤ st.1 ∧ st.1 < ((headers.length - 1 : Nat) : Int)) ∧
      (st.1 < 0 → headers.length - 1 = 0) := by
  obtain ⟨r1, rest, hdata, hc1, hw⟩ := hwf.shape
  have hgains : ∀ j, j < headers.length - 1 →
      DecisionTree.calculateIG_OnSubset (Real.logb 2) h data (j : Int) =
        .ok (specGain (Real.logb 2) data.tail j (headers.length - 1)) := by
    intro j hj
    rw [hdata]
    exact DecisionTree.calculateIG_OnSubset_eq (Real.logb 2) h headers (r1 :: rest) j hc1 hw
      (by omega)
  have hsel := DecisionTree.selectBest_ok
    (fun i : Nat => DecisionTree.calculateIG_OnSubset (Real.logb 2) h data (i : Int))
    (fun i : Nat => specGain (Real.logb 2) data.tail i (headers.length - 1))
    (headers.length - 1) hgains
  have hfound : 1 ≤ headers.length - 1 →
      ∃ b : Nat, argBest (fun i => specGain (Real.logb 2) data.tail i (headers.length - 1))
        (headers.length - 1) =
          ((b : Int), specGain (Real.logb 2) data.tail b (headers.length - 1)) ∧
        b < headers.length - 1 := by
    intro hn
    rcases argBest_spec (fun i => specGain (Real.logb 2) data.tail i (headers.length - 1))
        (headers.length - 1) with ⟨he, _⟩ | ⟨b, he, hb, _⟩
    · exact absurd he (argBest_real_found data.tail (headers.length - 1)
        (headers.length - 1) hn)
    · exact ⟨b, he, hb⟩
  refine ⟨_, hsel, fun j hj => ⟨_, hgains j hj, ?_⟩, fun hc => ?_, fun hneg => ?_⟩
  · have := specGain_nonneg data.tail j (headers.length - 1)
    linarith
  · obtain ⟨b, he, hb⟩ := hfound (by omega)
    rw [he]
    simp only
    omega
  · by_contra hne
    obtain ⟨b, he, hb⟩ := hfound (by omega)
    rw [he] at hneg
    simp only at hneg
    omega

/-- Witness for C16 on the weather table, which has one non-label column. -/
theorem selection_finds_candidate_witness :
    WellFormed weatherTable weatherHeaders ∧
    ∃ st : Int × ℝ,
      DecisionTree.selectBest
        (fun i : Nat =>
          DecisionTree.calculateIG_OnSubset (Real.logb 2) insertionOrder weatherTable (i : Int))
        (weatherHeaders.length - 1) = .ok st ∧
      (∀ j, j < weatherHeaders.length - 1 →
        ∃ g : ℝ, DecisionTree.calculateIG_OnSubset (Real.logb 2) insertionOrder weatherTable
          (j : Int) = .ok g ∧ -1 < g) ∧
      (2 ≤ weatherHeaders.length →
        0 ≤ st.1 ∧ st.1 < ((weatherHeaders.length - 1 : Nat) : Int)) ∧
      (st.1 < 0 → weatherHeaders.length - 1 = 0) :=
  ⟨by decide, selection_finds_candidate insertionOrder weatherTable weatherHeaders (by decide)⟩

/-- C17: over the reals, on a well-formed subset and for a non-label column,
`calculateIG_OnSubset` returns a gain that is not negative. -/
theorem calculateIG_OnSubset_nonneg (h : HashOrder) (subset : Table) (headers : Row) (a : Nat)
    (hwf : WellFormed subset headers) (ha : a < headers.length - 1) :
    ∃ g : ℝ, DecisionTree.calculateIG_OnSubset (Real.logb 2) h subset (a : Int) = .ok g ∧
      0 ≤ g := by
  obtain ⟨r1, rest, hdata, hc1, hw⟩ := hwf.shape
  subst hdata
  exact ⟨_, DecisionTree.calculateIG_OnSubset_eq (Real.logb 2) h headers (r1 :: rest) a hc1 hw
    (by omega), specGain_nonneg _ _ _⟩

/-- Witness for C17: the gain of column `Windy` of the outlook table. -/
theorem calculateIG_OnSubset_nonneg_witness :
    WellFormed outlookTable outlookHeaders ∧ 1 < outlookHeaders.length - 1 ∧
    ∃ g : ℝ, DecisionTree.calculateIG_OnSubset (Real.logb 2) reverseOrder outlookTable
        ((1 : Nat) : Int) = .ok g ∧ 0 ≤ g :=
  ⟨by decide, by decide, calculateIG_OnSubset_nonneg reverseOrder outlookTable outlookHeaders 1
    (by decide) (by decide)⟩

/-- C18: on a well-formed table with pairwise distinct header names, along every path from
the root of the returned tree down to a leaf the attributes of the nodes with children are
pairwise distinct, each of them is a non-label header name of the table, and none of them
is the name of the label column. -/
theorem split_attributes_distinct_on_paths {α : Type} [LinearOrderedField α]
    (log2 : α → α) (h : HashOrder) (data : Table) (headers : Row)
    (hwf : WellFormed data headers) (hnd : headers.Nodup) :
    ∃ t, DecisionTree.buildTree log2 h data headers = .ok t ∧
      ∀ p ∈ t.paths, p.Nodup ∧
        ∀ a ∈ p, a ∈ headers.take (headers.length - 1) ∧ headers.getLast? ≠ some a := by
  obtain ⟨t, hres, hP⟩ := DecisionTree.buildTree_induct log2 h
    (fun _ hd t => hd.Nodup → ∀ p ∈ t.paths, p.Nodup ∧
      ∀ a ∈ p, a ∈ hd.take (hd.length - 1))
    (fun d hd L _ _ _ p hp => by
      simp only [TreeNode.paths, List.mem_singleton] at hp
      subst hp
      exact ⟨List.nodup_nil, fun a ha => absurd ha (List.not_mem_nil a)⟩)
    (fun d hd b kids hwf' hc3 hb hne _ hkids hnd' p hp => by
      cases kids with
      | nil => exact absurd rfl hne
      | cons k ks =>
        simp only [TreeNode.paths, List.mem_map] at hp
        obtain ⟨p', hp', hpe⟩ := hp
        rw [TreeNode.mem_pathsList] at hp'
        obtain ⟨kt, hkt, hpk⟩ := hp'
        obtain ⟨_, hPk⟩ := hkids kt hkt
        have hsubnd : (hd.eraseIdx b).Nodup := hnd'.sublist (List.eraseIdx_sublist hd b)
        obtain ⟨hpn, hpa⟩ := hPk hsubnd p' hpk
        have hfacts : ∀ a ∈ p', a ∈ hd.take (hd.length - 1) ∧ a ≠ cell hd b := by
          intro a ha
          obtain ⟨i, hi, hib, hia⟩ := nonlabel_eraseIdx hd b hb a (hpa a ha)
          refine ⟨(mem_nonlabel_iff hd a).2 ⟨i, hi, hia⟩, ?_⟩
          rw [← hia]
          exact cell_ne_of_nodup hd hnd' i b (by omega) (by omega) hib
        rw [← hpe]
        refine ⟨List.nodup_cons.mpr ⟨fun hm => (hfacts _ hm).2 rfl, hpn⟩, ?_⟩
        intro a ha
        rcases List.mem_cons.mp ha with h1 | h1
        · rw [h1]
          exact (mem_nonlabel_iff hd _).2 ⟨b, hb, rfl⟩
        · exact (hfacts a h1).1)
    data headers hwf
  refine ⟨t, hres, fun p hp => ⟨(hP hnd p hp).1, fun a ha => ⟨(hP hnd p hp).2 a ha, ?_⟩⟩⟩
  intro hlast
  obtain ⟨i, hi, hia⟩ := (mem_nonlabel_iff headers a).1 ((hP hnd p hp).2 a ha)
  have hc := hwf.2.1
  rw [List.getLast?_eq_getElem?] at hlast
  have hl2 : cell headers (headers.length - 1) = a :=
    (cell_eq_iff headers _ (by omega) a).2 hlast
  exact cell_ne_of_nodup headers hnd i (headers.length - 1) (by omega) (by omega) (by omega)
    (hia.trans hl2.symm)

/-- Witness for C18 on the outlook table. -/
theorem split_attributes_distinct_on_paths_witness :
    WellFormed outlookTable outlookHeaders ∧ outlookHeaders.Nodup ∧
    ∃ t, DecisionTree.buildTree (Real.logb 2) insertionOrder outlookTable outlookHeaders =
        .ok t ∧
      ∀ p ∈ t.paths, p.Nodup ∧
        ∀ a ∈ p, a ∈ outlookHeaders.take (outlookHeaders.length - 1) ∧
          outlookHeaders.getLast? ≠ some a :=
  ⟨by decide, by decide, split_attributes_distinct_on_paths (Real.logb 2) insertionOrder
    outlookTable outlookHeaders (by decide) (by decide)⟩

/-- C19: on a well-formed table with pairwise distinct header names, and for every
non-label column `i`, `calculateInformationGain` called with the name of column `i` and the
entropy that the constructor cached from `calculateEntropy` writes nothing to `cerr` and
returns the same number as `calculateIG_OnSubset` on the whole table and index `i`; this
holds in every ordered field, in particular over the reals. -/
theorem gain_implementations_agree {α : Type} [LinearOrderedField α]
    (log2 : α → α) (h : HashOrder) (dataFile : Table) (headers : Row) (i : Nat)
    (hwf : WellFormed dataFile headers) (hnd : headers.Nodup) (hi : i < headers.length - 1) :
    ∃ (name : String) (ent g : α), headers[i]? = some name ∧
      DataSheet.calculateEntropy log2 h dataFile = .ok ent ∧
      DecisionTree.calculateIG_OnSubset log2 h dataFile (i : Int) = .ok g ∧
      DataSheet.calculateInformationGain log2 h dataFile ent name = .ok ([], g) := by
  obtain ⟨r1, rest, hdata, hc1, hw⟩ := hwf.shape
  have hil : i < headers.length := by omega
  obtain ⟨j, hj, hje, hfind⟩ := find_attribute_some headers (cell headers i)
    (headers.length - 1) ⟨i, hi, rfl⟩
  have hjl : j < headers.length := by omega
  have hji : j = i := by
    rw [cell_eq_iff headers j hjl, List.getElem?_eq_getElem hjl] at hje
    have hce : cell headers i = headers[i] := by
      have := (cell_eq_iff headers i hil headers[i]).2 (List.getElem?_eq_getElem hil)
      exact this
    rw [hce] at hje
    exact (hnd.getElem_inj_iff).1 (Option.some.inj hje)
  subst hji
  subst hdata
  refine ⟨cell headers j, shannon log2 (labelsOf (headers :: r1 :: rest) headers),
    specGain log2 (r1 :: rest) j (headers.length - 1), (cell_eq_iff headers j hil _).1 rfl,
    DataSheet.calculateEntropy_eq log2 h (headers :: r1 :: rest) headers hwf, ?_, ?_⟩
  · exact DecisionTree.calculateIG_OnSubset_eq log2 h headers (r1 :: rest) j hc1 hw hil
  · exact DataSheet.calculateInformationGain_found log2 h headers (r1 :: rest) _ _ j hc1 hw
      hi hfind

/-- Witness for C19: column `Windy` of the outlook table, over the reals. -/
theorem gain_implementations_agree_witness :
    WellFormed outlookTable outlookHeaders ∧ outlookHeaders.Nodup ∧
    1 < outlookHeaders.length - 1 ∧
    ∃ (name : String) (ent g : ℝ), outlookHeaders[1]? = some name ∧
      DataSheet.calculateEntropy (Real.logb 2) insertionOrder outlookTable = .ok ent ∧
      DecisionTree.calculateIG_OnSubset (Real.logb 2) insertionOrder outlookTable
        ((1 : Nat) : Int) = .ok g ∧
      DataSheet.calculateInformationGain (Real.logb 2) insertionOrder outlookTable ent name =
        .ok ([], g) :=
  ⟨by decide, by decide, by decide, gain_implementations_agree (Real.logb 2) insertionOrder
    outlookTable outlookHeaders 1 (by decide) (by decide) (by decide)⟩

/-- C20: for every string and delimiter, `splitDelimiter` leaves in `output`, whatever it
held before, a non-empty list of fields none of which contains the delimiter; there is one
field more than the string has delimiters, and joining the fields with the delimiter
between neighbours gives the string back.  Any number of loop rounds of at least
`input.size() + 1` gives the same fields. -/
theorem splitDelimiter_fields (input : List Char) (old : List (List Char)) (d : Char) :
    ∃ out, DataSheet.splitDelimiter input old d = .ok out ∧
      out ≠ [] ∧ (∀ f ∈ out, d ∉ f) ∧ out.length = input.count d + 1 ∧
      List.intercalate [d] out = input ∧
      ∀ fuel, input.length + 1 ≤ fuel → DataSheet.splitLoop input d fuel 0 [] = .ok out := by
  refine ⟨splitFields d input, ?_, splitFields_ne_nil d input, splitFields_no_delimiter d input,
    splitFields_length d input, splitFields_intercalate d input, fun fuel hf => ?_⟩
  · have := DataSheet.splitLoop_eq input d (input.length + 1) 0 [] (Nat.zero_le _) (by omega)
    simpa [DataSheet.splitDelimiter] using this
  · have := DataSheet.splitLoop_eq input d fuel 0 [] (Nat.zero_le _) (by omega)
    simpa using this
